import Mathlib

/-!
# korrel8r: the correlation engine, the rule graph, the alert and Kubernetes stores

A shallow embedding of `pkg/engine/engine.go` (registries, `ParseClass`,
`Follow`, `GetAll`, `FollowAll`, `followEach`), of `pkg/graph/data.go` (`Data`,
`NewData`, `AddRule`, `NodeFor`), of `Store.Get` and `Class.ID` in
`pkg/domains/alert/alert.go` and of the reference conversions in
`pkg/k8s/k8s.go`, with the theorems that settle their contract.

Conventions of the embedding.

* A Go `error` is the list of its components as `multierr.Errors` returns
  them: `nil` is `[]`, a plain error is a one-element list.
* A Go map is a function into `Option`.
* What a store can observe of a `context.Context` is `ctx.Err()`; a context
  handed to `Follow` is read once per hop.
* The collaborators (`Rule.Apply`, `Store.Get`) are functions; every call the
  engine makes to one of them is written to a trace, so that "is called" and
  "is not called" are statements about the trace.
-/

namespace Korrel8r

/-! ## Data model -/

/-- The locator `uri.Reference`: a path and a raw query. -/
structure Reference where
  Path : String
  RawQuery : String
deriving DecidableEq, Repr

/-- The sentinel `uri.Empty`: both fields empty. -/
def Empty : Reference := ⟨"", ""⟩

/-- Modelled from the spec: `korrel8r.Class` is an interface whose
implementations are outside `engine.go`; the spec makes it a value type
identified by (domain, local-name), compared structurally. -/
structure Class where
  Domain : String
  Name : String
deriving DecidableEq, Repr

/-- The components an `error` of the engine is made of. `E` is the type of the
errors the collaborators (rules, stores, contexts) produce. -/
inductive Err (E : Type) where
  /-- The error of `fmt.Errorf("invalid path: %v", path)`; the path is shown by its rule names. -/
  | invalidPath (path : List (List String))
  /-- The error of `fmt.Errorf("error following %v: %w", RuleName(rule), err)`. -/
  | following (rule : String) (cause : E)
  /-- The error of `fmt.Errorf("no store for domain: %v", name)`. -/
  | noStore (domain : String)
  /-- The error of `fmt.Errorf("domain not found: %v", name)`. -/
  | domainNotFound (name : String)
  /-- The error of `fmt.Errorf("invalid class name: %v", name)`. -/
  | invalidClassName (name : String)
  /-- The error of `fmt.Errorf("unknown class in domain %v: %v", d, c)`. -/
  | unknownClass (domain : String) (name : String)
  /-- An error of a collaborator, passed on as it is. -/
  | foreign (e : E)
deriving DecidableEq, Repr

/-- A Go `error`: the list of its components, `[]` for `nil`. -/
abbrev Error (E : Type) := List (Err E)

/-- The library function `multierr.Append`: `nil` when both sides are `nil`,
otherwise the components of the left side followed by those of the right. -/
def multierrAppend {E : Type} (left right : Error E) : Error E := left ++ right

/-- A `korrel8r.Rule`: `RuleName`, `Start()`, `Goal()` and `Apply(object, constraint)`,
which returns a reference and an error. The constraint is a pointer, `none` for `nil`. -/
structure Rule (Obj Con E : Type) where
  Name : String
  Start : Class
  Goal : Class
  Apply : Obj → Option Con → Reference × Option E

/-- A `korrel8r.Store`: `Get(ctx, ref, result)` appends objects to `result` and
returns an error. The first argument is `ctx.Err()` at the time of the call. -/
structure Store (Obj E : Type) where
  Get : Option E → Reference → List Obj × Error E

/-- A `korrel8r.Domain`: `String()` and `Class(name)`, `none` for a `nil` class. -/
structure Domain where
  Name : String
  Class : String → Option Class

/-- The engine: the registries of stores and domains and the rule list. -/
structure Engine (Obj Con E : Type) where
  stores : String → Option (Store Obj E)
  domains : String → Option Domain
  rules : List (Rule Obj Con E)

variable {Obj Con E : Type}

/-! ## Registries and class names -/

/-- The method `Engine.Domain(name)`. -/
def Engine.Domain (e : Engine Obj Con E) (name : String) : Except (Err E) Korrel8r.Domain :=
  match e.domains name with
  | some d => .ok d
  | none => .error (.domainNotFound name)

/-- The method `Engine.Store(name)`. -/
def Engine.Store (e : Engine Obj Con E) (name : String) : Except (Err E) (Korrel8r.Store Obj E) :=
  match e.stores name with
  | some s => .ok s
  | none => .error (.noStore name)

/-- The text before and after the first `sep`, when there is one. -/
def cutChars (sep : Char) : List Char → Option (List Char × List Char)
  | [] => none
  | ch :: rest =>
    if ch = sep then some ([], rest)
    else match cutChars sep rest with
      | some (before, after) => some (ch :: before, after)
      | none => none

/-- The library function `strings.Cut(s, "/")`. -/
def Cut (s : String) : String × String × Bool :=
  match cutChars '/' s.data with
  | some (before, after) => (String.mk before, String.mk after, true)
  | none => (s, "", false)

/-- The method `Engine.ParseClass(name)`; the engine is returned with the result
since the method has a pointer receiver. -/
def Engine.ParseClass (e : Engine Obj Con E) (name : String) :
    Engine Obj Con E × Except (Err E) Class :=
  match Cut name with
  | (d, c, ok) =>
    if !ok || c == "" || d == "" then (e, .error (.invalidClassName name))
    else match e.Domain d with
      | .error err => (e, .error err)
      | .ok domain =>
        match domain.Class c with
        | none => (e, .error (.unknownClass d c))
        | some cls => (e, .ok cls)

/-! ## Containers -/

/-- Modelled from the spec: `unique.List` of `pkg/unique`, which is not part of the
sources at hand. The spec describes it as an insertion-ordered dedup by value
equality, where appending a value twice yields a list of length 1. Its one field
is the Go field `List`; membership is decided on that field. -/
structure UniqueList (T : Type) where
  list : List T
deriving DecidableEq, Repr

/-- Modelled from the spec: `unique.NewList`, the empty list. -/
def NewList {T : Type} : UniqueList T := ⟨[]⟩

/-- Modelled from the spec: `unique.List.Append(values...)`, each value is added at
the end unless the list holds it already. -/
def UniqueList.Append {T : Type} [DecidableEq T] (l : UniqueList T) (values : List T) :
    UniqueList T :=
  values.foldl (fun acc v => if v ∈ acc.list then acc else ⟨acc.list ++ [v]⟩) l

/-- Modelled from the spec: an entry of `Results` (`results.go` is not part of the
sources at hand; `GetLast` shows the fields `Class`, `References` and `Objects`).
References is a dedup set and Objects an append-only list. -/
structure Result (Obj : Type) where
  Class : Class
  References : UniqueList Reference
  Objects : List Obj

/-- Modelled from the spec: `Results`, an insertion-ordered mapping from class to
its entry; the Go field `List` holds the entries. -/
structure Results (Obj : Type) where
  list : List (Result Obj)

/-- Modelled from the spec: `results.Get(c)` followed by the change `f` made through
the pointer it returns. Lookup by class creates an empty entry on miss. -/
def getThen (c : Class) (f : Result Obj → Result Obj) : List (Result Obj) → List (Result Obj)
  | [] => [f ⟨c, NewList, []⟩]
  | x :: xs => if x.Class = c then f x :: xs else x :: getThen c f xs

/-- The change `.References.Append(refs...)` of an entry. -/
def Result.addReferences (refs : List Reference) (x : Result Obj) : Result Obj :=
  { x with References := x.References.Append refs }

/-- The change `.Objects.Append(objects...)` of an entry. -/
def Result.addObjects (objects : List Obj) (x : Result Obj) : Result Obj :=
  { x with Objects := x.Objects ++ objects }

/-- The statement `results.Get(c).References.Append(refs...)`. -/
def Results.appendReferences (r : Results Obj) (c : Class) (refs : List Reference) :
    Results Obj :=
  ⟨getThen c (Result.addReferences refs) r.list⟩

/-- The statement `results.Get(c).Objects.Append(objects...)`. -/
def Results.appendObjects (r : Results Obj) (c : Class) (objects : List Obj) : Results Obj :=
  ⟨getThen c (Result.addObjects objects) r.list⟩

/-- The entry of class `c`, when there is one. -/
def Results.entry (r : Results Obj) (c : Class) : Option (Result Obj) :=
  r.list.find? (fun x => decide (x.Class = c))

/-- The references recorded for class `c`: `results[c].References`. -/
def Results.refsOf (r : Results Obj) (c : Class) : List Reference :=
  match r.entry c with
  | some x => x.References.list
  | none => []

/-- The objects recorded for class `c`: `results[c].Objects`. -/
def Results.objsOf (r : Results Obj) (c : Class) : List Obj :=
  match r.entry c with
  | some x => x.Objects
  | none => []

/-! ## Paths -/

/-- Modelled from the spec: `graph.Links`, a set of parallel rules. -/
abbrev Links (Obj Con E : Type) := List (Rule Obj Con E)

/-- Modelled from the spec: `graph.MultiPath`, an ordered sequence of Links. -/
abbrev MultiPath (Obj Con E : Type) := List (Links Obj Con E)

instance : Inhabited Class := ⟨⟨"", ""⟩⟩

/-- Modelled from the spec: `Links.Start()`, the start class the rules of a Links
share, read from its first rule. `Follow` asks for it on valid paths only, where
every Links has a first rule. -/
def Links.Start (links : Links Obj Con E) : Class :=
  match links with
  | r :: _ => r.Start
  | [] => default

/-- Modelled from the spec: `Links.Goal()`, the goal class the rules of a Links
share, read from its first rule. -/
def Links.Goal (links : Links Obj Con E) : Class :=
  match links with
  | r :: _ => r.Goal
  | [] => default

/-- Adjacent Links satisfy `prev.goal == next.start`. -/
def adjacent : MultiPath Obj Con E → Bool
  | prev :: next :: rest =>
    decide (Links.Goal prev = Links.Start next) && adjacent (next :: rest)
  | _ => true

/-- Modelled from the spec: `MultiPath.Valid()`. A MultiPath is valid iff every
Links is non-empty and adjacent Links satisfy `prev.goal == next.start`; the empty
MultiPath is an invalid path. -/
def MultiPath.Valid (path : MultiPath Obj Con E) : Bool :=
  !path.isEmpty && path.all (fun links => !links.isEmpty) && adjacent path

/-! ## Traversal -/

/-- A call the engine makes to a collaborator. -/
inductive Event (Obj Con : Type) where
  /-- The call `rule.Apply(s, c)`, the rule shown by its name. -/
  | apply (rule : String) (s : Obj) (c : Option Con)
  /-- The call `store.Get(ctx, ref, result)` on the store of the class. -/
  | get (cls : Class) (ref : Reference)
deriving DecidableEq, Repr

/-- The trace of the calls made so far, oldest first. -/
abbrev Trace (Obj Con : Type) := List (Event Obj Con)

/-- What the body of the loop of `followEach` does for the start object `s`. -/
def followEachStep (rule : Rule Obj Con E) (c : Option Con)
    (st : Error E × UniqueList Reference × Trace Obj Con) (s : Obj) :
    Error E × UniqueList Reference × Trace Obj Con :=
  match st with
  | (merr, refs, tr) =>
    match rule.Apply s c with
    | (ref, err) =>
      let tr := tr ++ [Event.apply rule.Name s c]
      match err with
      | some err => (multierrAppend merr [Err.following rule.Name err], refs, tr)
      | none => if ref = Empty then (merr, refs, tr) else (merr, refs.Append [ref], tr)

/-- The method `followEach(rule, start, c, refs)`: the error it returns, and `refs`
and the trace as it leaves them. -/
def followEach (rule : Rule Obj Con E) (start : List Obj) (c : Option Con)
    (refs : UniqueList Reference) (tr : Trace Obj Con) :
    Error E × UniqueList Reference × Trace Obj Con :=
  start.foldl (followEachStep rule c) ([], refs, tr)

/-- What the body of the loop of `GetAll` does for the reference `ref`. -/
def getAllStep (store : Store Obj E) (ctx : Option E) (cls : Class)
    (st : List Obj × Error E × Trace Obj Con) (ref : Reference) :
    List Obj × Error E × Trace Obj Con :=
  match st with
  | (result, merr, tr) =>
    match store.Get ctx ref with
    | (objects, err) =>
      (result ++ objects, if err.isEmpty then merr else multierrAppend merr err,
        tr ++ [Event.get cls ref])

/-- The method `GetAll(ctx, class, refs, result)`: `result` as it leaves it (a
`ListResult`, which keeps insertion order without dedup), the error it returns and
the trace. -/
def Engine.GetAll (e : Engine Obj Con E) (ctx : Option E) (cls : Class)
    (refs : List Reference) (result : List Obj) (tr : Trace Obj Con) :
    List Obj × Error E × Trace Obj Con :=
  match e.Store cls.Domain with
  | .error err => (result, [err], tr)
  | .ok store => refs.foldl (getAllStep store ctx cls) (result, [], tr)

/-- The variables of `Follow` that its loop changes. -/
structure FollowState (Obj Con E : Type) where
  merr : Error E
  refs : UniqueList Reference
  starters : List Obj
  results : Results Obj
  trace : Trace Obj Con

/-- The inner loop of `Follow`: `followEach` for every rule of the Links. -/
def followLinks (c : Option Con) (links : Links Obj Con E) (st : FollowState Obj Con E) :
    FollowState Obj Con E :=
  links.foldl (fun st rule =>
    match followEach rule st.starters c st.refs st.trace with
    | (err, refs, tr) =>
      { st with merr := multierrAppend st.merr err, refs := refs, trace := tr }) st

/-- The body of the loop of `Follow` for hop `i` of a path of `n` hops; the flag
tells whether the loop is left by `break`. -/
def followHop (e : Engine Obj Con E) (ctx : Nat → Option E) (c : Option Con) (n i : Nat)
    (links : Links Obj Con E) (st : FollowState Obj Con E) : FollowState Obj Con E × Bool :=
  let st := { st with refs := { st.refs with list := [] } }
  let st := followLinks c links st
  let st := { st with results := st.results.appendReferences (Links.Goal links) st.refs.list }
  if i = n - 1 || st.refs.list.length = 0 then (st, true)
  else
    match e.GetAll (ctx i) (Links.Goal links) st.refs.list [] st.trace with
    | (objects, err, tr) =>
      let st := { st with merr := multierrAppend st.merr err, starters := objects, trace := tr }
      let st := { st with results := st.results.appendObjects (Links.Goal links) st.starters }
      (st, false)

/-- The loop of `Follow` from hop `i` on, over the hops that remain. -/
def followLoop (e : Engine Obj Con E) (ctx : Nat → Option E) (c : Option Con) (n : Nat) :
    Nat → MultiPath Obj Con E → FollowState Obj Con E → FollowState Obj Con E
  | _, [], st => st
  | i, links :: rest, st =>
    match followHop e ctx c n i links st with
    | (st, true) => st
    | (st, false) => followLoop e ctx c n (i + 1) rest st

/-- What `Follow` leaves behind: the results, the error it returns and the trace. -/
structure Outcome (Obj Con E : Type) where
  results : Results Obj
  err : Error E
  trace : Trace Obj Con

/-- The method `Follow(ctx, starters, c, path, results)`. `ctx i` is `ctx.Err()`
while hop `i` runs. -/
def Engine.Follow (e : Engine Obj Con E) (ctx : Nat → Option E) (starters : List Obj)
    (c : Option Con) (path : MultiPath Obj Con E) (results : Results Obj) :
    Outcome Obj Con E :=
  if !MultiPath.Valid path then
    ⟨results, [Err.invalidPath (path.map (fun links => links.map (fun r => r.Name)))], []⟩
  else
    let st := followLoop e ctx c path.length 0 path ⟨[], NewList, starters, results, []⟩
    ⟨st.results, st.merr, st.trace⟩

/-- What the body of the loop of `FollowAll` does for the `k`-th path `p`. The
parameter `c` of `FollowAll` is not passed on: `Follow` is called with `nil`. -/
def followAllStep (e : Engine Obj Con E) (ctx : Nat → Nat → Option E) (starters : List Obj)
    (st : Outcome Obj Con E × Nat) (p : MultiPath Obj Con E) : Outcome Obj Con E × Nat :=
  match st with
  | (acc, k) =>
    let out := e.Follow (ctx k) starters none p acc.results
    (⟨out.results, multierrAppend acc.err (multierrAppend acc.err out.err),
      acc.trace ++ out.trace⟩, k + 1)

/-- The method `FollowAll(ctx, starters, c, paths, results)`. `ctx k i` is
`ctx.Err()` while hop `i` of the `k`-th path runs. -/
def Engine.FollowAll (e : Engine Obj Con E) (ctx : Nat → Nat → Option E) (starters : List Obj)
    (_c : Option Con) (paths : List (MultiPath Obj Con E)) (results : Results Obj) :
    Outcome Obj Con E :=
  (paths.foldl (followAllStep e ctx starters) (⟨results, [], []⟩, 0)).1

/-! ## The vocabulary of the contract -/

/-- The error component of the application of `rule` to `s`, when it fails. -/
def failureOf (rule : Rule Obj Con E) (c : Option Con) (s : Obj) : Option (Err E) :=
  (rule.Apply s c).2.map (Err.following rule.Name)

/-- The reference of the application of `rule` to `s`, when it succeeds with a
non-empty reference. -/
def referenceOf (rule : Rule Obj Con E) (c : Option Con) (s : Obj) : Option Reference :=
  match rule.Apply s c with
  | (ref, none) => if ref = Empty then none else some ref
  | (_, some _) => none

/-- The error components of the failing applications of a hop, rules in path order
and, within a rule, starters in slice order. -/
def failures (links : Links Obj Con E) (starters : List Obj) (c : Option Con) : Error E :=
  links.flatMap (fun rule => starters.filterMap (failureOf rule c))

/-- The non-empty references the successful applications of a hop return, rules in
path order and, within a rule, starters in slice order. -/
def produced (links : Links Obj Con E) (starters : List Obj) (c : Option Con) :
    List Reference :=
  links.flatMap (fun rule => starters.filterMap (referenceOf rule c))

/-- The applications of a hop, rules in path order and, within a rule, starters in
slice order. -/
def applications (links : Links Obj Con E) (starters : List Obj) (c : Option Con) :
    Trace Obj Con :=
  links.flatMap (fun rule => starters.map (fun s => Event.apply rule.Name s c))

/-- The distinct values of a list in order of first occurrence. -/
def firstOccurrences {T : Type} [DecidableEq T] : List T → List T
  | [] => []
  | x :: xs => x :: (firstOccurrences xs).filter (fun y => decide (y ≠ x))

/-- The traversal as the spec words it, from hop `i` on: each hop dedups the
references of its own applications from scratch, records them for its goal, stops
if it is the last hop or produced no references, and otherwise dereferences them
with the store of the goal, records the objects and makes them the starters of
the next hop. -/
def FollowSpec (e : Engine Obj Con E) (ctx : Nat → Option E) (c : Option Con) :
    Nat → List Obj → MultiPath Obj Con E → Results Obj → Outcome Obj Con E
  | _, _, [], results => ⟨results, [], []⟩
  | i, starters, links :: rest, results =>
    let refs := firstOccurrences (produced links starters c)
    let recorded := results.appendReferences (Links.Goal links) refs
    if rest.isEmpty || refs.isEmpty then
      ⟨recorded, failures links starters c, applications links starters c⟩
    else
      let got := e.GetAll (ctx i) (Links.Goal links) refs [] []
      let out := FollowSpec e ctx c (i + 1) got.1 rest
        (recorded.appendObjects (Links.Goal links) got.1)
      ⟨out.results, failures links starters c ++ got.2.1 ++ out.err,
        applications links starters c ++ got.2.2 ++ out.trace⟩

/-- The state of `Follow` when hop `i + k` of its loop starts, the loop having
reached hop `i` in state `st`; `none` when the loop is left before that hop. -/
def hopState (e : Engine Obj Con E) (ctx : Nat → Option E) (c : Option Con) (n : Nat) :
    Nat → Nat → MultiPath Obj Con E → FollowState Obj Con E → Option (FollowState Obj Con E)
  | 0, _, _, st => some st
  | _ + 1, _, [], _ => none
  | k + 1, i, links :: rest, st =>
    match followHop e ctx c n i links st with
    | (_, true) => none
    | (st, false) => hopState e ctx c n k (i + 1) rest st

/-- The state of `Follow(ctx, starters, c, path, results)` when hop `k` starts. -/
def Engine.FollowAt (e : Engine Obj Con E) (ctx : Nat → Option E) (starters : List Obj)
    (c : Option Con) (path : MultiPath Obj Con E) (results : Results Obj) (k : Nat) :
    Option (FollowState Obj Con E) :=
  hopState e ctx c path.length k 0 path ⟨[], NewList, starters, results, []⟩

/-! ## A small engine for concrete runs -/

namespace Example

/-- Three classes of one domain. -/
def classA : Class := ⟨"d", "a"⟩

def classB : Class := ⟨"d", "b"⟩

def classC : Class := ⟨"d", "c"⟩

/-- A rule from `a` to `b` whose template fails on every object. -/
def ruleFail : Rule String Nat String := ⟨"fail", classA, classB, fun _ _ => (Empty, some "boom")⟩

/-- A rule from `a` to `b` that refers to the object by its name. -/
def ruleOk : Rule String Nat String := ⟨"ok", classA, classB, fun s _ => (⟨s, ""⟩, none)⟩

/-- A rule from `a` to `b` that declines every object. -/
def ruleDecline : Rule String Nat String := ⟨"decline", classA, classB, fun _ _ => (Empty, none)⟩

/-- A rule from `a` to `b` whose reference depends on the constraint. -/
def ruleCon : Rule String Nat String :=
  ⟨"con", classA, classB, fun s c =>
    match c with
    | some _ => (⟨s, "constrained"⟩, none)
    | none => (⟨s, ""⟩, none)⟩

/-- A rule from `b` to `c` that queries by the name of the object. -/
def ruleNext : Rule String Nat String :=
  ⟨"next", classB, classC, fun s _ => (⟨"by-name", s⟩, none)⟩

/-- A rule from `b` to `c` that returns the same reference for every object, the
one `ruleOk` returns for the object `x`. -/
def ruleSame : Rule String Nat String := ⟨"same", classB, classC, fun _ _ => (⟨"x", ""⟩, none)⟩

/-- A rule from `c` to `a` that queries by the name of the object. -/
def ruleLast : Rule String Nat String :=
  ⟨"last", classC, classA, fun s _ => (⟨"last-by-name", s⟩, none)⟩

/-- A store that honours its context: it returns the error of a cancelled
context, and otherwise two objects per reference, with an error after them for the
reference `bad`. -/
def store : Store String String :=
  ⟨fun ctx ref =>
    match ctx with
    | some err => ([], [Err.foreign err])
    | none =>
      ([ref.Path, ref.Path ++ "2"], if ref.Path = "bad" then [Err.foreign "http 500"] else [])⟩

/-- An engine with that store for the domain `d` and a domain `d` of classes `a`, `b`, `c`. -/
def engine : Engine String Nat String :=
  ⟨fun name => if name = "d" then some store else none,
   fun name => if name = "d" then
     some ⟨"d", fun c => if c = "a" ∨ c = "b" ∨ c = "c" then some ⟨"d", c⟩ else none⟩ else none,
   []⟩

/-- A context that is never cancelled. -/
def live : Nat → Option String := fun _ => none

/-- A context that is cancelled once hop 0 has completed, before hop 1 starts. -/
def cancelledAfterFirstHop : Nat → Option String :=
  fun i => if i = 0 then none else some "context canceled"

end Example

/-! ## The rule graph data (`pkg/graph/data.go`) -/

namespace Graph

/-- A `graph.Node`: its id, as `multi.Node(id).ID()` returns it, and its class. The
fields `Attrs`, `Result` and `QueryCounts`, which `NodeFor` creates empty and which
`Data` never reads, are left out. A `*Node` of the pool is the node value. -/
structure Node where
  ID : Nat
  Class : Class
deriving DecidableEq, Repr

/-- A `graph.Line`: the embedded `multi.Line` with its ends `F` and `T` and its id
`UID`, which `ID()` returns, and the rule. `Attrs` and `QueryCounts` are left out. -/
structure Line (Obj Con E : Type) where
  F : Node
  T : Node
  UID : Nat
  Rule : Rule Obj Con E

/-- The struct `graph.Data`: the node pool, the line pool and the lookup from class
to node id. -/
structure Data (Obj Con E : Type) where
  Nodes : List Node
  Lines : List (Line Obj Con E)
  nodeID : Class → Option Nat

/-- The method `Data.NodeFor(c)`: the data as the call leaves it and the node it
returns; `none` when `d.Nodes[id]` is out of range, where Go panics. -/
def Data.NodeFor (d : Data Obj Con E) (c : Class) : Option (Data Obj Con E × Node) :=
  match d.nodeID c with
  | some id =>
    match d.Nodes[id]? with
    | some n => some (d, n)
    | none => none
  | none =>
    let id := d.Nodes.length
    let n : Node := ⟨id, c⟩
    some (⟨d.Nodes ++ [n], d.Lines, fun c' => if c' = c then some id else d.nodeID c'⟩, n)

/-- The method `Data.AddRule(r)`: the id is the number of lines, the ends are
`NodeFor(r.Start())` and then `NodeFor(r.Goal())`, and the line is appended. -/
def Data.AddRule (d : Data Obj Con E) (r : Rule Obj Con E) : Option (Data Obj Con E) :=
  let id := d.Lines.length
  match d.NodeFor r.Start with
  | none => none
  | some (d1, f) =>
    match d1.NodeFor r.Goal with
    | none => none
    | some (d2, t) => some { d2 with Lines := d2.Lines ++ [⟨f, t, id, r⟩] }

/-- A sequence of `AddRule` calls. -/
def Data.AddRules (d : Data Obj Con E) : List (Rule Obj Con E) → Option (Data Obj Con E)
  | [] => some d
  | r :: rules =>
    match d.AddRule r with
    | none => none
    | some d1 => Data.AddRules d1 rules

/-- The function `NewData(rules...)`: an empty data with an empty lookup, then
`AddRule` for every rule. -/
def NewData (rules : List (Rule Obj Con E)) : Option (Data Obj Con E) :=
  Data.AddRules ⟨[], [], fun _ => none⟩ rules

/-- The method `Data.Rules()`. -/
def Data.Rules (d : Data Obj Con E) : List (Rule Obj Con E) :=
  d.Lines.map (fun l => l.Rule)

/-- The method `Data.Classes()`. -/
def Data.Classes (d : Data Obj Con E) : List Class :=
  d.Nodes.map (fun n => n.Class)

/-- The data a program can get hold of: `NewData`, then any calls of `AddRule` and
`NodeFor`. -/
inductive Reachable : Data Obj Con E → Prop where
  | new (rules : List (Rule Obj Con E)) (d : Data Obj Con E) :
      NewData rules = some d → Reachable d
  | addRule (d d1 : Data Obj Con E) (r : Rule Obj Con E) :
      Reachable d → d.AddRule r = some d1 → Reachable d1
  | nodeFor (d d1 : Data Obj Con E) (c : Class) (n : Node) :
      Reachable d → d.NodeFor c = some (d1, n) → Reachable d1

/-- The invariant of `Data`: node ids are slice indices, the lookup and the pool
agree, line ids are slice indices, and the ends of every line are the nodes of the
pool for the start and the goal of its rule. -/
structure WellFormed (d : Data Obj Con E) : Prop where
  node_id : ∀ (j : Nat) (n : Node), d.Nodes[j]? = some n →
    n.ID = j ∧ d.nodeID n.Class = some j
  lookup : ∀ (c : Class) (j : Nat), d.nodeID c = some j →
    ∃ n, d.Nodes[j]? = some n ∧ n.Class = c
  line : ∀ (i : Nat) (l : Line Obj Con E), d.Lines[i]? = some l →
    l.UID = i ∧ d.Nodes[l.F.ID]? = some l.F ∧ l.F.Class = l.Rule.Start ∧
      d.Nodes[l.T.ID]? = some l.T ∧ l.T.Class = l.Rule.Goal

end Graph

namespace Example

/-- The data of the two rules `ruleOk` (from `a` to `b`) and `ruleNext` (from `b`
to `c`): three nodes and two lines. -/
def data : Graph.Data String Nat String :=
  ⟨[⟨0, classA⟩, ⟨1, classB⟩, ⟨2, classC⟩],
   [⟨⟨0, classA⟩, ⟨1, classB⟩, 0, ruleOk⟩, ⟨⟨1, classB⟩, ⟨2, classC⟩, 1, ruleNext⟩],
   fun c => if c = classC then some 2 else if c = classB then some 1
     else if c = classA then some 0 else none⟩

end Example

/-! ## The alert domain (`pkg/domains/alert/alert.go`) -/

namespace Alert

/-- A `time.Time`, as an instant; `0` is the zero value. -/
abbrev Time := Int

/-- A `map[string]string` or `model.LabelSet`, as its list of entries. -/
abbrev LabelMap := List (String × String)

/-- The map read `m[k]`: the empty string for a key that is absent. -/
def LabelMap.get (m : LabelMap) (k : String) : String := (m.lookup k).getD ""

/-- The struct `v1.Alert` of the Prometheus Alerts API. -/
structure PromAlert where
  ActiveAt : Time
  Annotations : LabelMap
  Labels : LabelMap
  State : String
  Value : String
deriving DecidableEq, Repr

/-- The struct `models.AlertStatus` of the Alertmanager API. -/
structure AlertStatus where
  InhibitedBy : List String
  SilencedBy : List String
  State : String
deriving DecidableEq, Repr

/-- The struct `models.GettableAlert` of the Alertmanager API; the pointer fields
are taken as set, and receivers are given by their names. -/
structure GettableAlert where
  Annotations : LabelMap
  EndsAt : Time
  Fingerprint : String
  Receivers : List String
  StartsAt : Time
  Status : AlertStatus
  GeneratorURL : String
  Labels : LabelMap
deriving DecidableEq, Repr

/-- The struct `Receiver`. -/
structure Receiver where
  Name : String
deriving DecidableEq, Repr

/-- The struct `Object`, an alert. -/
structure Object where
  Labels : LabelMap := []
  Annotations : LabelMap := []
  Fingerprint : String := ""
  Status : String := ""
  Value : String := ""
  ActiveAt : Time := 0
  StartsAt : Time := 0
  EndsAt : Time := 0
  UpdatedAt : Time := 0
  Receivers : List Receiver := []
  InhibitedBy : List String := []
  SilencedBy : List String := []
  GeneratorURL : String := ""
deriving DecidableEq, Repr

/-- The struct `Query`. -/
structure Query where
  Labels : LabelMap
deriving DecidableEq, Repr

/-- The method `Class.ID(o)` on an alert object: its `Fingerprint` field. -/
def ClassID (o : Object) : String := o.Fingerprint

/-- The method `Query.matches(a)`: every label of the query has the same value in
the alert. -/
def Query.matches (q : Query) (a : PromAlert) : Bool :=
  q.Labels.all (fun kv => decide (kv.2 = a.Labels.get kv.1))

/-- The object the first loop of `Get` builds from a Prometheus alert. -/
def promObject (a : PromAlert) : Object :=
  { Labels := a.Labels, Annotations := a.Annotations, Status := a.State, Value := a.Value,
    ActiveAt := a.ActiveAt }

/-- The first loop of `Get`, from index `i` on: a matching alert adds its object to
`alerts` and the entry `fingerprints[fingerprint(a.Labels)] = i`, where `i` is the
index of the alert in the list the Prometheus API returned. -/
def firstPass (fingerprint : LabelMap → String) (q : Query) :
    Nat → List PromAlert → List Object → (String → Option Nat) →
      List Object × (String → Option Nat)
  | _, [], alerts, fingerprints => (alerts, fingerprints)
  | i, a :: rest, alerts, fingerprints =>
    if !q.matches a then firstPass fingerprint q (i + 1) rest alerts fingerprints
    else
      firstPass fingerprint q (i + 1) rest (alerts ++ [promObject a])
        (fun k => if k = fingerprint a.Labels then some i else fingerprints k)

/-- The filters `Get` sends to Alertmanager, one `k=v` per label of the query. -/
def filters (q : Query) : List String :=
  q.Labels.map (fun kv => kv.1 ++ "=" ++ kv.2)

/-- What the body of the second loop of `Get` does to the object `o` it has picked
for the Alertmanager alert `a`. -/
def mergeInto (o : Object) (a : GettableAlert) : Object :=
  let o := { o with StartsAt := a.StartsAt, EndsAt := a.EndsAt, GeneratorURL := a.GeneratorURL }
  let o := { o with Receivers := o.Receivers ++ a.Receivers.map Receiver.mk }
  let o := { o with SilencedBy := a.Status.SilencedBy, InhibitedBy := a.Status.InhibitedBy }
  if o.Status = "" then
    let o := { o with Status := a.Status.State }
    if o.Status ≠ "suppressed" then { o with Status := "firing" } else o
  else if a.Status.State = "suppressed" then { o with Status := a.Status.State }
  else o

/-- The body of the second loop of `Get`: look the fingerprint up, append a new
object when it is not found, then update `alerts[i]`; `none` when `i` is out of
range, where Go panics. -/
def mergeStep (fingerprints : String → Option Nat) (alerts : List Object)
    (a : GettableAlert) : Option (List Object) :=
  match fingerprints a.Fingerprint with
  | some i =>
    match alerts[i]? with
    | none => none
    | some o => some (alerts.set i (mergeInto o a))
  | none =>
    let o : Object := { Labels := a.Labels, Annotations := a.Annotations }
    let i := alerts.length
    let alerts := alerts ++ [o]
    match alerts[i]? with
    | none => none
    | some o => some (alerts.set i (mergeInto o a))

/-- The second loop of `Get`, over the payload of Alertmanager. -/
def mergeAll (fingerprints : String → Option Nat) :
    List Object → List GettableAlert → Option (List Object)
  | alerts, [] => some alerts
  | alerts, a :: rest =>
    match mergeStep fingerprints alerts a with
    | none => none
    | some alerts => mergeAll fingerprints alerts rest

/-- The two APIs of the alert `Store`, by what they answer: `prometheusAPI.Alerts`
and `alertmanagerAPI.Alert.GetAlerts` with its filters. -/
structure Store (E : Type) where
  Alerts : Except E (List PromAlert)
  GetAlerts : List String → Except E (List GettableAlert)

/-- What a call of `Get` comes to. -/
inductive GetResult (E : Type) where
  /-- A run-time panic: an index out of range. -/
  | panic
  /-- The error of `fmt.Errorf("failed to query alerts from Prometheus API: %w", err)`. -/
  | prometheusError (cause : E)
  /-- The error of `fmt.Errorf("failed to query alerts from Alertmanager API: %w", err)`. -/
  | alertmanagerError (cause : E)
  /-- A nil error; the objects appended to the result, in order. -/
  | ok (objects : List Object)
deriving DecidableEq, Repr

/-- The method `Store.Get(ctx, query, result)` for a query of type `*Query`;
`fingerprint` is `model.LabelSet.Fingerprint().String()`. -/
def Store.Get (s : Store E) (fingerprint : LabelMap → String) (q : Query) : GetResult E :=
  match s.Alerts with
  | .error err => .prometheusError err
  | .ok alertsResult =>
    match firstPass fingerprint q 0 alertsResult [] (fun _ => none) with
    | (alerts, fingerprints) =>
      match s.GetAlerts (filters q) with
      | .error err => .alertmanagerError err
      | .ok payload =>
        match mergeAll fingerprints alerts payload with
        | none => .panic
        | some alerts => .ok alerts

/-- The Alertmanager alerts the second loop of `Get` merges into the object at
index `j`, in payload order, when the loop starts with `n` objects. -/
def hitsOf (fingerprints : String → Option Nat) (j : Nat) :
    Nat → List GettableAlert → List GettableAlert
  | _, [] => []
  | n, a :: rest =>
    match fingerprints a.Fingerprint with
    | some i => (if i = j then [a] else []) ++ hitsOf fingerprints j n rest
    | none => (if n = j then [a] else []) ++ hitsOf fingerprints j (n + 1) rest

end Alert

namespace Alert.Example

/-- A stand-in for the label fingerprint: the labels written out. -/
def fingerprint (m : LabelMap) : String :=
  String.join (m.map (fun kv => kv.1 ++ "=" ++ kv.2 ++ ";"))

/-- A Prometheus alert that the query does not select. -/
def other : PromAlert :=
  ⟨10, [], [("alertname", "Y"), ("pod", "a")], "firing", "1"⟩

/-- A Prometheus alert `X` on pod `b`. -/
def alertB : PromAlert :=
  ⟨20, [], [("alertname", "X"), ("pod", "b")], "pending", "1"⟩

/-- A Prometheus alert `X` on pod `c`. -/
def alertC : PromAlert :=
  ⟨30, [], [("alertname", "X"), ("pod", "c")], "firing", "1"⟩

/-- The query for the alerts named `X`. -/
def query : Query := ⟨[("alertname", "X")]⟩

/-- The Alertmanager alert with the labels, and so the fingerprint, of `alertB`. -/
def managerB : GettableAlert :=
  ⟨[], 200, fingerprint [("alertname", "X"), ("pod", "b")], ["team"], 100,
    ⟨[], [], "active"⟩, "http://prometheus/graph", [("alertname", "X"), ("pod", "b")]⟩

/-- A store whose Prometheus holds `other`, `alertB` and `alertC` and whose
Alertmanager answers with `managerB`. -/
def storeThree : Store String :=
  ⟨.ok [other, alertB, alertC], fun _ => .ok [managerB]⟩

/-- A store whose Prometheus holds `other` and `alertB` and whose Alertmanager
answers with `managerB`. -/
def storeTwo : Store String :=
  ⟨.ok [other, alertB], fun _ => .ok [managerB]⟩

/-- A store whose Prometheus holds `alertB` and `alertC` and whose Alertmanager
answers with `managerB`. -/
def storeMatching : Store String :=
  ⟨.ok [alertB, alertC], fun _ => .ok [managerB]⟩

/-- The Alertmanager alert with the labels, and so the fingerprint, of `alertB`,
silenced by `s1`: its state is `suppressed`. -/
def managerSuppressedB : GettableAlert :=
  ⟨[], 200, fingerprint [("alertname", "X"), ("pod", "b")], ["team"], 100,
    ⟨[], ["s1"], "suppressed"⟩, "http://prometheus/graph", [("alertname", "X"), ("pod", "b")]⟩

/-- A store whose Prometheus holds `other`, `alertB` and `alertC` and whose
Alertmanager answers with `managerSuppressedB`. -/
def storeSuppressed : Store String :=
  ⟨.ok [other, alertB, alertC], fun _ => .ok [managerSuppressedB]⟩

end Alert.Example

/-! ## The Kubernetes store references (`pkg/k8s/k8s.go`) -/

namespace K8s

/-- The struct `schema.GroupVersionKind`. -/
structure GroupVersionKind where
  Group : String
  Version : String
  Kind : String
deriving DecidableEq, Repr

/-- The struct `schema.GroupVersionResource`. -/
structure GroupVersionResource where
  Group : String
  Version : String
  Resource : String
deriving DecidableEq, Repr

/-- The struct `types.NamespacedName`. -/
structure NamespacedName where
  Namespace : String
  Name : String
deriving DecidableEq, Repr

/-- The pieces of a text between its slashes, as `strings.Split(s, "/")` gives them. -/
def splitSlash : List Char → List (List Char)
  | [] => [[]]
  | ch :: rest =>
    if ch = '/' then [] :: splitSlash rest
    else
      match splitSlash rest with
      | seg :: segs => (ch :: seg) :: segs
      | [] => [[ch]]

/-- The segments of a path: the texts between its slashes. -/
def segments (path : String) : List String := (splitSlash path.data).map String.mk

/-- The segments joined by slashes. -/
def joinSlash : List String → String
  | [] => ""
  | [s] => s
  | s :: t :: rest => s ++ "/" ++ joinSlash (t :: rest)

/-- What the loop of the library function `path.Clean` does with one path element:
an empty element and `.` are dropped, `..` removes the element before it when
there is one to remove and is kept at the start of a path that is not rooted, any
other element is kept. `dotdot` counts the leading `..` elements that stay. -/
def cleanStep (rooted : Bool) (st : List String × Nat) (seg : String) : List String × Nat :=
  match st with
  | (out, dotdot) =>
    if seg = "" then (out, dotdot)
    else if seg = "." then (out, dotdot)
    else if seg = ".." then
      if out.length > dotdot then (out.dropLast, dotdot)
      else if !rooted then (out ++ [".."], out.length + 1)
      else (out, dotdot)
    else (out ++ [seg], dotdot)

/-- The library function `path.Clean`. -/
def Clean (path : String) : String :=
  if path = "" then "."
  else
    let rooted := decide (path.data.head? = some '/')
    let out := ((segments path).foldl (cleanStep rooted) ([], 0)).1
    if rooted then "/" ++ joinSlash out
    else if out.isEmpty then "."
    else joinSlash out

/-- What the loop of the library function `path.Join` does with one element: empty
elements are skipped as long as the buffer is empty. -/
def joinStep (buf : String) (e : String) : String :=
  if buf ≠ "" ∨ e ≠ "" then
    if buf ≠ "" then buf ++ "/" ++ e else e
  else buf

/-- The library function `path.Join(elem...)`. -/
def Join (elem : List String) : String :=
  if elem.all (fun e => decide (e = "")) then ""
  else Clean (elem.foldl joinStep "")

/-- The first suffix of a list of segments, from the longest on, that `m` matches:
a regular expression that starts with `(?:^|/)` and ends with `$` is searched from
the left, and can start at the start of the text or right after a slash. -/
def findSuffix {α : Type} (m : List String → Option α) : List String → Option α
  | [] => m []
  | s :: rest =>
    match m (s :: rest) with
    | some x => some x
    | none => findSuffix m rest

/-- The submatches of `apiPath`: group, version, namespace, resource, name; the
empty string for a group that did not take part in the match. -/
structure ApiParts where
  Group : String
  Version : String
  Namespace : String
  Resource : String
  Name : String
deriving DecidableEq, Repr

/-- The end of `apiPath`, `(?:/namespaces/([^/]+))?/([^/]+)(?:/([^/]+))?$`, on the
segments after the version: namespace, resource and name. The optional namespace
group is tried first. -/
def apiTailMatch : List String → Option (String × String × String)
  | [a] => if a ≠ "" then some ("", a, "") else none
  | [a, b] => if a ≠ "" ∧ b ≠ "" then some ("", a, b) else none
  | [a, b, c] => if a = "namespaces" ∧ b ≠ "" ∧ c ≠ "" then some (b, c, "") else none
  | [a, b, c, d] =>
    if a = "namespaces" ∧ b ≠ "" ∧ c ≠ "" ∧ d ≠ "" then some (b, c, d) else none
  | _ => none

/-- The regular expression `apiPath` without its `(?:^|/)`, on segments:
`(?:(?:apis/([^/]+)/)|(?:api/))([^/]+)` and then the end. -/
def apiSuffixMatch (segs : List String) : Option ApiParts :=
  match segs with
  | s0 :: s1 :: rest =>
    if s0 = "apis" then
      match rest with
      | s2 :: tail =>
        if s1 ≠ "" ∧ s2 ≠ "" then
          (apiTailMatch tail).map (fun t => ⟨s1, s2, t.1, t.2.1, t.2.2⟩)
        else none
      | [] => none
    else if s0 = "api" then
      if s1 ≠ "" then (apiTailMatch rest).map (fun t => ⟨"", s1, t.1, t.2.1, t.2.2⟩)
      else none
    else none
  | _ => none

/-- The call `apiPath.FindStringSubmatch(path)`; `none` for `nil`. -/
def apiPathFind (path : String) : Option ApiParts :=
  findSuffix apiSuffixMatch (segments path)

/-- The submatches of `consolePath`: namespace, resource, name. -/
structure ConsoleParts where
  Namespace : String
  Resource : String
  Name : String
deriving DecidableEq, Repr

/-- The end of `consolePath`, `/([^/]+)(?:/([^/]+))?$`, on segments: resource and
name. -/
def consoleTailMatch : List String → Option (String × String)
  | [a] => if a ≠ "" then some (a, "") else none
  | [a, b] => if a ≠ "" ∧ b ≠ "" then some (a, b) else none
  | _ => none

/-- The regular expression `consolePath` without its `(?:^|/)`, on segments:
`(?:k8s/ns/([^/]+)|cluster)` and then the end. -/
def consoleSuffixMatch (segs : List String) : Option ConsoleParts :=
  match segs with
  | s0 :: rest =>
    if s0 = "k8s" then
      match rest with
      | s1 :: s2 :: tail =>
        if s1 = "ns" ∧ s2 ≠ "" then
          (consoleTailMatch tail).map (fun t => ⟨s2, t.1, t.2⟩)
        else none
      | _ => none
    else if s0 = "cluster" then
      (consoleTailMatch rest).map (fun t => ⟨"", t.1, t.2⟩)
    else none
  | [] => none

/-- The call `consolePath.FindStringSubmatch(path)`; `none` for `nil`. -/
def consolePathFind (path : String) : Option ConsoleParts :=
  findSuffix consoleSuffixMatch (segments path)

deriving instance DecidableEq for Except

/-- The errors of the store. -/
inductive K8sErr (E : Type) where
  /-- The error of `fmt.Errorf("invalid k8s REST path: %v", path)`. -/
  | invalidPath (path : String)
  /-- The error of `fmt.Errorf("not a valid %d reference: %v", Domain, path)`. -/
  | notValid (path : String)
  /-- The error `RESTMapper().KindsFor` returned, passed on by `parsePath`. -/
  | mapper (err : E)
  /-- The error of `fmt.Errorf("invalid k8s reference: %v", storeRef)`. -/
  | invalidReference (ref : Reference)
  /-- The error of `fmt.Errorf("invalid k8s console reference: %v", ref)`. -/
  | invalidConsoleReference (ref : Reference)
  /-- The error of `fmt.Errorf("invalid resrouce in console reference: %v", ref)`. -/
  | invalidResource (ref : Reference)
deriving DecidableEq, Repr

/-- The k8s `Store`, by what its REST mapper answers: `s.c.RESTMapper().KindsFor`,
which returns kinds and an error. -/
structure Store (E : Type) where
  KindsFor : GroupVersionResource → List GroupVersionKind × Option E

/-- The method `Store.parsePath(path)`. Its callers use the values only when the
error is nil, so the values are dropped when it is not. -/
def Store.parsePath (s : Store E) (path : String) :
    Except (K8sErr E) (GroupVersionKind × GroupVersionResource × NamespacedName) :=
  match apiPathFind path with
  | none => .error (.invalidPath path)
  | some parts =>
    let nsName : NamespacedName := ⟨parts.Namespace, parts.Name⟩
    let gvr : GroupVersionResource := ⟨parts.Group, parts.Version, parts.Resource⟩
    match s.KindsFor gvr with
    | ([], _) => .error (.notValid path)
    | (gvk :: _, none) => .ok (gvk, gvr, nsName)
    | (_ :: _, some err) => .error (.mapper err)

/-- The method `Store.RefClass(ref)`: the class is the kind. -/
def Store.RefClass (s : Store E) (ref : Reference) : Except (K8sErr E) GroupVersionKind :=
  match s.parsePath ref.Path with
  | .ok (gvk, _, _) => .ok gvk
  | .error _ => .error (.notValid ref.Path)

/-- The method `Store.RefStoreToConsole(class, storeRef)`; the class is not used. -/
def Store.RefStoreToConsole (s : Store E) (_class : GroupVersionKind) (storeRef : Reference) :
    Except (K8sErr E) Reference :=
  match s.parsePath storeRef.Path with
  | .error _ => .error (.invalidReference storeRef)
  | .ok (_, gvr, nsName) =>
    if nsName.Namespace ≠ "" then
      .ok ⟨Join ["k8s", "ns", nsName.Namespace, gvr.Resource, nsName.Name], ""⟩
    else
      .ok ⟨Join ["k8s", "cluster", gvr.Resource, nsName.Name], ""⟩

/-- The method `Store.RefConsoleToStore(ref)`; `none` when `gvks[0]` is out of
range, where Go panics. -/
def Store.RefConsoleToStore (s : Store E) (ref : Reference) :
    Option (Except (K8sErr E) (GroupVersionKind × Reference)) :=
  match consolePathFind ref.Path with
  | none => some (.error (.invalidConsoleReference ref))
  | some p =>
    let resource := if p.Resource = "projects" then "namespaces" else p.Resource
    match s.KindsFor ⟨"", "", resource⟩ with
    | (_, some _) => some (.error (.invalidResource ref))
    | ([], none) => none
    | (gvk :: _, none) =>
      let pre := if gvk.Group = "" then "api" else "apis"
      let path := Join [pre, gvk.Group, gvk.Version]
      let path := if p.Namespace ≠ "" then Join [path, "namespaces", p.Namespace] else path
      let path := Join [path, resource, p.Name]
      some (.ok (gvk, ⟨path, ""⟩))

end K8s

namespace K8s.Example

/-- A REST mapper that knows pods, namespaces and deployments. Asked for the bare
resource `deployments` it answers with `apps/v1`; asked for `apps/v1beta1` it
answers with that version. -/
def kindsFor (gvr : GroupVersionResource) : List GroupVersionKind × Option String :=
  if gvr.Resource = "pods" ∧ gvr.Group = "" then ([⟨"", "v1", "Pod"⟩], none)
  else if gvr.Resource = "namespaces" ∧ gvr.Group = "" then ([⟨"", "v1", "Namespace"⟩], none)
  else if gvr.Resource = "deployments" ∧ gvr.Group = "apps" ∧ gvr.Version = "v1beta1" then
    ([⟨"apps", "v1beta1", "Deployment"⟩], none)
  else if gvr.Resource = "deployments" ∧ (gvr.Group = "apps" ∨ gvr.Group = "") then
    ([⟨"apps", "v1", "Deployment"⟩], none)
  else ([], some "no matches for resource")

/-- A store with that REST mapper. -/
def store : Store String := ⟨kindsFor⟩

end K8s.Example

namespace K8s

/-- A path element that `path.Clean` keeps as it is and that a `[^/]+` group can
capture: not empty, without a slash, and neither `.` nor `..`. -/
def Plain (s : String) : Prop := s ≠ "" ∧ '/' ∉ s.data ∧ s ≠ "." ∧ s ≠ ".."

instance (s : String) : Decidable (Plain s) := by
  unfold Plain
  exact inferInstance

/-- An optional path element as a list of segments: none when it is empty. -/
def optSeg (s : String) : List String := if s = "" then [] else [s]

end K8s

namespace K8s

/-- The segments of the store path of a resource: `apis/<group>/<version>`, or
`api/<version>` for the core group, then `namespaces/<ns>` for a namespaced
resource, then the resource and, for a single object, the name. -/
def apiSegs (group version ns resource name : String) : List String :=
  [if group = "" then "api" else "apis"] ++ optSeg group ++ [version]
    ++ (if ns = "" then [] else ["namespaces", ns]) ++ [resource] ++ optSeg name

end K8s

/-! ## Lemmas on class names -/

theorem cutChars_append (sep : Char) (before after : List Char) (h : sep ∉ before) :
    cutChars sep (before ++ sep :: after) = some (before, after) := by
  induction before with
  | nil => simp [cutChars]
  | cons b bs ih =>
    simp only [List.mem_cons, not_or] at h
    have hb : ¬ b = sep := fun hb => h.1 hb.symm
    simp [cutChars, hb, ih h.2]

theorem cutChars_some (sep : Char) (l before after : List Char)
    (h : cutChars sep l = some (before, after)) :
    l = before ++ sep :: after ∧ sep ∉ before := by
  induction l generalizing before after with
  | nil => simp [cutChars] at h
  | cons ch rest ih =>
    unfold cutChars at h
    by_cases hs : ch = sep
    · simp only [hs, if_true, Option.some.injEq, Prod.mk.injEq] at h
      obtain ⟨rfl, rfl⟩ := h
      simp [hs]
    · simp only [hs, if_false] at h
      cases hc : cutChars sep rest with
      | none => simp [hc] at h
      | some p =>
        obtain ⟨b0, a0⟩ := p
        simp only [hc, Option.some.injEq, Prod.mk.injEq] at h
        obtain ⟨rfl, rfl⟩ := h
        obtain ⟨h1, h2⟩ := ih b0 a0 hc
        refine ⟨by simp [h1], ?_⟩
        simp only [List.mem_cons, not_or]
        exact ⟨fun hh => hs hh.symm, h2⟩

theorem cutChars_none (sep : Char) (l : List Char) (h : cutChars sep l = none) : sep ∉ l := by
  induction l with
  | nil => simp
  | cons ch rest ih =>
    unfold cutChars at h
    by_cases hs : ch = sep
    · simp [hs] at h
    · simp only [hs, if_false] at h
      cases hc : cutChars sep rest with
      | none =>
        simp only [List.mem_cons, not_or]
        exact ⟨fun hh => hs hh.symm, ih hc⟩
      | some p => simp [hc] at h

theorem Cut_of_slash (d c : String) (h : '/' ∉ d.data) : Cut (d ++ "/" ++ c) = (d, c, true) := by
  have hd : (d ++ "/" ++ c).data = d.data ++ '/' :: c.data := by
    simp [String.data_append]
  unfold Cut
  rw [hd, cutChars_append '/' d.data c.data h]

theorem Cut_true (name d c : String) (h : Cut name = (d, c, true)) :
    name = d ++ "/" ++ c ∧ '/' ∉ d.data := by
  unfold Cut at h
  cases hc : cutChars '/' name.data with
  | none => simp [hc] at h
  | some p =>
    obtain ⟨b, a⟩ := p
    simp only [hc, Prod.mk.injEq, and_true] at h
    obtain ⟨rfl, rfl⟩ := h
    obtain ⟨h1, h2⟩ := cutChars_some '/' name.data b a hc
    refine ⟨?_, h2⟩
    apply String.ext
    simp [String.data_append, h1]

theorem Cut_false (name d c : String) (h : Cut name = (d, c, false)) : '/' ∉ name.data := by
  unfold Cut at h
  cases hc : cutChars '/' name.data with
  | none => exact cutChars_none '/' name.data hc
  | some p => simp [hc] at h

/-- C10: `ParseClass(name)` leaves the engine as it is, and it returns the class `cls`
exactly when `name` is `d/c` with no slash in `d`, both `d` and `c` non-empty, `d` the
name of a registered domain and `cls` that domain's `Class(c)`; in every other case
it returns an error. -/
theorem ParseClass_ok_iff (e : Engine Obj Con E) (name : String) :
    (e.ParseClass name).1 = e ∧
    ∀ cls : Class, (e.ParseClass name).2 = .ok cls ↔
      ∃ (d c : String) (dom : Domain), name = d ++ "/" ++ c ∧ '/' ∉ d.data ∧
        d ≠ "" ∧ c ≠ "" ∧ e.domains d = some dom ∧ dom.Class c = some cls := by
  constructor
  · unfold Engine.ParseClass
    split
    split
    · rfl
    · split
      · rfl
      · split <;> rfl
  · intro cls
    constructor
    · intro h
      unfold Engine.ParseClass at h
      split at h
      next d c ok hcut =>
      split at h
      · simp at h
      next hcond =>
        simp only [Bool.or_eq_true, Bool.not_eq_true', beq_iff_eq, not_or, Bool.not_eq_false] at hcond
        obtain ⟨⟨hok, hc⟩, hd⟩ := hcond
        subst hok
        obtain ⟨hname, hslash⟩ := Cut_true name d c hcut
        unfold Engine.Domain at h
        cases hdom : e.domains d with
        | none => simp [hdom] at h
        | some dom =>
          simp only [hdom] at h
          cases hcls : dom.Class c with
          | none => simp [hcls] at h
          | some k =>
            simp only [hcls, Except.ok.injEq] at h
            subst h
            exact ⟨d, c, dom, hname, hslash, hd, hc, hdom, hcls⟩
    · rintro ⟨d, c, dom, rfl, hslash, hd, hc, hdom, hcls⟩
      unfold Engine.ParseClass
      rw [Cut_of_slash d c hslash]
      simp [hd, hc, Engine.Domain, hdom, hcls]

/-! ## Lemmas on the containers -/

theorem UniqueList.Append_nil {T : Type} [DecidableEq T] (l : UniqueList T) :
    l.Append [] = l := rfl

theorem UniqueList.Append_cons {T : Type} [DecidableEq T] (l : UniqueList T) (x : T)
    (xs : List T) :
    l.Append (x :: xs) = (if x ∈ l.list then l else ⟨l.list ++ [x]⟩).Append xs := rfl

theorem UniqueList.Append_append {T : Type} [DecidableEq T] (l : UniqueList T)
    (xs ys : List T) : l.Append (xs ++ ys) = (l.Append xs).Append ys := by
  unfold UniqueList.Append
  rw [List.foldl_append]

theorem UniqueList.Append_list {T : Type} [DecidableEq T] (l : List T) (xs : List T) :
    (UniqueList.Append ⟨l⟩ xs).list
      = l ++ (firstOccurrences xs).filter (fun y => decide (y ∉ l)) := by
  induction xs generalizing l with
  | nil => simp [UniqueList.Append_nil, firstOccurrences]
  | cons x xs ih =>
    rw [UniqueList.Append_cons]
    by_cases hx : x ∈ l
    · simp only [hx, if_true, firstOccurrences]
      rw [ih, List.filter_cons]
      simp only [hx, not_true_eq_false, decide_False, Bool.false_eq_true, if_false,
        List.filter_filter]
      congr 1
      apply List.filter_congr
      intro y _
      by_cases hy : y ∈ l
      · simp [hy]
      · have : y ≠ x := fun h => hy (h ▸ hx)
        simp [hy, this]
    · simp only [hx, if_false, firstOccurrences]
      rw [ih, List.filter_cons]
      simp only [hx, not_false_eq_true, decide_True, if_true, List.filter_filter,
        List.append_assoc, List.singleton_append]
      congr 2
      apply List.filter_congr
      intro y _
      by_cases hy : y ∈ l
      · simp [hy]
      · by_cases hyx : y = x
        · simp [hyx]
        · simp [hy, hyx]

theorem NewList_Append {T : Type} [DecidableEq T] (xs : List T) :
    (UniqueList.Append (NewList : UniqueList T) xs).list = firstOccurrences xs := by
  unfold NewList
  rw [UniqueList.Append_list]
  simp

theorem mem_firstOccurrences {T : Type} [DecidableEq T] (xs : List T) (x : T) :
    x ∈ firstOccurrences xs ↔ x ∈ xs := by
  induction xs with
  | nil => simp [firstOccurrences]
  | cons y ys ih =>
    simp only [firstOccurrences, List.mem_cons, List.mem_filter, ih, decide_eq_true_eq]
    constructor
    · rintro (h | h)
      · exact Or.inl h
      · exact Or.inr h.1
    · rintro (h | h)
      · exact Or.inl h
      · by_cases hxy : x = y
        · exact Or.inl hxy
        · exact Or.inr ⟨h, hxy⟩

theorem nodup_firstOccurrences {T : Type} [DecidableEq T] (xs : List T) :
    (firstOccurrences xs).Nodup := by
  induction xs with
  | nil => simp [firstOccurrences]
  | cons y ys ih =>
    simp only [firstOccurrences, List.nodup_cons, List.mem_filter, decide_eq_true_eq]
    exact ⟨fun h => h.2 rfl, ih.filter _⟩

theorem mem_Append_list {T : Type} [DecidableEq T] (l : UniqueList T) (xs : List T) (x : T) :
    x ∈ (l.Append xs).list ↔ x ∈ l.list ∨ x ∈ xs := by
  obtain ⟨l⟩ := l
  rw [UniqueList.Append_list]
  simp only [List.mem_append, List.mem_filter, mem_firstOccurrences, decide_eq_true_eq]
  constructor
  · rintro (h | h)
    · exact Or.inl h
    · exact Or.inr h.1
  · rintro (h | h)
    · exact Or.inl h
    · by_cases hx : x ∈ l
      · exact Or.inl hx
      · exact Or.inr ⟨h, hx⟩

/-! ## Lemmas on Results -/

theorem find_getThen_same (c : Class) (f : Result Obj → Result Obj)
    (hf : ∀ x, (f x).Class = x.Class) (l : List (Result Obj)) :
    (getThen c f l).find? (fun x => decide (x.Class = c))
      = some (f ((l.find? (fun x => decide (x.Class = c))).getD ⟨c, NewList, []⟩)) := by
  induction l with
  | nil => simp [getThen, List.find?_cons, hf]
  | cons x xs ih =>
    unfold getThen
    by_cases h : x.Class = c
    · simp [h, List.find?_cons, hf]
    · simp [h, List.find?_cons, ih]

theorem find_getThen_other (c c' : Class) (hc : c' ≠ c) (f : Result Obj → Result Obj)
    (hf : ∀ x, (f x).Class = x.Class) (l : List (Result Obj)) :
    (getThen c f l).find? (fun x => decide (x.Class = c'))
      = l.find? (fun x => decide (x.Class = c')) := by
  induction l with
  | nil => simp [getThen, List.find?_cons, hf, Ne.symm hc]
  | cons x xs ih =>
    unfold getThen
    by_cases h : x.Class = c
    · have h' : ¬ x.Class = c' := fun h2 => hc (h2.symm.trans h)
      simp [h, List.find?_cons, hf, Ne.symm hc]
    · by_cases h2 : x.Class = c'
      · simp [h, List.find?_cons, h2, hc]
      · simp [h, List.find?_cons, h2, ih]

theorem refsOf_appendReferences_same (r : Results Obj) (c : Class) (refs : List Reference) :
    (r.appendReferences c refs).refsOf c = ((⟨r.refsOf c⟩ : UniqueList Reference).Append refs).list := by
  unfold Results.refsOf Results.entry Results.appendReferences
  simp only
  rw [find_getThen_same c (Result.addReferences refs) (fun _ => rfl)]
  cases r.list.find? (fun x => decide (x.Class = c)) with
  | none => rfl
  | some x => rfl

theorem refsOf_appendReferences_other (r : Results Obj) (c c' : Class) (hc : c' ≠ c)
    (refs : List Reference) : (r.appendReferences c refs).refsOf c' = r.refsOf c' := by
  unfold Results.refsOf Results.entry Results.appendReferences
  simp only
  rw [find_getThen_other c c' hc (Result.addReferences refs) (fun _ => rfl)]

theorem objsOf_appendReferences (r : Results Obj) (c c' : Class) (refs : List Reference) :
    (r.appendReferences c refs).objsOf c' = r.objsOf c' := by
  unfold Results.objsOf Results.entry Results.appendReferences
  simp only
  by_cases hc : c' = c
  · subst hc
    rw [find_getThen_same c' (Result.addReferences refs) (fun _ => rfl)]
    cases r.list.find? (fun x => decide (x.Class = c')) with
    | none => rfl
    | some x => rfl
  · rw [find_getThen_other c c' hc (Result.addReferences refs) (fun _ => rfl)]

theorem refsOf_appendObjects (r : Results Obj) (c c' : Class) (objects : List Obj) :
    (r.appendObjects c objects).refsOf c' = r.refsOf c' := by
  unfold Results.refsOf Results.entry Results.appendObjects
  simp only
  by_cases hc : c' = c
  · subst hc
    rw [find_getThen_same c' (Result.addObjects objects) (fun _ => rfl)]
    cases r.list.find? (fun x => decide (x.Class = c')) with
    | none => rfl
    | some x => rfl
  · rw [find_getThen_other c c' hc (Result.addObjects objects) (fun _ => rfl)]

theorem objsOf_appendObjects_same (r : Results Obj) (c : Class) (objects : List Obj) :
    (r.appendObjects c objects).objsOf c = r.objsOf c ++ objects := by
  unfold Results.objsOf Results.entry Results.appendObjects
  simp only
  rw [find_getThen_same c (Result.addObjects objects) (fun _ => rfl)]
  cases r.list.find? (fun x => decide (x.Class = c)) with
  | none => rfl
  | some x => rfl

theorem objsOf_appendObjects_other (r : Results Obj) (c c' : Class) (hc : c' ≠ c)
    (objects : List Obj) : (r.appendObjects c objects).objsOf c' = r.objsOf c' := by
  unfold Results.objsOf Results.entry Results.appendObjects
  simp only
  rw [find_getThen_other c c' hc (Result.addObjects objects) (fun _ => rfl)]

/-! ## Lemmas on the traversal -/

theorem followEachStep_eq (rule : Rule Obj Con E) (c : Option Con) (s : Obj)
    (merr : Error E) (refs : UniqueList Reference) (tr : Trace Obj Con) :
    followEachStep rule c (merr, refs, tr) s
      = (merr ++ (failureOf rule c s).toList,
         refs.Append (referenceOf rule c s).toList,
         tr ++ [Event.apply rule.Name s c]) := by
  unfold followEachStep failureOf referenceOf
  rcases hA : rule.Apply s c with ⟨ref, err⟩
  cases err with
  | some err => simp [multierrAppend, UniqueList.Append_nil]
  | none =>
    by_cases he : ref = Empty
    · simp [he, UniqueList.Append_nil]
    · simp [he]

theorem foldl_followEachStep (rule : Rule Obj Con E) (c : Option Con) (start : List Obj)
    (merr : Error E) (refs : UniqueList Reference) (tr : Trace Obj Con) :
    start.foldl (followEachStep rule c) (merr, refs, tr)
      = (merr ++ start.filterMap (failureOf rule c),
         refs.Append (start.filterMap (referenceOf rule c)),
         tr ++ start.map (fun s => Event.apply rule.Name s c)) := by
  induction start generalizing merr refs tr with
  | nil => simp [UniqueList.Append_nil]
  | cons s rest ih =>
    rw [List.foldl_cons, followEachStep_eq, ih, ← UniqueList.Append_append]
    have h1 : (failureOf rule c s).toList ++ rest.filterMap (failureOf rule c)
        = (s :: rest).filterMap (failureOf rule c) := by
      rw [List.filterMap_cons]
      cases failureOf rule c s <;> rfl
    have h2 : (referenceOf rule c s).toList ++ rest.filterMap (referenceOf rule c)
        = (s :: rest).filterMap (referenceOf rule c) := by
      rw [List.filterMap_cons]
      cases referenceOf rule c s <;> rfl
    rw [List.append_assoc, h1, h2]
    simp

theorem followEach_eq (rule : Rule Obj Con E) (start : List Obj) (c : Option Con)
    (refs : UniqueList Reference) (tr : Trace Obj Con) :
    followEach rule start c refs tr
      = (start.filterMap (failureOf rule c),
         refs.Append (start.filterMap (referenceOf rule c)),
         tr ++ start.map (fun s => Event.apply rule.Name s c)) := by
  unfold followEach
  rw [foldl_followEachStep]
  simp

theorem followLinks_eq (c : Option Con) (links : Links Obj Con E) (st : FollowState Obj Con E) :
    followLinks c links st
      = { st with merr := st.merr ++ failures links st.starters c,
                  refs := st.refs.Append (produced links st.starters c),
                  trace := st.trace ++ applications links st.starters c } := by
  unfold followLinks
  induction links generalizing st with
  | nil => simp [failures, produced, applications, UniqueList.Append_nil]
  | cons rule rest ih =>
    rw [List.foldl_cons, followEach_eq]
    simp only
    rw [ih]
    simp [failures, produced, applications, multierrAppend, UniqueList.Append_append]

theorem getAllStep_eq (store : Store Obj E) (ctx : Option E) (cls : Class)
    (ref : Reference) (result : List Obj) (merr : Error E) (tr : Trace Obj Con) :
    getAllStep store ctx cls (result, merr, tr) ref
      = (result ++ (store.Get ctx ref).1, merr ++ (store.Get ctx ref).2,
         tr ++ [Event.get cls ref]) := by
  unfold getAllStep
  by_cases he : (store.Get ctx ref).2 = []
  · simp [he]
  · simp [he, multierrAppend]

theorem foldl_getAllStep (store : Store Obj E) (ctx : Option E) (cls : Class)
    (refs : List Reference) (result : List Obj) (merr : Error E) (tr : Trace Obj Con) :
    refs.foldl (getAllStep store ctx cls) (result, merr, tr)
      = (result ++ refs.flatMap (fun ref => (store.Get ctx ref).1),
         merr ++ refs.flatMap (fun ref => (store.Get ctx ref).2),
         tr ++ refs.map (fun ref => Event.get cls ref)) := by
  induction refs generalizing result merr tr with
  | nil => simp
  | cons ref rest ih =>
    rw [List.foldl_cons, getAllStep_eq, ih]
    simp

theorem GetAll_eq (e : Engine Obj Con E) (ctx : Option E) (cls : Class)
    (refs : List Reference) (result : List Obj) (tr : Trace Obj Con) :
    e.GetAll ctx cls refs result tr
      = match e.stores cls.Domain with
        | none => (result, [Err.noStore cls.Domain], tr)
        | some store =>
          (result ++ refs.flatMap (fun ref => (store.Get ctx ref).1),
           refs.flatMap (fun ref => (store.Get ctx ref).2),
           tr ++ refs.map (fun ref => Event.get cls ref)) := by
  unfold Engine.GetAll Engine.Store
  cases e.stores cls.Domain with
  | none => rfl
  | some store =>
    simp only
    rw [foldl_getAllStep]
    simp

theorem GetAll_trace (e : Engine Obj Con E) (ctx : Option E) (cls : Class)
    (refs : List Reference) (tr : Trace Obj Con) :
    e.GetAll ctx cls refs [] tr
      = ((e.GetAll ctx cls refs [] []).1, (e.GetAll ctx cls refs [] []).2.1,
         tr ++ (e.GetAll ctx cls refs [] []).2.2) := by
  rw [GetAll_eq, GetAll_eq]
  cases e.stores cls.Domain with
  | none => simp
  | some store => simp

theorem followHop_eq (e : Engine Obj Con E) (ctx : Nat → Option E) (c : Option Con) (n i : Nat)
    (links : Links Obj Con E) (st : FollowState Obj Con E) :
    followHop e ctx c n i links st
      = if i = n - 1 ∨ firstOccurrences (produced links st.starters c) = [] then
          (⟨st.merr ++ failures links st.starters c,
            ⟨firstOccurrences (produced links st.starters c)⟩, st.starters,
            st.results.appendReferences (Links.Goal links)
              (firstOccurrences (produced links st.starters c)),
            st.trace ++ applications links st.starters c⟩, true)
        else
          (⟨st.merr ++ failures links st.starters c
              ++ (e.GetAll (ctx i) (Links.Goal links)
                    (firstOccurrences (produced links st.starters c)) [] []).2.1,
            ⟨firstOccurrences (produced links st.starters c)⟩,
            (e.GetAll (ctx i) (Links.Goal links)
                    (firstOccurrences (produced links st.starters c)) [] []).1,
            (st.results.appendReferences (Links.Goal links)
              (firstOccurrences (produced links st.starters c))).appendObjects
                (Links.Goal links)
                (e.GetAll (ctx i) (Links.Goal links)
                    (firstOccurrences (produced links st.starters c)) [] []).1,
            st.trace ++ applications links st.starters c
              ++ (e.GetAll (ctx i) (Links.Goal links)
                    (firstOccurrences (produced links st.starters c)) [] []).2.2⟩, false) := by
  have hrefs : ((⟨[]⟩ : UniqueList Reference).Append (produced links st.starters c))
      = ⟨firstOccurrences (produced links st.starters c)⟩ := by
    have := NewList_Append (produced links st.starters c)
    unfold NewList at this
    rw [← this]
  unfold followHop
  simp only [followLinks_eq, hrefs, List.length_eq_zero, Bool.or_eq_true, decide_eq_true_eq]
  by_cases h : i = n - 1 ∨ firstOccurrences (produced links st.starters c) = []
  · rw [if_pos h, if_pos h]
  · rw [if_neg h, if_neg h, GetAll_trace]
    simp [multierrAppend]

theorem followLoop_eq (e : Engine Obj Con E) (ctx : Nat → Option E) (c : Option Con) (n : Nat)
    (path : MultiPath Obj Con E) (i : Nat) (st : FollowState Obj Con E)
    (hn : i + path.length = n) :
    (followLoop e ctx c n i path st).results
        = (FollowSpec e ctx c i st.starters path st.results).results ∧
    (followLoop e ctx c n i path st).merr
        = st.merr ++ (FollowSpec e ctx c i st.starters path st.results).err ∧
    (followLoop e ctx c n i path st).trace
        = st.trace ++ (FollowSpec e ctx c i st.starters path st.results).trace := by
  induction path generalizing i st with
  | nil => simp [followLoop, FollowSpec]
  | cons links rest ih =>
    have hlast : i = n - 1 ↔ rest = [] := by
      simp only [List.length_cons] at hn
      constructor
      · intro h
        apply List.eq_nil_of_length_eq_zero
        omega
      · intro h
        subst h
        simp only [List.length_nil] at hn
        omega
    unfold followLoop FollowSpec
    rw [followHop_eq]
    by_cases h : i = n - 1 ∨ firstOccurrences (produced links st.starters c) = []
    · have h' : (rest.isEmpty || (firstOccurrences (produced links st.starters c)).isEmpty)
          = true := by
        simpa [List.isEmpty_iff, hlast] using h
      rw [if_pos h]
      simp only [h', if_true, and_self]
    · have h' : ¬ (rest.isEmpty || (firstOccurrences (produced links st.starters c)).isEmpty)
          = true := by
        simpa [List.isEmpty_iff, hlast] using h
      rw [if_neg h]
      simp only [h', if_false]
      have hn' : (i + 1) + rest.length = n := by
        simp only [List.length_cons] at hn
        omega
      obtain ⟨h1, h2, h3⟩ := ih (i + 1) _ hn'
      rw [h1, h2, h3]
      simp [List.append_assoc]

theorem Follow_valid (e : Engine Obj Con E) (ctx : Nat → Option E) (starters : List Obj)
    (c : Option Con) (path : MultiPath Obj Con E) (results : Results Obj)
    (hv : MultiPath.Valid path = true) :
    e.Follow ctx starters c path results = FollowSpec e ctx c 0 starters path results := by
  unfold Engine.Follow
  simp only [hv, Bool.not_true, Bool.false_eq_true, if_false]
  obtain ⟨h1, h2, h3⟩ := followLoop_eq e ctx c path.length path 0
    ⟨[], NewList, starters, results, []⟩ (by simp)
  rw [h1, h2, h3]
  simp

theorem Follow_invalid (e : Engine Obj Con E) (ctx : Nat → Option E) (starters : List Obj)
    (c : Option Con) (path : MultiPath Obj Con E) (results : Results Obj)
    (hv : MultiPath.Valid path = false) :
    e.Follow ctx starters c path results
      = ⟨results, [Err.invalidPath (path.map (fun links => links.map (fun r => r.Name)))], []⟩ := by
  unfold Engine.Follow
  simp [hv]

theorem followLoop_cons (e : Engine Obj Con E) (ctx : Nat → Option E) (c : Option Con)
    (n i : Nat) (links : Links Obj Con E) (rest : MultiPath Obj Con E)
    (st : FollowState Obj Con E) :
    followLoop e ctx c n i (links :: rest) st
      = if (followHop e ctx c n i links st).2 = true then (followHop e ctx c n i links st).1
        else followLoop e ctx c n (i + 1) rest (followHop e ctx c n i links st).1 := by
  rw [followLoop]
  rcases followHop e ctx c n i links st with ⟨st1, brk⟩
  cases brk <;> simp

theorem followLoop_hopState (e : Engine Obj Con E) (ctx : Nat → Option E) (c : Option Con)
    (n k : Nat) (path : MultiPath Obj Con E) (i : Nat) (st st' : FollowState Obj Con E)
    (h : hopState e ctx c n k i path st = some st') :
    followLoop e ctx c n i path st = followLoop e ctx c n (i + k) (path.drop k) st' := by
  induction k generalizing path i st with
  | zero =>
    simp only [hopState, Option.some.injEq] at h
    subst h
    simp
  | succ k ih =>
    cases path with
    | nil => simp [hopState] at h
    | cons links rest =>
      unfold hopState at h
      rw [followLoop_cons]
      rcases hh : followHop e ctx c n i links st with ⟨st1, brk⟩
      rw [hh] at h
      cases brk with
      | true => simp at h
      | false =>
        simp only at h
        simp only [List.drop_succ_cons, Bool.false_eq_true, if_false]
        rw [ih rest (i + 1) st1 h]
        have hik : i + 1 + k = i + (k + 1) := by omega
        rw [hik]

theorem Follow_from_hop (e : Engine Obj Con E) (ctx : Nat → Option E) (starters : List Obj)
    (c : Option Con) (path : MultiPath Obj Con E) (results : Results Obj)
    (hv : MultiPath.Valid path = true) (k : Nat) (st : FollowState Obj Con E)
    (hk : e.FollowAt ctx starters c path results k = some st) (hle : k ≤ path.length) :
    (e.Follow ctx starters c path results).results
        = (FollowSpec e ctx c k st.starters (path.drop k) st.results).results ∧
    (e.Follow ctx starters c path results).err
        = st.merr ++ (FollowSpec e ctx c k st.starters (path.drop k) st.results).err ∧
    (e.Follow ctx starters c path results).trace
        = st.trace ++ (FollowSpec e ctx c k st.starters (path.drop k) st.results).trace := by
  unfold Engine.FollowAt at hk
  have h := followLoop_hopState e ctx c path.length k path 0 _ st hk
  unfold Engine.Follow
  simp only [hv, Bool.not_true, Bool.false_eq_true, if_false]
  rw [h]
  simp only [Nat.zero_add]
  exact followLoop_eq e ctx c path.length (path.drop k) k st (by simp; omega)

/-! ## The contract of `Follow` on a single hop -/

/-- C1: on a valid single-hop path `Follow` does not stop at a failing application.
The error it returns is made of one component per application that failed, rules
in path order and starters in slice order, each wrapping the rule's error under
the rule's name; it is nil exactly when no application failed; and every non-empty
reference of a successful application is in `results[goal].References`. -/
theorem Follow_collects_rule_errors (e : Engine Obj Con E) (ctx : Nat → Option E)
    (starters : List Obj) (c : Option Con) (links : Links Obj Con E) (results : Results Obj)
    (hv : MultiPath.Valid [links] = true) :
    (e.Follow ctx starters c [links] results).err
        = links.flatMap (fun rule => starters.filterMap (fun s =>
            (rule.Apply s c).2.map (fun err => Err.following rule.Name err))) ∧
    ((e.Follow ctx starters c [links] results).err = [] ↔
        ∀ rule ∈ links, ∀ s ∈ starters, (rule.Apply s c).2 = none) ∧
    (∀ rule ∈ links, ∀ s ∈ starters, (rule.Apply s c).2 = none → (rule.Apply s c).1 ≠ Empty →
        (rule.Apply s c).1
          ∈ (e.Follow ctx starters c [links] results).results.refsOf (Links.Goal links)) := by
  rw [Follow_valid e ctx starters c [links] results hv]
  have herr : (FollowSpec e ctx c 0 starters [links] results).err = failures links starters c := by
    simp [FollowSpec]
  have hres : (FollowSpec e ctx c 0 starters [links] results).results
      = results.appendReferences (Links.Goal links)
          (firstOccurrences (produced links starters c)) := by
    simp [FollowSpec]
  refine ⟨herr, ?_, ?_⟩
  · rw [herr]
    unfold failures failureOf
    simp only [List.flatMap_eq_nil_iff, List.filterMap_eq_nil_iff, Option.map_eq_none']
  · intro rule hr s hs herr' hne
    rw [hres, refsOf_appendReferences_same, mem_Append_list]
    right
    rw [mem_firstOccurrences]
    unfold produced
    rw [List.mem_flatMap]
    refine ⟨rule, hr, ?_⟩
    rw [List.mem_filterMap]
    refine ⟨s, hs, ?_⟩
    unfold referenceOf
    rcases hA : rule.Apply s c with ⟨ref, err⟩
    rw [hA] at herr' hne
    simp only at herr' hne
    subst herr'
    simp [hne]

/-- One rule that fails and one that succeeds on a single starter: the error has
length 1 and `results[goal]` holds the reference of the rule that succeeded. -/
theorem Follow_collects_rule_errors_witness :
    MultiPath.Valid [[Example.ruleFail, Example.ruleOk]] = true ∧
    (Example.engine.Follow Example.live ["x"] none [[Example.ruleFail, Example.ruleOk]] ⟨[]⟩).err
        = [Err.following "fail" "boom"] ∧
    (⟨"x", ""⟩ : Reference)
        ∈ (Example.engine.Follow Example.live ["x"] none
            [[Example.ruleFail, Example.ruleOk]] ⟨[]⟩).results.refsOf Example.classB := by
  have h := Follow_collects_rule_errors Example.engine Example.live ["x"] none
    [Example.ruleFail, Example.ruleOk] ⟨[]⟩ (by decide)
  refine ⟨by decide, ?_, ?_⟩
  · rw [h.1]
    rfl
  · exact h.2.2 Example.ruleOk (by simp) "x" (by simp) rfl (by decide)

theorem firstOccurrences_of_nodup {T : Type} [DecidableEq T] (xs : List T) (h : xs.Nodup) :
    firstOccurrences xs = xs := by
  induction xs with
  | nil => rfl
  | cons x xs ih =>
    rw [List.nodup_cons] at h
    simp only [firstOccurrences, ih h.2, List.cons.injEq, true_and]
    rw [List.filter_eq_self]
    intro y hy
    simp only [ne_eq, decide_not, Bool.not_eq_eq_eq_not, Bool.not_true, decide_eq_false_iff_not]
    exact fun hyx => h.1 (hyx ▸ hy)

theorem mem_produced (links : Links Obj Con E) (starters : List Obj) (c : Option Con)
    (ref : Reference) :
    ref ∈ produced links starters c ↔
      ∃ rule ∈ links, ∃ s ∈ starters, rule.Apply s c = (ref, none) ∧ ref ≠ Empty := by
  unfold produced
  simp only [List.mem_flatMap, List.mem_filterMap]
  constructor
  · rintro ⟨rule, hr, s, hs, h⟩
    refine ⟨rule, hr, s, hs, ?_⟩
    unfold referenceOf at h
    rcases hA : rule.Apply s c with ⟨r, err⟩
    rw [hA] at h
    cases err with
    | some err => simp at h
    | none =>
      by_cases he : r = Empty
      · simp [he] at h
      · simp only [he, if_false, Option.some.injEq] at h
        subst h
        exact ⟨rfl, he⟩
  · rintro ⟨rule, hr, s, hs, hA, hne⟩
    refine ⟨rule, hr, s, hs, ?_⟩
    unfold referenceOf
    rw [hA]
    simp [hne]

/-- C2: on a valid single-hop path, starting from an empty Results, `Follow` leaves
one entry, for the goal, whose References are the distinct non-empty references
of the successful applications in order of first occurrence, rules in path order
and starters in slice order, and whose Objects are empty. A reference is recorded
exactly when some application returns it without error and it is not the empty
reference; the empty reference is never recorded, and the error has components
for the failing applications only. -/
theorem Follow_records_distinct_references (e : Engine Obj Con E) (ctx : Nat → Option E)
    (starters : List Obj) (c : Option Con) (links : Links Obj Con E)
    (hv : MultiPath.Valid [links] = true) :
    (e.Follow ctx starters c [links] ⟨[]⟩).results.list
        = [⟨Links.Goal links, ⟨firstOccurrences (produced links starters c)⟩, []⟩] ∧
    (e.Follow ctx starters c [links] ⟨[]⟩).results.refsOf (Links.Goal links)
        = firstOccurrences (links.flatMap (fun rule => starters.filterMap (fun s =>
            match rule.Apply s c with
            | (ref, none) => if ref = Empty then none else some ref
            | (_, some _) => none))) ∧
    ((e.Follow ctx starters c [links] ⟨[]⟩).results.refsOf (Links.Goal links)).Nodup ∧
    (∀ ref, ref ∈ (e.Follow ctx starters c [links] ⟨[]⟩).results.refsOf (Links.Goal links) ↔
        ∃ rule ∈ links, ∃ s ∈ starters, rule.Apply s c = (ref, none) ∧ ref ≠ Empty) ∧
    (e.Follow ctx starters c [links] ⟨[]⟩).err
        = links.flatMap (fun rule => starters.filterMap (fun s =>
            (rule.Apply s c).2.map (fun err => Err.following rule.Name err))) := by
  rw [Follow_valid e ctx starters c [links] ⟨[]⟩ hv]
  have hidem : ((NewList : UniqueList Reference).Append
      (firstOccurrences (produced links starters c)))
      = ⟨firstOccurrences (produced links starters c)⟩ := by
    have h := NewList_Append (firstOccurrences (produced links starters c))
    rw [firstOccurrences_of_nodup _ (nodup_firstOccurrences _)] at h
    cases hA : (NewList : UniqueList Reference).Append
      (firstOccurrences (produced links starters c)) with
    | mk l =>
      rw [hA] at h
      simp only at h
      rw [h]
  have hres : (FollowSpec e ctx c 0 starters [links] ⟨[]⟩).results.list
      = [⟨Links.Goal links, ⟨firstOccurrences (produced links starters c)⟩, []⟩] := by
    simp [FollowSpec, Results.appendReferences, getThen, Result.addReferences, hidem]
  have hrefs : (FollowSpec e ctx c 0 starters [links] ⟨[]⟩).results.refsOf (Links.Goal links)
      = firstOccurrences (produced links starters c) := by
    unfold Results.refsOf Results.entry
    rw [hres]
    simp [List.find?_cons]
  refine ⟨hres, ?_, ?_, ?_, ?_⟩
  · rw [hrefs]
    rfl
  · rw [hrefs]
    exact nodup_firstOccurrences _
  · intro ref
    rw [hrefs, mem_firstOccurrences, mem_produced]
  · simp only [FollowSpec, List.isEmpty_nil, Bool.true_or, if_true]
    rfl

/-- Two rules on three starters, one rule declining: the references are recorded
once each, in order of first occurrence, and there is no error. -/
theorem Follow_records_distinct_references_witness :
    MultiPath.Valid [[Example.ruleDecline, Example.ruleOk]] = true ∧
    (Example.engine.Follow Example.live ["x", "y", "x"] none
        [[Example.ruleDecline, Example.ruleOk]] ⟨[]⟩).results.refsOf Example.classB
      = [⟨"x", ""⟩, ⟨"y", ""⟩] ∧
    (Example.engine.Follow Example.live ["x", "y", "x"] none
        [[Example.ruleDecline, Example.ruleOk]] ⟨[]⟩).err = [] := by
  have h := Follow_records_distinct_references Example.engine Example.live ["x", "y", "x"] none
    [Example.ruleDecline, Example.ruleOk] (by decide)
  refine ⟨by decide, ?_, ?_⟩
  · rw [show Example.classB = Links.Goal [Example.ruleDecline, Example.ruleOk] from rfl, h.2.1]
    decide
  · rw [h.2.2.2.2]
    rfl

/-! ## Invalid paths -/

theorem adjacent_append_false (pre : MultiPath Obj Con E) (prev next : Links Obj Con E)
    (rest : MultiPath Obj Con E) (h : Links.Goal prev ≠ Links.Start next) :
    adjacent (pre ++ prev :: next :: rest) = false := by
  induction pre with
  | nil => simp [adjacent, h]
  | cons x xs ih =>
    cases xs with
    | nil =>
      simp only [List.cons_append, List.nil_append, adjacent, Bool.and_eq_false_imp,
        decide_eq_true_eq]
      intro _
      simpa [adjacent] using ih
    | cons y ys =>
      simp only [List.cons_append, adjacent, Bool.and_eq_false_imp, decide_eq_true_eq]
      intro _
      simpa using ih

theorem Valid_false_of_broken (path : MultiPath Obj Con E)
    (h : path = [] ∨ [] ∈ path ∨
      ∃ pre prev next rest, path = pre ++ prev :: next :: rest ∧
        Links.Goal prev ≠ Links.Start next) :
    MultiPath.Valid path = false := by
  unfold MultiPath.Valid
  rcases h with h | h | ⟨pre, prev, next, rest, hp, hne⟩
  · subst h
    rfl
  · have : path.all (fun links => !links.isEmpty) = false := by
      rw [List.all_eq_false]
      exact ⟨[], h, by simp⟩
    simp [this]
  · rw [hp, adjacent_append_false pre prev next rest hne]
    simp

/-- C8: `Follow` fails fast on an invalid path. For a MultiPath that is empty, or
holds an empty Links, or has two adjacent Links with `prev.goal != next.start`,
`Follow` returns the invalid-path error alone, which is not nil, makes no call to a
rule or a store, and returns `results` as it got them. -/
theorem Follow_fails_fast_on_invalid_path (e : Engine Obj Con E) (ctx : Nat → Option E)
    (starters : List Obj) (c : Option Con) (path : MultiPath Obj Con E) (results : Results Obj)
    (h : path = [] ∨ [] ∈ path ∨
      ∃ pre prev next rest, path = pre ++ prev :: next :: rest ∧
        Links.Goal prev ≠ Links.Start next) :
    (e.Follow ctx starters c path results).err
        = [Err.invalidPath (path.map (fun links => links.map (fun r => r.Name)))] ∧
    (e.Follow ctx starters c path results).err ≠ [] ∧
    (e.Follow ctx starters c path results).trace = [] ∧
    (e.Follow ctx starters c path results).results = results := by
  rw [Follow_invalid e ctx starters c path results (Valid_false_of_broken path h)]
  simp

/-- A path whose first hop ends in class `b` while its second starts from class
`a`: `Follow` returns the invalid-path error and touches nothing. -/
theorem Follow_fails_fast_on_invalid_path_witness :
    Links.Goal [Example.ruleOk] ≠ Links.Start [Example.ruleOk] ∧
    (Example.engine.Follow Example.live ["x"] none [[Example.ruleOk], [Example.ruleOk]] ⟨[]⟩).err
        = [Err.invalidPath [["ok"], ["ok"]]] ∧
    (Example.engine.Follow Example.live ["x"] none
        [[Example.ruleOk], [Example.ruleOk]] ⟨[]⟩).trace = [] := by
  have h := Follow_fails_fast_on_invalid_path Example.engine Example.live ["x"] none
    [[Example.ruleOk], [Example.ruleOk]] ⟨[]⟩
    (Or.inr (Or.inr ⟨[], [Example.ruleOk], [Example.ruleOk], [], rfl, by decide⟩))
  exact ⟨by decide, h.1, h.2.2.1⟩

/-! ## `FollowAll` -/

/-- C4: `FollowAll` appends the error accumulated so far to itself at every path.
With two paths it returns the error of the first path twice, followed by the error
of the second. So with a first path that has a failing rule and a second path
without failure it returns two components, while the errors `Follow` returns on the
two paths have one component together. -/
theorem FollowAll_repeats_errors (e : Engine Obj Con E) (ctx : Nat → Nat → Option E)
    (starters : List Obj) (c : Option Con) (p q : MultiPath Obj Con E) (results : Results Obj) :
    (e.FollowAll ctx starters c [p, q] results).err
      = (e.Follow (ctx 0) starters none p results).err
        ++ ((e.Follow (ctx 0) starters none p results).err
          ++ (e.Follow (ctx 1) starters none q
                (e.Follow (ctx 0) starters none p results).results).err) ∧
    (Example.engine.FollowAll (fun _ => Example.live) ["x"] none
        [[[Example.ruleFail]], [[Example.ruleOk]]] ⟨[]⟩).err
      = [Err.following "fail" "boom", Err.following "fail" "boom"] ∧
    (Example.engine.Follow Example.live ["x"] none [[Example.ruleFail]] ⟨[]⟩).err
      = [Err.following "fail" "boom"] ∧
    (Example.engine.Follow Example.live ["x"] none [[Example.ruleOk]]
        (Example.engine.Follow Example.live ["x"] none [[Example.ruleFail]] ⟨[]⟩).results).err
      = [] := by
  refine ⟨?_, by decide, by decide, by decide⟩
  simp [Engine.FollowAll, followAllStep, multierrAppend]

/-- C5: `FollowAll` does not pass its constraint on. On a single path it does what
`Follow` does with the nil constraint, whatever constraint it is given. So called
with the constraint `some 1` it records the reference the rule returns for `nil`,
where `Follow` with `some 1` records the one for the constraint. -/
theorem FollowAll_drops_constraint (e : Engine Obj Con E) (ctx : Nat → Nat → Option E)
    (starters : List Obj) (c : Option Con) (p : MultiPath Obj Con E) (results : Results Obj) :
    e.FollowAll ctx starters c [p] results = e.Follow (ctx 0) starters none p results ∧
    (Example.engine.FollowAll (fun _ => Example.live) ["x"] (some 1)
        [[[Example.ruleCon]]] ⟨[]⟩).results.refsOf Example.classB = [⟨"x", ""⟩] ∧
    (Example.engine.FollowAll (fun _ => Example.live) ["x"] (some 1)
        [[[Example.ruleCon]]] ⟨[]⟩).trace = [Event.apply "con" "x" none] ∧
    (Example.engine.Follow Example.live ["x"] (some 1)
        [[Example.ruleCon]] ⟨[]⟩).results.refsOf Example.classB = [⟨"x", "constrained"⟩] ∧
    (Example.engine.Follow Example.live ["x"] (some 1)
        [[Example.ruleCon]] ⟨[]⟩).trace = [Event.apply "con" "x" (some 1)] := by
  refine ⟨?_, by decide, by decide, by decide, by decide⟩
  simp [Engine.FollowAll, followAllStep, multierrAppend]

/-! ## What a traversal keeps -/

theorem refsOf_appendReferences_extends (r : Results Obj) (c cls : Class)
    (refs : List Reference) : r.refsOf cls <+: (r.appendReferences c refs).refsOf cls := by
  by_cases h : cls = c
  · subst h
    rw [refsOf_appendReferences_same, UniqueList.Append_list]
    exact List.prefix_append _ _
  · rw [refsOf_appendReferences_other r c cls h]

theorem objsOf_appendObjects_extends (r : Results Obj) (c cls : Class) (objects : List Obj) :
    r.objsOf cls <+: (r.appendObjects c objects).objsOf cls := by
  by_cases h : cls = c
  · subst h
    rw [objsOf_appendObjects_same]
    exact List.prefix_append _ _
  · rw [objsOf_appendObjects_other r c cls h]

theorem FollowSpec_refsOf_extends (e : Engine Obj Con E) (ctx : Nat → Option E) (c : Option Con)
    (path : MultiPath Obj Con E) (i : Nat) (starters : List Obj) (results : Results Obj)
    (cls : Class) :
    results.refsOf cls <+: (FollowSpec e ctx c i starters path results).results.refsOf cls := by
  induction path generalizing i starters results with
  | nil => simp [FollowSpec]
  | cons links rest ih =>
    unfold FollowSpec
    simp only
    split
    · exact refsOf_appendReferences_extends _ _ _ _
    · refine List.IsPrefix.trans ?_ (ih _ _ _)
      rw [refsOf_appendObjects]
      exact refsOf_appendReferences_extends _ _ _ _

theorem FollowSpec_objsOf_extends (e : Engine Obj Con E) (ctx : Nat → Option E) (c : Option Con)
    (path : MultiPath Obj Con E) (i : Nat) (starters : List Obj) (results : Results Obj)
    (cls : Class) :
    results.objsOf cls <+: (FollowSpec e ctx c i starters path results).results.objsOf cls := by
  induction path generalizing i starters results with
  | nil => simp [FollowSpec]
  | cons links rest ih =>
    unfold FollowSpec
    simp only
    split
    · rw [objsOf_appendReferences]
    · refine List.IsPrefix.trans ?_ (ih _ _ _)
      refine List.IsPrefix.trans ?_ (objsOf_appendObjects_extends _ _ _ _)
      rw [objsOf_appendReferences]

theorem FollowSpec_records_head (e : Engine Obj Con E) (ctx : Nat → Option E) (c : Option Con)
    (links : Links Obj Con E) (rest : MultiPath Obj Con E) (i : Nat) (starters : List Obj)
    (results : Results Obj) (ref : Reference) (h : ref ∈ produced links starters c) :
    ref ∈ (FollowSpec e ctx c i starters (links :: rest) results).results.refsOf
      (Links.Goal links) := by
  have h1 : ref ∈ (results.appendReferences (Links.Goal links)
      (firstOccurrences (produced links starters c))).refsOf (Links.Goal links) := by
    rw [refsOf_appendReferences_same, mem_Append_list, mem_firstOccurrences]
    exact Or.inr h
  unfold FollowSpec
  simp only
  split
  · exact h1
  · apply (FollowSpec_refsOf_extends e ctx c rest _ _ _ _).subset
    rw [refsOf_appendObjects]
    exact h1

theorem followHop_refs (e : Engine Obj Con E) (ctx : Nat → Option E) (c : Option Con) (n i : Nat)
    (links : Links Obj Con E) (st : FollowState Obj Con E) :
    (followHop e ctx c n i links st).1.refs.list
      = firstOccurrences (produced links st.starters c) := by
  rw [followHop_eq]
  split <;> rfl

theorem followHop_break (e : Engine Obj Con E) (ctx : Nat → Option E) (c : Option Con) (n i : Nat)
    (links : Links Obj Con E) (st : FollowState Obj Con E) :
    (followHop e ctx c n i links st).2 = true ↔
      (i = n - 1 ∨ firstOccurrences (produced links st.starters c) = []) := by
  rw [followHop_eq]
  split
  next h => simp [h]
  next h => simp [h]

theorem hopState_cons (e : Engine Obj Con E) (ctx : Nat → Option E) (c : Option Con)
    (n k i : Nat) (links : Links Obj Con E) (rest : MultiPath Obj Con E)
    (st : FollowState Obj Con E) :
    hopState e ctx c n (k + 1) i (links :: rest) st
      = if (followHop e ctx c n i links st).2 = true then none
        else hopState e ctx c n k (i + 1) rest (followHop e ctx c n i links st).1 := by
  rw [hopState]
  rcases followHop e ctx c n i links st with ⟨st1, brk⟩
  cases brk <;> simp

theorem hopState_lt (e : Engine Obj Con E) (ctx : Nat → Option E) (c : Option Con)
    (n k : Nat) (path : MultiPath Obj Con E) (i : Nat) (st st' : FollowState Obj Con E)
    (h : hopState e ctx c n k i path st = some st') (hn : i + path.length = n)
    (hne : path ≠ []) : k < path.length := by
  induction k generalizing path i st with
  | zero => exact List.length_pos.mpr hne
  | succ k ih =>
    cases path with
    | nil => exact absurd rfl hne
    | cons links rest =>
      rw [hopState_cons] at h
      by_cases hb : (followHop e ctx c n i links st).2 = true
      · simp [hb] at h
      · simp only [hb, if_false] at h
        rw [followHop_break, not_or] at hb
        simp only [List.length_cons] at hn
        have hrest : rest ≠ [] := by
          intro hr
          subst hr
          simp only [List.length_nil] at hn
          exact hb.1 (by omega)
        have := ih rest (i + 1) _ h (by omega) hrest
        simp only [List.length_cons]
        omega

theorem FollowAt_lt (e : Engine Obj Con E) (ctx : Nat → Option E) (starters : List Obj)
    (c : Option Con) (path : MultiPath Obj Con E) (results : Results Obj)
    (hv : MultiPath.Valid path = true) (k : Nat) (st : FollowState Obj Con E)
    (hk : e.FollowAt ctx starters c path results k = some st) : k < path.length := by
  have hne : path ≠ [] := by
    intro h
    subst h
    simp [MultiPath.Valid] at hv
  exact hopState_lt e ctx c path.length k path 0 _ st hk (by simp) hne

/-! ## The contract of `Follow` over several hops -/

/-- C3: the dedup of references starts afresh at every hop. On a valid path `Follow`
does what the traversal of the spec does, which dedups the references of each hop
from scratch. At every hop `k` the loop reaches, whatever the dedup list holds
from earlier hops, the loop body leaves in it exactly the distinct non-empty
references produced by applying the rules of hop `k` to the starters of hop `k`,
and each of them, also one an earlier hop has produced already, is recorded in
the results `Follow` returns for the goal of hop `k`. -/
theorem Follow_dedups_each_hop_afresh (e : Engine Obj Con E) (ctx : Nat → Option E)
    (starters : List Obj) (c : Option Con) (path : MultiPath Obj Con E) (results : Results Obj)
    (hv : MultiPath.Valid path = true) :
    e.Follow ctx starters c path results = FollowSpec e ctx c 0 starters path results ∧
    ∀ (k : Nat) (st : FollowState Obj Con E) (links : Links Obj Con E),
      e.FollowAt ctx starters c path results k = some st → path[k]? = some links →
        (followHop e ctx c path.length k links st).1.refs.list
            = firstOccurrences (produced links st.starters c) ∧
        ∀ ref ∈ produced links st.starters c,
          ref ∈ (e.Follow ctx starters c path results).results.refsOf (Links.Goal links) := by
  refine ⟨Follow_valid e ctx starters c path results hv, ?_⟩
  intro k st links hk hlinks
  refine ⟨followHop_refs e ctx c path.length k links st, ?_⟩
  intro ref href
  obtain ⟨hlt, hget⟩ := List.getElem?_eq_some.mp hlinks
  have hdrop : path.drop k = links :: path.drop (k + 1) := by
    rw [List.drop_eq_getElem_cons hlt, hget]
  rw [(Follow_from_hop e ctx starters c path results hv k st hk (Nat.le_of_lt hlt)).1, hdrop]
  exact FollowSpec_records_head e ctx c links _ k st.starters st.results ref href

/-- Two hops that produce the same reference: it is recorded for the goal of the
first hop and again for the goal of the second. -/
theorem Follow_dedups_each_hop_afresh_witness :
    MultiPath.Valid [[Example.ruleOk], [Example.ruleSame]] = true ∧
    (Example.engine.Follow Example.live ["x"] none
        [[Example.ruleOk], [Example.ruleSame]] ⟨[]⟩).results.refsOf Example.classB
      = [⟨"x", ""⟩] ∧
    (⟨"x", ""⟩ : Reference) ∈ (Example.engine.Follow Example.live ["x"] none
        [[Example.ruleOk], [Example.ruleSame]] ⟨[]⟩).results.refsOf Example.classC := by
  refine ⟨by decide, by decide, ?_⟩
  have h := (Follow_dedups_each_hop_afresh Example.engine Example.live ["x"] none
    [[Example.ruleOk], [Example.ruleSame]] ⟨[]⟩ (by decide)).2 1
  cases hst : Example.engine.FollowAt Example.live ["x"] none
      [[Example.ruleOk], [Example.ruleSame]] ⟨[]⟩ 1 with
  | none =>
    have : (Example.engine.FollowAt Example.live ["x"] none
      [[Example.ruleOk], [Example.ruleSame]] ⟨[]⟩ 1).isSome = true := by decide
    rw [hst] at this
    cases this
  | some st =>
    have hstart : st.starters = ["x", "x2"] := by
      have : (Example.engine.FollowAt Example.live ["x"] none
        [[Example.ruleOk], [Example.ruleSame]] ⟨[]⟩ 1).map (fun s => s.starters)
          = some ["x", "x2"] := by decide
      rw [hst] at this
      simpa using this
    have h2 := (h st [Example.ruleSame] hst rfl).2 ⟨"x", ""⟩
    rw [hstart] at h2
    exact h2 (by decide)

theorem hopState_step (e : Engine Obj Con E) (ctx : Nat → Option E) (c : Option Con)
    (n k : Nat) (path : MultiPath Obj Con E) (i : Nat) (st st' : FollowState Obj Con E)
    (links : Links Obj Con E)
    (h : hopState e ctx c n k i path st = some st') (hl : path[k]? = some links) :
    hopState e ctx c n (k + 1) i path st
      = if (followHop e ctx c n (i + k) links st').2 = true then none
        else some (followHop e ctx c n (i + k) links st').1 := by
  induction k generalizing path i st with
  | zero =>
    simp only [hopState, Option.some.injEq] at h
    subst h
    cases path with
    | nil => simp at hl
    | cons l rest =>
      simp only [List.getElem?_cons_zero, Option.some.injEq] at hl
      subst hl
      rw [hopState_cons]
      simp [hopState]
  | succ k ih =>
    cases path with
    | nil => simp at hl
    | cons l rest =>
      simp only [List.getElem?_cons_succ] at hl
      rw [hopState_cons] at h
      rw [hopState_cons]
      by_cases hb : (followHop e ctx c n i l st).2 = true
      · simp [hb] at h
      · rw [if_neg hb] at h
        rw [if_neg hb, ih rest (i + 1) _ h hl]
        have hik : i + 1 + k = i + (k + 1) := by omega
        rw [hik]

theorem FollowAt_succ (e : Engine Obj Con E) (ctx : Nat → Option E) (starters : List Obj)
    (c : Option Con) (path : MultiPath Obj Con E) (results : Results Obj) (k : Nat)
    (st : FollowState Obj Con E) (links : Links Obj Con E)
    (hk : e.FollowAt ctx starters c path results k = some st) (hl : path[k]? = some links) :
    e.FollowAt ctx starters c path results (k + 1)
      = if (followHop e ctx c path.length k links st).2 = true then none
        else some (followHop e ctx c path.length k links st).1 := by
  unfold Engine.FollowAt at hk
  unfold Engine.FollowAt
  rw [hopState_step e ctx c path.length k path 0 _ st links hk hl]
  simp

theorem infix_flatMap_of_mem {α β : Type} (f : α → List β) (l : List α) (a : α) (h : a ∈ l) :
    f a <:+: l.flatMap f := by
  obtain ⟨s, t, rfl⟩ := List.append_of_mem h
  refine ⟨s.flatMap f, t.flatMap f, ?_⟩
  simp [List.flatMap_append, List.flatMap_cons]

theorem FollowSpec_trace_head (e : Engine Obj Con E) (ctx : Nat → Option E) (c : Option Con)
    (links : Links Obj Con E) (rest : MultiPath Obj Con E) (i : Nat) (starters : List Obj)
    (results : Results Obj) :
    ∃ tail, (FollowSpec e ctx c i starters (links :: rest) results).trace
      = applications links starters c ++ tail := by
  unfold FollowSpec
  simp only
  split
  · exact ⟨[], by simp⟩
  · exact ⟨_, List.append_assoc _ _ _⟩

theorem mem_applications (links : Links Obj Con E) (starters : List Obj) (c : Option Con)
    (rule : Rule Obj Con E) (s : Obj) (hr : rule ∈ links) (hs : s ∈ starters) :
    Event.apply rule.Name s c ∈ applications links starters c := by
  unfold applications
  rw [List.mem_flatMap]
  exact ⟨rule, hr, List.mem_map.mpr ⟨s, hs, rfl⟩⟩

/-- C6: partial results survive a store failure. On a valid path, let the loop reach
a hop `k` that is not the last, let the store of its goal answer the reference
`ref` of that hop with the objects `objs` and the error `err`. Then the loop goes on
to hop `k + 1`: every reference of hop `k` has been passed to the store, in order,
the starters of hop `k + 1` are the objects of all those calls, `objs` among them,
and the rules of hop `k + 1` are applied to each of `objs`; the error `Follow`
returns contains `err`, and `results[goal].Objects` contains `objs`. -/
theorem Follow_keeps_partial_results (e : Engine Obj Con E) (ctx : Nat → Option E)
    (starters : List Obj) (c : Option Con) (path : MultiPath Obj Con E) (results : Results Obj)
    (hv : MultiPath.Valid path = true)
    (k : Nat) (st : FollowState Obj Con E) (links next : Links Obj Con E)
    (store : Store Obj E) (ref : Reference) (objs : List Obj) (err : Error E)
    (hk : e.FollowAt ctx starters c path results k = some st)
    (hlinks : path[k]? = some links) (hnext : path[k + 1]? = some next)
    (hstore : e.stores (Links.Goal links).Domain = some store)
    (href : ref ∈ firstOccurrences (produced links st.starters c))
    (hget : store.Get (ctx k) ref = (objs, err)) :
    (∃ st', e.FollowAt ctx starters c path results (k + 1) = some st' ∧
      st'.starters = (firstOccurrences (produced links st.starters c)).flatMap
        (fun r => (store.Get (ctx k) r).1) ∧
      objs <:+: st'.starters ∧
      st'.trace = st.trace ++ applications links st.starters c
        ++ (firstOccurrences (produced links st.starters c)).map
            (fun r => Event.get (Links.Goal links) r)) ∧
    err <:+: (e.Follow ctx starters c path results).err ∧
    objs <:+: (e.Follow ctx starters c path results).results.objsOf (Links.Goal links) ∧
    (∀ o ∈ objs, ∀ rule ∈ next,
      Event.apply rule.Name o c ∈ (e.Follow ctx starters c path results).trace) := by
  obtain ⟨hlt1, -⟩ := List.getElem?_eq_some.mp hnext
  have hnb : ¬ (k = path.length - 1 ∨ firstOccurrences (produced links st.starters c) = []) := by
    rw [not_or]
    exact ⟨by omega, fun h => by rw [h] at href; cases href⟩
  have hobjs : objs = (store.Get (ctx k) ref).1 := by rw [hget]
  have herr : err = (store.Get (ctx k) ref).2 := by rw [hget]
  have hinO : objs <:+: (firstOccurrences (produced links st.starters c)).flatMap
      (fun r => (store.Get (ctx k) r).1) := by
    rw [hobjs]
    exact infix_flatMap_of_mem (fun r => (store.Get (ctx k) r).1) _ ref href
  have hinE : err <:+: (firstOccurrences (produced links st.starters c)).flatMap
      (fun r => (store.Get (ctx k) r).2) := by
    rw [herr]
    exact infix_flatMap_of_mem (fun r => (store.Get (ctx k) r).2) _ ref href
  have hsucc := FollowAt_succ e ctx starters c path results k st links hk hlinks
  have hbrk : ¬ (followHop e ctx c path.length k links st).2 = true := by
    rw [followHop_break]
    exact hnb
  rw [if_neg hbrk] at hsucc
  have hst1 : (followHop e ctx c path.length k links st).1
      = ⟨st.merr ++ failures links st.starters c
            ++ (firstOccurrences (produced links st.starters c)).flatMap
                (fun r => (store.Get (ctx k) r).2),
          ⟨firstOccurrences (produced links st.starters c)⟩,
          (firstOccurrences (produced links st.starters c)).flatMap
                (fun r => (store.Get (ctx k) r).1),
          (st.results.appendReferences (Links.Goal links)
              (firstOccurrences (produced links st.starters c))).appendObjects
            (Links.Goal links)
            ((firstOccurrences (produced links st.starters c)).flatMap
                (fun r => (store.Get (ctx k) r).1)),
          st.trace ++ applications links st.starters c
            ++ (firstOccurrences (produced links st.starters c)).map
                (fun r => Event.get (Links.Goal links) r)⟩ := by
    rw [followHop_eq, if_neg hnb, GetAll_eq, hstore]
    simp
  rw [hst1] at hsucc
  obtain ⟨h1, h2, h3⟩ := Follow_from_hop e ctx starters c path results hv (k + 1) _ hsucc
    (Nat.le_of_lt hlt1)
  have hdrop : path.drop (k + 1) = next :: path.drop (k + 1 + 1) := by
    obtain ⟨hlt, hg⟩ := List.getElem?_eq_some.mp hnext
    rw [List.drop_eq_getElem_cons hlt, hg]
  refine ⟨⟨_, hsucc, rfl, hinO, rfl⟩, ?_, ?_, ?_⟩
  · rw [h2]
    simp only
    exact hinE.trans ((List.suffix_append _ _).isInfix.trans (List.prefix_append _ _).isInfix)
  · rw [h1]
    simp only
    refine List.IsInfix.trans ?_ (FollowSpec_objsOf_extends e ctx c _ _ _ _ _).isInfix
    rw [objsOf_appendObjects_same]
    exact hinO.trans (List.suffix_append _ _).isInfix
  · intro o ho rule hr
    rw [h3, hdrop]
    simp only
    obtain ⟨tail, htail⟩ := FollowSpec_trace_head e ctx c next (path.drop (k + 1 + 1)) (k + 1)
      ((firstOccurrences (produced links st.starters c)).flatMap
        (fun r => (store.Get (ctx k) r).1))
      ((st.results.appendReferences (Links.Goal links)
              (firstOccurrences (produced links st.starters c))).appendObjects
            (Links.Goal links)
            ((firstOccurrences (produced links st.starters c)).flatMap
                (fun r => (store.Get (ctx k) r).1)))
    rw [htail]
    apply List.mem_append_right
    apply List.mem_append_left
    exact mem_applications next _ c rule o hr (hinO.subset ho)

/-- A store that appends two objects for the reference `bad` and then fails: the
error comes back from `Follow`, and the two objects are in `results` and are
starters of the second hop. -/
theorem Follow_keeps_partial_results_witness :
    MultiPath.Valid [[Example.ruleOk], [Example.ruleNext]] = true ∧
    Example.store.Get (Example.live 0) ⟨"bad", ""⟩
      = (["bad", "bad2"], [Err.foreign "http 500"]) ∧
    [Err.foreign "http 500"] <:+: (Example.engine.Follow Example.live ["x", "bad", "y"] none
        [[Example.ruleOk], [Example.ruleNext]] ⟨[]⟩).err ∧
    ["bad", "bad2"] <:+: (Example.engine.Follow Example.live ["x", "bad", "y"] none
        [[Example.ruleOk], [Example.ruleNext]] ⟨[]⟩).results.objsOf Example.classB ∧
    (∀ o ∈ ["bad", "bad2"], ∀ rule ∈ [Example.ruleNext],
      Event.apply rule.Name o none ∈ (Example.engine.Follow Example.live ["x", "bad", "y"] none
        [[Example.ruleOk], [Example.ruleNext]] ⟨[]⟩).trace) := by
  have h := Follow_keeps_partial_results Example.engine Example.live ["x", "bad", "y"] none
    [[Example.ruleOk], [Example.ruleNext]] ⟨[]⟩ (by decide) 0
    ⟨[], NewList, ["x", "bad", "y"], ⟨[]⟩, []⟩ [Example.ruleOk] [Example.ruleNext]
    Example.store ⟨"bad", ""⟩ ["bad", "bad2"] [Err.foreign "http 500"]
    rfl rfl rfl rfl (by decide) rfl
  exact ⟨by decide, rfl, h.2.1, h.2.2.1, h.2.2.2⟩

theorem get_not_mem_applications (links : Links Obj Con E) (starters : List Obj)
    (c : Option Con) (cls : Class) (ref : Reference) :
    Event.get cls ref ∉ applications links starters c := by
  unfold applications
  simp [List.mem_flatMap]

theorem FollowSpec_break (e : Engine Obj Con E) (ctx : Nat → Option E) (c : Option Con)
    (links : Links Obj Con E) (rest : MultiPath Obj Con E) (i : Nat) (starters : List Obj)
    (results : Results Obj)
    (h : rest = [] ∨ firstOccurrences (produced links starters c) = []) :
    FollowSpec e ctx c i starters (links :: rest) results
      = ⟨results.appendReferences (Links.Goal links)
            (firstOccurrences (produced links starters c)),
          failures links starters c, applications links starters c⟩ := by
  unfold FollowSpec
  have h' : (rest.isEmpty || (firstOccurrences (produced links starters c)).isEmpty) = true := by
    simpa [List.isEmpty_iff] using h
  simp only [h', if_true]

/-- C7: `Follow` stops after recording the references of the last hop, and after a
hop that produced none. On a valid path, when the loop reaches the last hop, what
`Follow` does from there is to apply the rules of that hop and record their
references: no store is called and the Objects of every class stay as they were.
When the loop reaches a hop whose applications produce no reference, `Follow`
returns after that hop: it has applied the rules of that hop and no other, it has
got the entry of that hop's goal in results and no other, and the loop does not
reach the next hop. -/
theorem Follow_stops_at_last_hop_or_without_references (e : Engine Obj Con E)
    (ctx : Nat → Option E) (starters : List Obj) (c : Option Con)
    (path : MultiPath Obj Con E) (results : Results Obj)
    (hv : MultiPath.Valid path = true) :
    (∀ (st : FollowState Obj Con E) (links : Links Obj Con E),
      e.FollowAt ctx starters c path results (path.length - 1) = some st →
      path[path.length - 1]? = some links →
        (e.Follow ctx starters c path results).trace
            = st.trace ++ applications links st.starters c ∧
        (∀ cls ref, Event.get cls ref ∉ applications links st.starters c) ∧
        (∀ cls, (e.Follow ctx starters c path results).results.objsOf cls
            = st.results.objsOf cls) ∧
        (e.Follow ctx starters c path results).results
            = st.results.appendReferences (Links.Goal links)
                (firstOccurrences (produced links st.starters c))) ∧
    (∀ (k : Nat) (st : FollowState Obj Con E) (links : Links Obj Con E),
      e.FollowAt ctx starters c path results k = some st → path[k]? = some links →
      produced links st.starters c = [] →
        (e.Follow ctx starters c path results).trace
            = st.trace ++ applications links st.starters c ∧
        (e.Follow ctx starters c path results).results
            = st.results.appendReferences (Links.Goal links) [] ∧
        (e.Follow ctx starters c path results).err
            = st.merr ++ failures links st.starters c ∧
        e.FollowAt ctx starters c path results (k + 1) = none) := by
  constructor
  · intro st links hk hlinks
    obtain ⟨hlt, hget⟩ := List.getElem?_eq_some.mp hlinks
    have hdrop : path.drop (path.length - 1) = links :: path.drop (path.length - 1 + 1) := by
      rw [List.drop_eq_getElem_cons hlt, hget]
    have hnil : path.drop (path.length - 1 + 1) = [] := by
      apply List.drop_eq_nil_of_le
      omega
    obtain ⟨h1, -, h3⟩ := Follow_from_hop e ctx starters c path results hv _ st hk
      (Nat.le_of_lt hlt)
    rw [hdrop, hnil, FollowSpec_break e ctx c links [] _ _ _ (Or.inl rfl)] at h1 h3
    refine ⟨h3, fun cls ref => get_not_mem_applications links st.starters c cls ref, ?_, h1⟩
    intro cls
    rw [h1]
    exact objsOf_appendReferences _ _ _ _
  · intro k st links hk hlinks hnone
    obtain ⟨hlt, hget⟩ := List.getElem?_eq_some.mp hlinks
    have hdrop : path.drop k = links :: path.drop (k + 1) := by
      rw [List.drop_eq_getElem_cons hlt, hget]
    have hfo : firstOccurrences (produced links st.starters c) = [] := by
      rw [hnone]
      rfl
    obtain ⟨h1, h2, h3⟩ := Follow_from_hop e ctx starters c path results hv k st hk
      (Nat.le_of_lt hlt)
    rw [hdrop, FollowSpec_break e ctx c links _ _ _ _ (Or.inr hfo)] at h1 h2 h3
    rw [hfo] at h1
    refine ⟨h3, h1, h2, ?_⟩
    rw [FollowAt_succ e ctx starters c path results k st links hk hlinks]
    have hb : (followHop e ctx c path.length k links st).2 = true := by
      rw [followHop_break]
      exact Or.inr hfo
    rw [if_pos hb]

/-- A two-hop path whose only rule of the first hop declines: `Follow` applies that
rule, records an empty entry for the goal of the first hop and returns; the rule
of the second hop is not applied, no store is called and no entry is made for the
goal of the second hop. -/
theorem Follow_stops_at_last_hop_or_without_references_witness :
    MultiPath.Valid [[Example.ruleDecline], [Example.ruleNext]] = true ∧
    (Example.engine.Follow Example.live ["x"] none
        [[Example.ruleDecline], [Example.ruleNext]] ⟨[]⟩).trace
      = [Event.apply "decline" "x" none] ∧
    (Example.engine.Follow Example.live ["x"] none
        [[Example.ruleDecline], [Example.ruleNext]] ⟨[]⟩).results
      = (⟨[]⟩ : Results String).appendReferences Example.classB [] := by
  have h := (Follow_stops_at_last_hop_or_without_references Example.engine Example.live ["x"]
    none [[Example.ruleDecline], [Example.ruleNext]] ⟨[]⟩ (by decide)).2 0
    ⟨[], NewList, ["x"], ⟨[]⟩, []⟩ [Example.ruleDecline] rfl rfl (by decide)
  exact ⟨by decide, h.1, h.2.1⟩

/-! ## Cancellation -/

theorem FollowSpec_ctx_congr (e : Engine Obj Con E) (ctx ctx' : Nat → Option E) (c : Option Con)
    (path : MultiPath Obj Con E) (i : Nat) (starters : List Obj) (results : Results Obj)
    (h : ∀ j, i ≤ j → j + 1 < i + path.length → ctx' j = ctx j) :
    FollowSpec e ctx' c i starters path results = FollowSpec e ctx c i starters path results := by
  induction path generalizing i starters results with
  | nil => simp [FollowSpec]
  | cons links rest ih =>
    unfold FollowSpec
    simp only
    split
    · rfl
    next hb =>
      have hrest : rest ≠ [] := by
        intro hr
        simp [hr] at hb
      have hlen : 0 < rest.length := List.length_pos.mpr hrest
      have hi : ctx' i = ctx i := h i (Nat.le_refl i) (by simp only [List.length_cons]; omega)
      rw [hi, ih (i + 1) _ _ (fun j hj1 hj2 => h j (by omega)
        (by simp only [List.length_cons]; omega))]

/-- C9, as the code has it: `Follow` does not read the context, it hands it to the
store calls of the hops that are not the last. On a valid path, let the loop reach
hop `k + 1`. The error `Follow` returns starts with the errors accumulated up to
there, and the references and objects recorded up to there stay in the results.
The outcome of `Follow` does not change with what the context says after the last
hop but one has completed. And when hop `k + 1` is not the last hop, produces a
reference, and the store of its goal answers a cancelled context with the
context's error, the error `Follow` returns contains that error. -/
theorem Follow_cancelled_between_hops (e : Engine Obj Con E) (ctx : Nat → Option E)
    (starters : List Obj) (c : Option Con) (path : MultiPath Obj Con E) (results : Results Obj)
    (hv : MultiPath.Valid path = true) (k : Nat) (st : FollowState Obj Con E)
    (hk : e.FollowAt ctx starters c path results (k + 1) = some st) :
    (∃ tail, (e.Follow ctx starters c path results).err = st.merr ++ tail) ∧
    (∀ cls, st.results.refsOf cls <+: (e.Follow ctx starters c path results).results.refsOf cls ∧
      st.results.objsOf cls <+: (e.Follow ctx starters c path results).results.objsOf cls) ∧
    (∀ ctx' : Nat → Option E, (∀ j, j + 1 < path.length → ctx' j = ctx j) →
      e.Follow ctx' starters c path results = e.Follow ctx starters c path results) ∧
    (∀ (links next : Links Obj Con E) (store : Store Obj E) (ce : E),
      path[k + 1]? = some links → path[k + 2]? = some next →
      produced links st.starters c ≠ [] →
      e.stores (Links.Goal links).Domain = some store →
      ctx (k + 1) = some ce →
      (∀ ref, Err.foreign ce ∈ (store.Get (some ce) ref).2) →
        Err.foreign ce ∈ (e.Follow ctx starters c path results).err) := by
  have hlt := FollowAt_lt e ctx starters c path results hv (k + 1) st hk
  obtain ⟨h1, h2, -⟩ := Follow_from_hop e ctx starters c path results hv (k + 1) st hk
    (Nat.le_of_lt hlt)
  refine ⟨⟨_, h2⟩, ?_, ?_, ?_⟩
  · intro cls
    rw [h1]
    exact ⟨FollowSpec_refsOf_extends e ctx c _ _ _ _ cls,
      FollowSpec_objsOf_extends e ctx c _ _ _ _ cls⟩
  · intro ctx' hctx
    rw [Follow_valid e ctx' starters c path results hv,
      Follow_valid e ctx starters c path results hv]
    exact FollowSpec_ctx_congr e ctx ctx' c path 0 starters results
      (fun j _ hj => hctx j (by omega))
  · intro links next store ce hlinks hnext hprod hstore hctx hhonour
    obtain ⟨hl1, hg1⟩ := List.getElem?_eq_some.mp hlinks
    obtain ⟨hl2, hg2⟩ := List.getElem?_eq_some.mp hnext
    have hdrop : path.drop (k + 1) = links :: next :: path.drop (k + 2 + 1) := by
      rw [List.drop_eq_getElem_cons hl1, hg1, List.drop_eq_getElem_cons hl2, hg2]
    have hfo : firstOccurrences (produced links st.starters c) ≠ [] := by
      intro hfo
      obtain ⟨r, hr⟩ := List.exists_mem_of_ne_nil _ hprod
      have := (mem_firstOccurrences _ r).mpr hr
      rw [hfo] at this
      cases this
    obtain ⟨r, hr⟩ := List.exists_mem_of_ne_nil _ hfo
    rw [h2, hdrop]
    apply List.mem_append_right
    unfold FollowSpec
    have hb : ¬ ((next :: path.drop (k + 2 + 1)).isEmpty
        || (firstOccurrences (produced links st.starters c)).isEmpty) = true := by
      simp [List.isEmpty_iff, hfo]
    simp only [hb, if_false]
    apply List.mem_append_left
    apply List.mem_append_right
    rw [GetAll_eq, hstore, hctx]
    simp only
    rw [List.mem_flatMap]
    exact ⟨r, hr, hhonour r⟩

/-- C9 fails as stated: on a valid path of two hops, with a store that answers a
cancelled context with the context's error and a context cancelled after hop 0
has completed and before hop 1 starts, `Follow` returns a nil error, the same
outcome as for a context that is never cancelled. -/
theorem Follow_misses_cancellation_before_last_hop :
    MultiPath.Valid [[Example.ruleOk], [Example.ruleNext]] = true ∧
    Example.cancelledAfterFirstHop 0 = none ∧
    Example.cancelledAfterFirstHop 1 = some "context canceled" ∧
    (∀ ref, Example.store.Get (some "context canceled") ref
      = ([], [Err.foreign "context canceled"])) ∧
    (Example.engine.FollowAt Example.cancelledAfterFirstHop ["x"] none
        [[Example.ruleOk], [Example.ruleNext]] ⟨[]⟩ 1).isSome = true ∧
    Err.foreign "context canceled" ∉ (Example.engine.Follow Example.cancelledAfterFirstHop
        ["x"] none [[Example.ruleOk], [Example.ruleNext]] ⟨[]⟩).err ∧
    (Example.engine.Follow Example.cancelledAfterFirstHop
        ["x"] none [[Example.ruleOk], [Example.ruleNext]] ⟨[]⟩).err = [] := by
  refine ⟨by decide, rfl, rfl, fun ref => rfl, by decide, by decide, by decide⟩

/-- A path of three hops and a context cancelled after hop 0: the store calls of
hop 1 return the context's error, and `Follow` returns it. -/
theorem Follow_cancelled_between_hops_witness :
    MultiPath.Valid [[Example.ruleOk], [Example.ruleNext], [Example.ruleLast]] = true ∧
    Example.cancelledAfterFirstHop 1 = some "context canceled" ∧
    Err.foreign "context canceled" ∈ (Example.engine.Follow Example.cancelledAfterFirstHop
        ["x"] none [[Example.ruleOk], [Example.ruleNext], [Example.ruleLast]] ⟨[]⟩).err := by
  refine ⟨by decide, rfl, ?_⟩
  cases hst : Example.engine.FollowAt Example.cancelledAfterFirstHop ["x"] none
      [[Example.ruleOk], [Example.ruleNext], [Example.ruleLast]] ⟨[]⟩ (0 + 1) with
  | none =>
    have : (Example.engine.FollowAt Example.cancelledAfterFirstHop ["x"] none
      [[Example.ruleOk], [Example.ruleNext], [Example.ruleLast]] ⟨[]⟩ (0 + 1)).isSome = true := by
      decide
    rw [hst] at this
    cases this
  | some st =>
    have hstart : st.starters = ["x", "x2"] := by
      have : (Example.engine.FollowAt Example.cancelledAfterFirstHop ["x"] none
        [[Example.ruleOk], [Example.ruleNext], [Example.ruleLast]] ⟨[]⟩ (0 + 1)).map
          (fun s => s.starters) = some ["x", "x2"] := by decide
      rw [hst] at this
      simpa using this
    have h := (Follow_cancelled_between_hops Example.engine Example.cancelledAfterFirstHop
      ["x"] none [[Example.ruleOk], [Example.ruleNext], [Example.ruleLast]] ⟨[]⟩ (by decide)
      0 st hst).2.2.2 [Example.ruleNext] [Example.ruleLast] Example.store "context canceled"
      rfl rfl (by rw [hstart]; decide) rfl rfl (fun ref => by simp [Example.store])
    exact h

/-! ## Lemmas on the rule graph data -/

namespace Graph

theorem getElem?_append_of_some {α : Type} (l l' : List α) (j : Nat) (x : α)
    (h : l[j]? = some x) : (l ++ l')[j]? = some x := by
  obtain ⟨hj, hx⟩ := List.getElem?_eq_some.mp h
  rw [List.getElem?_append_left hj, h]

theorem getElem?_append_singleton {α : Type} (l : List α) (a : α) (j : Nat) (x : α)
    (h : (l ++ [a])[j]? = some x) : l[j]? = some x ∨ (j = l.length ∧ x = a) := by
  by_cases hj : j < l.length
  · rw [List.getElem?_append_left hj] at h
    exact Or.inl h
  · rw [List.getElem?_append_right (Nat.le_of_not_lt hj)] at h
    right
    obtain ⟨hlt, hx⟩ := List.getElem?_eq_some.mp h
    simp only [List.length_singleton, Nat.lt_one_iff] at hlt
    have hjl : j = l.length := by omega
    subst hjl
    simp at hx
    exact ⟨rfl, hx.symm⟩

theorem mem_Classes_iff (d : Data Obj Con E) (hw : WellFormed d) (c : Class) :
    c ∈ d.Classes ↔ ∃ j, d.nodeID c = some j := by
  unfold Data.Classes
  rw [List.mem_map]
  constructor
  · rintro ⟨n, hn, rfl⟩
    obtain ⟨j, hj⟩ := List.mem_iff_getElem?.mp hn
    exact ⟨j, (hw.node_id j n hj).2⟩
  · rintro ⟨j, hj⟩
    obtain ⟨n, hn, hc⟩ := hw.lookup c j hj
    exact ⟨n, List.mem_iff_getElem?.mpr ⟨j, hn⟩, hc⟩

theorem NodeFor_found (d : Data Obj Con E) (c : Class) (j : Nat) (n : Node)
    (hj : d.nodeID c = some j) (hn : d.Nodes[j]? = some n) : d.NodeFor c = some (d, n) := by
  unfold Data.NodeFor
  simp [hj, hn]

theorem NodeFor_missing (d : Data Obj Con E) (c : Class) (hj : d.nodeID c = none) :
    d.NodeFor c = some (⟨d.Nodes ++ [⟨d.Nodes.length, c⟩], d.Lines,
      fun c' => if c' = c then some d.Nodes.length else d.nodeID c'⟩, ⟨d.Nodes.length, c⟩) := by
  unfold Data.NodeFor
  simp [hj]

theorem WellFormed_append (d : Data Obj Con E) (hw : WellFormed d) (c : Class)
    (hc : d.nodeID c = none) :
    WellFormed (⟨d.Nodes ++ [⟨d.Nodes.length, c⟩], d.Lines,
      fun c' => if c' = c then some d.Nodes.length else d.nodeID c'⟩ : Data Obj Con E) := by
  constructor
  · intro j n hn
    simp only at hn
    rcases getElem?_append_singleton _ _ j n hn with h | ⟨hj, hx⟩
    · obtain ⟨h1, h2⟩ := hw.node_id j n h
      refine ⟨h1, ?_⟩
      have hne : n.Class ≠ c := by
        intro he
        rw [he, hc] at h2
        cases h2
      simp [hne, h2]
    · subst hj hx
      simp
  · intro c' j hj
    simp only at hj
    by_cases he : c' = c
    · subst he
      simp only [if_true, Option.some.injEq] at hj
      subst hj
      exact ⟨⟨d.Nodes.length, c'⟩, by simp, rfl⟩
    · simp only [he, if_false] at hj
      obtain ⟨n, hn, hcn⟩ := hw.lookup c' j hj
      exact ⟨n, getElem?_append_of_some _ _ j n hn, hcn⟩
  · intro i l hl
    obtain ⟨h1, h2, h3, h4, h5⟩ := hw.line i l hl
    exact ⟨h1, getElem?_append_of_some _ _ _ _ h2, h3, getElem?_append_of_some _ _ _ _ h4, h5⟩

theorem NodeFor_wf (d : Data Obj Con E) (hw : WellFormed d) (c : Class) :
    ∃ d1 n, d.NodeFor c = some (d1, n) ∧ WellFormed d1 ∧ n.Class = c ∧
      d1.Nodes[n.ID]? = some n ∧ d1.nodeID c = some n.ID ∧ d1.Lines = d.Lines ∧
      (d1 = d ∨ (c ∉ d.Classes ∧ d1.Nodes = d.Nodes ++ [n])) ∧
      (∀ (j : Nat) (m : Node), d.Nodes[j]? = some m → d1.Nodes[j]? = some m) ∧
      d1.Classes = ((⟨d.Classes⟩ : UniqueList Class).Append [c]).list := by
  cases hc : d.nodeID c with
  | some j =>
    obtain ⟨n, hn, hcn⟩ := hw.lookup c j hc
    have hmem : c ∈ d.Classes := (mem_Classes_iff d hw c).mpr ⟨j, hc⟩
    refine ⟨d, n, NodeFor_found d c j n hc hn, hw, hcn, ?_, ?_, rfl, Or.inl rfl,
      fun _ _ h => h, ?_⟩
    · rw [(hw.node_id j n hn).1]
      exact hn
    · rw [(hw.node_id j n hn).1]
      exact hc
    · rw [UniqueList.Append_cons, UniqueList.Append_nil]
      simp [hmem]
  | none =>
    have hmem : c ∉ d.Classes := by
      rw [mem_Classes_iff d hw c]
      rintro ⟨j, hj⟩
      rw [hc] at hj
      cases hj
    refine ⟨_, _, NodeFor_missing d c hc, WellFormed_append d hw c hc, rfl, by simp, by simp,
      rfl, Or.inr ⟨hmem, rfl⟩, fun j m h => getElem?_append_of_some _ _ j m h, ?_⟩
    rw [UniqueList.Append_cons, UniqueList.Append_nil]
    simp only [hmem, if_false]
    simp [Data.Classes]

end Graph

namespace Graph

theorem AddRule_wf (d : Data Obj Con E) (hw : WellFormed d) (r : Rule Obj Con E) :
    ∃ d1 f t, d.AddRule r = some d1 ∧ WellFormed d1 ∧
      d1.Lines = d.Lines ++ [⟨f, t, d.Lines.length, r⟩] ∧
      (∀ (j : Nat) (m : Node), d.Nodes[j]? = some m → d1.Nodes[j]? = some m) ∧
      d1.Classes = ((⟨d.Classes⟩ : UniqueList Class).Append [r.Start, r.Goal]).list := by
  obtain ⟨d1, f, h1, hw1, hf, hfn, -, hl1, -, hp1, hc1⟩ := NodeFor_wf d hw r.Start
  obtain ⟨d2, t, h2, hw2, ht, htn, -, hl2, -, hp2, hc2⟩ := NodeFor_wf d1 hw1 r.Goal
  refine ⟨{ d2 with Lines := d2.Lines ++ [⟨f, t, d.Lines.length, r⟩] }, f, t, ?_, ?_, ?_, ?_, ?_⟩
  · unfold Data.AddRule
    simp [h1, h2]
  · constructor
    · exact hw2.node_id
    · exact hw2.lookup
    · intro i l hl
      simp only at hl
      rcases getElem?_append_singleton _ _ i l hl with h | ⟨hi, hx⟩
      · exact hw2.line i l h
      · subst hx
        simp only
        rw [hl2, hl1] at hi
        exact ⟨hi.symm, hp2 _ _ hfn, hf, htn, ht⟩
  · simp [hl2, hl1]
  · intro j m hm
    exact hp2 j m (hp1 j m hm)
  · show d2.Classes = _
    rw [hc2, hc1]
    rw [show [r.Start, r.Goal] = [r.Start] ++ [r.Goal] from rfl, UniqueList.Append_append]

theorem AddRules_wf (d : Data Obj Con E) (hw : WellFormed d) (rules : List (Rule Obj Con E)) :
    ∃ d1, d.AddRules rules = some d1 ∧ WellFormed d1 ∧
      d1.Lines.length = d.Lines.length + rules.length ∧
      d1.Rules = d.Rules ++ rules ∧
      (∀ (i : Nat) (l : Line Obj Con E), d.Lines[i]? = some l → d1.Lines[i]? = some l) ∧
      (∀ (j : Nat) (m : Node), d.Nodes[j]? = some m → d1.Nodes[j]? = some m) ∧
      d1.Classes = ((⟨d.Classes⟩ : UniqueList Class).Append
        (rules.flatMap (fun r => [r.Start, r.Goal]))).list := by
  induction rules generalizing d with
  | nil =>
    exact ⟨d, rfl, hw, by simp, by simp, fun _ _ h => h, fun _ _ h => h,
      by simp [UniqueList.Append_nil]⟩
  | cons r rest ih =>
    obtain ⟨d1, f, t, h1, hw1, hl1, hp1, hc1⟩ := AddRule_wf d hw r
    obtain ⟨d2, h2, hw2, hlen2, hr2, hpl2, hp2, hc2⟩ := ih d1 hw1
    refine ⟨d2, ?_, hw2, ?_, ?_, ?_, ?_, ?_⟩
    · rw [Data.AddRules, h1]
      exact h2
    · have hlen1 := congrArg List.length hl1
      simp only [List.length_append, List.length_singleton] at hlen1
      simp only [List.length_cons]
      omega
    · rw [hr2]
      unfold Data.Rules
      rw [hl1]
      simp
    · intro i l hl
      apply hpl2
      rw [hl1]
      exact getElem?_append_of_some _ _ i l hl
    · intro j m hm
      exact hp2 j m (hp1 j m hm)
    · rw [hc2, hc1, List.flatMap_cons, UniqueList.Append_append]

theorem WellFormed_empty : WellFormed (⟨[], [], fun _ => none⟩ : Data Obj Con E) := by
  constructor
  · intro j n h
    simp at h
  · intro c j h
    simp at h
  · intro i l h
    simp at h

theorem wellFormed_of_reachable (d : Data Obj Con E) (h : Reachable d) : WellFormed d := by
  induction h with
  | new rules d hnew =>
    obtain ⟨d1, h1, hw1, -⟩ := AddRules_wf _ (@WellFormed_empty Obj Con E)
      rules
    unfold NewData at hnew
    rw [h1] at hnew
    cases hnew
    exact hw1
  | addRule d d1 r _ hadd ih =>
    obtain ⟨d2, f, t, h2, hw2, -⟩ := AddRule_wf d ih r
    rw [h2] at hadd
    cases hadd
    exact hw2
  | nodeFor d d1 c n _ hnode ih =>
    obtain ⟨d2, m, h2, hw2, -⟩ := NodeFor_wf d ih c
    rw [h2] at hnode
    cases hnode
    exact hw2

end Graph

namespace Graph

theorem nodup_Classes (d : Data Obj Con E) (hw : WellFormed d) : d.Classes.Nodup := by
  rw [List.nodup_iff_getElem?_ne_getElem?]
  intro i j hij hj heq
  unfold Data.Classes at hj heq
  rw [List.length_map] at hj
  rw [List.getElem?_map, List.getElem?_map] at heq
  have hi : i < d.Nodes.length := by omega
  rw [List.getElem?_eq_getElem hi, List.getElem?_eq_getElem hj] at heq
  simp only [Option.map_some', Option.some.injEq] at heq
  have h1 := (hw.node_id i _ (List.getElem?_eq_getElem hi)).2
  have h2 := (hw.node_id j _ (List.getElem?_eq_getElem hj)).2
  rw [heq, h2] at h1
  simp only [Option.some.injEq] at h1
  omega

theorem NewData_example : NewData [Example.ruleOk, Example.ruleNext] = some Example.data := by
  unfold NewData Example.data
  simp only [Data.AddRules, Data.AddRule, Data.NodeFor]
  simp only [Example.ruleOk, Example.ruleNext, Example.classA, Example.classB, Example.classC]
  simp

/-- C11: the lines mirror the rules in insertion order, with dense ids. For every
list of rules, `NewData` of it followed by `AddRule` for every rule of a second
list returns a data (no index is out of range) that has one line per rule: the
line at index `i` has the id `i` and holds the `i`-th rule added, and `Rules()`
returns the rules in the order they were added. -/
theorem NewData_lines_mirror_rules (rules more : List (Rule Obj Con E)) :
    ∃ d d1, NewData rules = some d ∧ d.AddRules more = some d1 ∧
      d.Lines.length = rules.length ∧ d.Rules = rules ∧
      (∀ (i : Nat) (l : Line Obj Con E), d.Lines[i]? = some l →
        l.UID = i ∧ rules[i]? = some l.Rule) ∧
      d1.Lines.length = rules.length + more.length ∧ d1.Rules = rules ++ more ∧
      (∀ (i : Nat) (l : Line Obj Con E), d1.Lines[i]? = some l →
        l.UID = i ∧ (rules ++ more)[i]? = some l.Rule) := by
  obtain ⟨d, h1, hw, hlen, hr, -, -, -⟩ :=
    AddRules_wf _ (@WellFormed_empty Obj Con E) rules
  obtain ⟨d1, h2, hw1, hlen1, hr1, -, -, -⟩ := AddRules_wf d hw more
  have hr' : d.Rules = rules := by
    rw [hr]
    rfl
  have key : ∀ (x : Data Obj Con E) (rs : List (Rule Obj Con E)), WellFormed x →
      x.Rules = rs → ∀ (i : Nat) (l : Line Obj Con E), x.Lines[i]? = some l →
        l.UID = i ∧ rs[i]? = some l.Rule := by
    intro x rs hx hrs i l hl
    refine ⟨(hx.line i l hl).1, ?_⟩
    rw [← hrs]
    unfold Data.Rules
    rw [List.getElem?_map, hl]
    rfl
  refine ⟨d, d1, h1, h2, ?_, hr', key d rules hw hr', ?_, ?_, key d1 _ hw1 ?_⟩
  · simpa using hlen
  · rw [hlen1]
    simp only [List.length_nil, Nat.zero_add] at hlen
    rw [hlen]
  · rw [hr1, hr']
  · rw [hr1, hr']

/-- C12: `NodeFor` is an idempotent get-or-create. For every data, when the first
call `NodeFor(c)` returns, a second call returns the same node and leaves the data
(nodes, lines, lookup) as the first call left them; the first call leaves the
lines alone, keeps every node at its index and appends no node or the one it
returns. On every data a program can reach the first call returns, and the node
it returns has the class `c` and sits in the pool at its id. -/
theorem NodeFor_idempotent (d : Data Obj Con E) (c : Class) :
    (∀ (d1 : Data Obj Con E) (n1 : Node), d.NodeFor c = some (d1, n1) →
      d1.NodeFor c = some (d1, n1) ∧ d1.Lines = d.Lines ∧
      (d1.Nodes = d.Nodes ∨ d1.Nodes = d.Nodes ++ [n1]) ∧
      (∀ (j : Nat) (m : Node), d.Nodes[j]? = some m → d1.Nodes[j]? = some m)) ∧
    (Reachable d → ∃ d1 n1, d.NodeFor c = some (d1, n1) ∧ n1.Class = c ∧
      d1.Nodes[n1.ID]? = some n1 ∧ d1.nodeID c = some n1.ID) := by
  constructor
  · intro d1 n1 h
    cases hc : d.nodeID c with
    | some id =>
      cases hn : d.Nodes[id]? with
      | none => simp [Data.NodeFor, hc, hn] at h
      | some n =>
        rw [NodeFor_found d c id n hc hn] at h
        simp only [Option.some.injEq, Prod.mk.injEq] at h
        obtain ⟨rfl, rfl⟩ := h
        exact ⟨NodeFor_found d c id n hc hn, rfl, Or.inl rfl, fun _ _ hm => hm⟩
    | none =>
      rw [NodeFor_missing d c hc] at h
      simp only [Option.some.injEq, Prod.mk.injEq] at h
      obtain ⟨rfl, rfl⟩ := h
      refine ⟨?_, rfl, Or.inr rfl, fun j m hm => getElem?_append_of_some _ _ j m hm⟩
      apply NodeFor_found _ c d.Nodes.length
      · simp
      · simp
  · intro hr
    obtain ⟨d1, n1, h1, -, hcl, hn, hid, -⟩ := NodeFor_wf d (wellFormed_of_reachable d hr) c
    exact ⟨d1, n1, h1, hcl, hn, hid⟩

/-- On the data of two rules, which a program can reach, asking for a class that
has no node appends node 3 for it; asking again returns node 3 and changes
nothing. -/
theorem NodeFor_idempotent_witness :
    Reachable Example.data ∧
    ∃ d1, Example.data.NodeFor ⟨"d", "z"⟩ = some (d1, ⟨3, ⟨"d", "z"⟩⟩) ∧
      d1.NodeFor ⟨"d", "z"⟩ = some (d1, ⟨3, ⟨"d", "z"⟩⟩) ∧
      d1.Nodes = Example.data.Nodes ++ [⟨3, ⟨"d", "z"⟩⟩] := by
  have hr : Reachable Example.data := Reachable.new _ _ NewData_example
  have h0 := NodeFor_missing Example.data ⟨"d", "z"⟩ (by decide)
  have h1 := (NodeFor_idempotent Example.data ⟨"d", "z"⟩).1 _ _ h0
  exact ⟨hr, _, h0, h1.1, rfl⟩

end Graph

namespace Graph

/-- C13: well-formedness is an invariant of `NewData`, `AddRule` and `NodeFor`. In
every data a program can reach: the node at index `j` has the id `j` and the
lookup maps its class to `j`; the classes of the nodes are pairwise distinct; the
lookup maps a class to the index of a node of that class only; the ends of every
line are the nodes the pool holds at their ids, of the classes `Start()` and
`Goal()` of the line's rule; and `AddRule` and `NodeFor` return, `NodeFor` with a
node of the class asked for. The nodes `NewData` makes are one per distinct class
among the starts and goals of its rules, in order of first use. -/
theorem reachable_Data_wellFormed (d : Data Obj Con E) (h : Reachable d) :
    (∀ (j : Nat) (n : Node), d.Nodes[j]? = some n → n.ID = j ∧ d.nodeID n.Class = some j) ∧
    d.Classes.Nodup ∧
    (∀ (c : Class) (j : Nat), d.nodeID c = some j →
      ∃ n, d.Nodes[j]? = some n ∧ n.Class = c) ∧
    (∀ (i : Nat) (l : Line Obj Con E), d.Lines[i]? = some l →
      d.Nodes[l.F.ID]? = some l.F ∧ l.F.Class = l.Rule.Start ∧
      d.Nodes[l.T.ID]? = some l.T ∧ l.T.Class = l.Rule.Goal) ∧
    (∀ r : Rule Obj Con E, ∃ d1, d.AddRule r = some d1) ∧
    (∀ c : Class, ∃ d1 n, d.NodeFor c = some (d1, n) ∧ n.Class = c ∧ c ∈ d1.Classes) ∧
    (∀ rules : List (Rule Obj Con E), ∃ d0, NewData rules = some d0 ∧
      d0.Classes = firstOccurrences (rules.flatMap (fun r => [r.Start, r.Goal]))) := by
  have hw := wellFormed_of_reachable d h
  refine ⟨hw.node_id, nodup_Classes d hw, hw.lookup, ?_, ?_, ?_, ?_⟩
  · intro i l hl
    exact (hw.line i l hl).2
  · intro r
    obtain ⟨d1, -, -, h1, -⟩ := AddRule_wf d hw r
    exact ⟨d1, h1⟩
  · intro c
    obtain ⟨d1, n, h1, hw1, hcl, hn, -⟩ := NodeFor_wf d hw c
    refine ⟨d1, n, h1, hcl, ?_⟩
    unfold Data.Classes
    rw [List.mem_map]
    exact ⟨n, List.mem_iff_getElem?.mpr ⟨_, hn⟩, hcl⟩
  · intro rules
    obtain ⟨d0, h0, -, -, -, -, -, hc⟩ :=
      AddRules_wf _ (@WellFormed_empty Obj Con E) rules
    refine ⟨d0, h0, ?_⟩
    rw [hc]
    exact NewList_Append _

/-- The data of the two example rules can be reached, and it has the three nodes of
the classes `a`, `b` and `c`, in that order. -/
theorem reachable_Data_wellFormed_witness :
    Reachable Example.data ∧
    Example.data.Classes = [Example.classA, Example.classB, Example.classC] ∧
    Example.data.Classes.Nodup := by
  have hr : Reachable Example.data := Reachable.new _ _ NewData_example
  exact ⟨hr, rfl, (reachable_Data_wellFormed Example.data hr).2.1⟩

end Graph

/-! ## Lemmas on the alert store -/

namespace Alert

theorem firstPass_alerts (fingerprint : LabelMap → String) (q : Query) (i : Nat)
    (prom : List PromAlert) (alerts : List Object) (fingerprints : String → Option Nat) :
    (firstPass fingerprint q i prom alerts fingerprints).1
      = alerts ++ (prom.filter (fun a => q.matches a)).map promObject := by
  induction prom generalizing i alerts fingerprints with
  | nil => simp [firstPass]
  | cons a rest ih =>
    unfold firstPass
    by_cases hm : q.matches a = true
    · simp [hm, ih]
    · simp [hm, ih]

theorem mergeStep_found (fingerprints : String → Option Nat) (alerts : List Object)
    (a : GettableAlert) (i : Nat) (hf : fingerprints a.Fingerprint = some i) :
    mergeStep fingerprints alerts a
      = match alerts[i]? with
        | none => none
        | some o => some (alerts.set i (mergeInto o a)) := by
  unfold mergeStep
  rw [hf]

theorem mergeStep_new (fingerprints : String → Option Nat) (alerts : List Object)
    (a : GettableAlert) (hf : fingerprints a.Fingerprint = none) :
    mergeStep fingerprints alerts a
      = some (alerts ++ [mergeInto { Labels := a.Labels, Annotations := a.Annotations } a]) := by
  unfold mergeStep
  rw [hf]
  simp

theorem mergeAll_cons (fingerprints : String → Option Nat) (alerts : List Object)
    (a : GettableAlert) (rest : List GettableAlert) :
    mergeAll fingerprints alerts (a :: rest)
      = (mergeStep fingerprints alerts a).bind (fun x => mergeAll fingerprints x rest) := by
  rw [mergeAll]
  cases mergeStep fingerprints alerts a <;> rfl

theorem mergeAll_getElem? (fingerprints : String → Option Nat) (payload : List GettableAlert)
    (alerts objs : List Object) (h : mergeAll fingerprints alerts payload = some objs)
    (j : Nat) :
    objs[j]? =
      match hitsOf fingerprints j alerts.length payload with
      | [] => alerts[j]?
      | a :: rest =>
        some (rest.foldl mergeInto
          (mergeInto (alerts[j]?.getD { Labels := a.Labels, Annotations := a.Annotations }) a)) := by
  induction payload generalizing alerts with
  | nil =>
    simp only [mergeAll, Option.some.injEq] at h
    subst h
    simp [hitsOf]
  | cons a rest ih =>
    rw [mergeAll_cons] at h
    cases hstep : mergeStep fingerprints alerts a with
    | none => simp [hstep] at h
    | some alerts1 =>
      rw [hstep] at h
      simp only [Option.some_bind] at h
      have ih1 := ih alerts1 h
      cases hf : fingerprints a.Fingerprint with
      | some i =>
        rw [mergeStep_found fingerprints alerts a i hf] at hstep
        cases ho : alerts[i]? with
        | none => simp [ho] at hstep
        | some o =>
          rw [ho] at hstep
          simp only [Option.some.injEq] at hstep
          subst hstep
          have hi : i < alerts.length := (List.getElem?_eq_some.mp ho).1
          rw [List.length_set] at ih1
          rw [ih1]
          simp only [hitsOf, hf]
          by_cases hij : i = j
          · subst hij
            simp only [if_true, List.singleton_append, ho, Option.getD_some]
            rw [List.getElem?_set_self hi]
            cases hitsOf fingerprints i alerts.length rest with
            | nil => simp
            | cons b bs => simp
          · simp only [hij, if_false, List.nil_append]
            rw [List.getElem?_set_ne hij]
      | none =>
        rw [mergeStep_new fingerprints alerts a hf] at hstep
        simp only [Option.some.injEq] at hstep
        subst hstep
        simp only [List.length_append, List.length_singleton] at ih1
        rw [ih1]
        simp only [hitsOf, hf]
        by_cases hnj : alerts.length = j
        · subst hnj
          simp only [if_true, List.singleton_append]
          have hnone : alerts[alerts.length]? = none := by simp
          rw [hnone]
          simp only [Option.getD_none]
          have hlast : (alerts ++ [mergeInto { Labels := a.Labels, Annotations := a.Annotations }
              a])[alerts.length]? = some (mergeInto
                { Labels := a.Labels, Annotations := a.Annotations } a) := by
            simp
          rw [hlast]
          cases hitsOf fingerprints alerts.length (alerts.length + 1) rest with
          | nil => simp
          | cons b bs => simp
        · simp only [hnj, if_false, List.nil_append]
          have hget : (alerts ++ [mergeInto { Labels := a.Labels, Annotations := a.Annotations }
              a])[j]? = alerts[j]? := by
            by_cases hlt : j < alerts.length
            · rw [List.getElem?_append_left hlt]
            · have hgt : alerts.length < j := by omega
              rw [List.getElem?_eq_none (by simp; omega), List.getElem?_eq_none (by omega)]
          rw [hget]

end Alert

namespace Alert

theorem mergeInto_Status (o : Object) (a : GettableAlert) :
    (mergeInto o a).Status
      = if a.Status.State = "suppressed" then "suppressed"
        else if o.Status ≠ "" then o.Status else "firing" := by
  unfold mergeInto
  by_cases ho : o.Status = ""
  · by_cases ha : a.Status.State = "suppressed"
    · simp [ho, ha]
    · simp [ho, ha]
  · by_cases ha : a.Status.State = "suppressed"
    · simp [ho, ha]
    · simp [ho, ha]

theorem Get_ok (s : Store E) (fingerprint : LabelMap → String) (q : Query)
    (objs : List Object) (h : s.Get fingerprint q = .ok objs) :
    ∃ prom payload, s.Alerts = .ok prom ∧ s.GetAlerts (filters q) = .ok payload ∧
      mergeAll (firstPass fingerprint q 0 prom [] (fun _ => none)).2
        ((prom.filter (fun a => q.matches a)).map promObject) payload = some objs := by
  unfold Store.Get at h
  cases hp : s.Alerts with
  | error err => simp [hp] at h
  | ok prom =>
    rw [hp] at h
    simp only at h
    cases ha : s.GetAlerts (filters q) with
    | error err => simp [ha] at h
    | ok payload =>
      rw [ha] at h
      simp only at h
      have hfirst := firstPass_alerts fingerprint q 0 prom [] (fun _ => none)
      simp only [List.nil_append] at hfirst
      cases hm : mergeAll (firstPass fingerprint q 0 prom [] (fun _ => none)).2
          (firstPass fingerprint q 0 prom [] (fun _ => none)).1 payload with
      | none => simp [hm] at h
      | some out =>
        rw [hm] at h
        simp only [GetResult.ok.injEq] at h
        subst h
        refine ⟨prom, payload, rfl, rfl, ?_⟩
        rw [← hfirst]
        exact hm

/-- The status rule of the second loop, for the object the loop itself picks. When
`Get` returns objects, take the object at an index `j`. If the second loop merged
exactly one Alertmanager alert into it, its Status is `suppressed` when the state
of that alert is `suppressed`; otherwise it is the state of the Prometheus alert
the object was built from, when there is one and its state is not empty; otherwise
it is `firing`. If the second loop merged no Alertmanager alert into it, its Status
is the state of the Prometheus alert it was built from. The alert the loop merges
into an object is found by the index in the fingerprint table and need not have the
labels of the object. -/
theorem Get_status_precedence (s : Store E) (fingerprint : LabelMap → String) (q : Query)
    (objs : List Object) (h : s.Get fingerprint q = .ok objs) :
    ∃ prom payload, s.Alerts = .ok prom ∧ s.GetAlerts (filters q) = .ok payload ∧
      ∀ (j : Nat) (o : Object), objs[j]? = some o →
        (∀ a, hitsOf (firstPass fingerprint q 0 prom [] (fun _ => none)).2 j
              (prom.filter (fun a => q.matches a)).length payload = [a] →
          o.Status
            = if a.Status.State = "suppressed" then "suppressed"
              else if (((prom.filter (fun a => q.matches a))[j]?).map
                    (fun p => p.State)).getD "" ≠ "" then
                (((prom.filter (fun a => q.matches a))[j]?).map (fun p => p.State)).getD ""
              else "firing") ∧
        (hitsOf (firstPass fingerprint q 0 prom [] (fun _ => none)).2 j
              (prom.filter (fun a => q.matches a)).length payload = [] →
          ((prom.filter (fun a => q.matches a))[j]?).map (fun p => p.State)
            = some o.Status) := by
  obtain ⟨prom, payload, hp, ha, hm⟩ := Get_ok s fingerprint q objs h
  refine ⟨prom, payload, hp, ha, ?_⟩
  intro j o ho
  have key := mergeAll_getElem? _ payload _ objs hm j
  rw [List.length_map, ho] at key
  constructor
  · intro a hits
    rw [hits] at key
    simp only [List.foldl_nil, Option.some.injEq] at key
    rw [key, mergeInto_Status, List.getElem?_map]
    cases (prom.filter (fun a => q.matches a))[j]? with
    | none => rfl
    | some p => rfl
  · intro hits
    rw [hits] at key
    simp only at key
    rw [List.getElem?_map] at key
    cases hpj : (prom.filter (fun a => q.matches a))[j]? with
    | none => simp [hpj] at key
    | some p =>
      rw [hpj] at key
      simp only [Option.map_some', Option.some.injEq] at key
      rw [key]
      rfl

/-- Two matching Prometheus alerts, the first merged with one Alertmanager alert
that is not suppressed: it keeps its Prometheus state `pending`. -/
theorem Get_status_precedence_witness :
    Example.storeMatching.Get Example.fingerprint Example.query
      = .ok [mergeInto (promObject Example.alertB) Example.managerB,
          promObject Example.alertC] ∧
    (mergeInto (promObject Example.alertB) Example.managerB).Status = "pending" := by
  have h : Example.storeMatching.Get Example.fingerprint Example.query
      = .ok [mergeInto (promObject Example.alertB) Example.managerB,
          promObject Example.alertC] := by decide
  obtain ⟨prom, payload, hp, ha, hs⟩ := Get_status_precedence Example.storeMatching
    Example.fingerprint Example.query _ h
  have hprom : prom = [Example.alertB, Example.alertC] := by
    injection hp with hp
    exact hp.symm
  have hpay : payload = [Example.managerB] := by
    injection ha with ha
    exact ha.symm
  subst hprom hpay
  have h0 := (hs 0 (mergeInto (promObject Example.alertB) Example.managerB) rfl).1
    Example.managerB (by decide)
  refine ⟨h, ?_⟩
  rw [h0]
  decide

/-- C15: the status does not follow the alert it belongs to. With a first Prometheus
alert that does not match the query, followed by `alertB` (pending) and `alertC`
(firing) that do, and one Alertmanager alert with the labels and fingerprint of
`alertB` whose state is `suppressed`: `Get` emits the object with the labels of
`alertB` with Status `pending`, although its Alertmanager counterpart is
suppressed, and the object with the labels of `alertC` with Status `suppressed`
and silenced by `s1`, although no Alertmanager alert has its fingerprint and its
Prometheus state is `firing`. -/
theorem Get_status_of_another_alert :
    Example.query.matches Example.other = false ∧
    Example.query.matches Example.alertB = true ∧
    Example.query.matches Example.alertC = true ∧
    Example.alertB.State = "pending" ∧
    Example.alertC.State = "firing" ∧
    Example.managerSuppressedB.Labels = Example.alertB.Labels ∧
    Example.managerSuppressedB.Fingerprint = Example.fingerprint Example.alertB.Labels ∧
    Example.managerSuppressedB.Fingerprint ≠ Example.fingerprint Example.alertC.Labels ∧
    Example.managerSuppressedB.Status.State = "suppressed" ∧
    (∃ objB objC,
      Example.storeSuppressed.Get Example.fingerprint Example.query = .ok [objB, objC] ∧
      objB.Labels = Example.alertB.Labels ∧
      objB.Status = "pending" ∧
      objB.SilencedBy = [] ∧
      objC.Labels = Example.alertC.Labels ∧
      objC.Status = "suppressed" ∧
      objC.SilencedBy = ["s1"]) := by
  refine ⟨by decide, by decide, by decide, by decide, by decide, by decide, by decide,
    by decide, by decide, ?_⟩
  refine ⟨promObject Example.alertB,
    mergeInto (promObject Example.alertC) Example.managerSuppressedB, by decide, by decide,
    by decide, by decide, by decide, by decide, by decide⟩

end Alert

namespace Alert

theorem mergeInto_Fingerprint (o : Object) (a : GettableAlert) :
    (mergeInto o a).Fingerprint = o.Fingerprint := by
  unfold mergeInto
  simp only
  split
  · split <;> rfl
  · split <;> rfl

theorem foldl_mergeInto_Fingerprint (hits : List GettableAlert) (o : Object) :
    (hits.foldl mergeInto o).Fingerprint = o.Fingerprint := by
  induction hits generalizing o with
  | nil => rfl
  | cons a rest ih => rw [List.foldl_cons, ih, mergeInto_Fingerprint]

/-- C14: the merge goes by the index in the list the Prometheus API returned, not by
the index in the list of matching alerts. With a first Prometheus alert that does
not match the query, followed by two that do, the Alertmanager alert with the
fingerprint of the first matching alert is merged into the object of the second:
`Get` emits the object of the first matching alert without the Alertmanager
fields, and the object of the second with them. -/
theorem Get_merges_into_another_alert :
    Example.query.matches Example.other = false ∧
    Example.query.matches Example.alertB = true ∧
    Example.query.matches Example.alertC = true ∧
    Example.managerB.Fingerprint = Example.fingerprint Example.alertB.Labels ∧
    Example.storeThree.Get Example.fingerprint Example.query
      = .ok [promObject Example.alertB, mergeInto (promObject Example.alertC) Example.managerB] ∧
    (promObject Example.alertB).StartsAt = 0 ∧
    (mergeInto (promObject Example.alertC) Example.managerB).StartsAt
      = Example.managerB.StartsAt := by
  refine ⟨by decide, by decide, by decide, by decide, by decide, by decide, by decide⟩

/-- C16: `Get` never sets the `Fingerprint` field, so `Class.ID` of every object it
emits is the empty string. Two alerts with different labels, and different label
fingerprints, are emitted with the same ID. -/
theorem Get_leaves_ID_empty (s : Store E) (fingerprint : LabelMap → String) (q : Query) :
    (∀ objs, s.Get fingerprint q = .ok objs → ∀ o ∈ objs, ClassID o = "") ∧
    Example.storeMatching.Get Example.fingerprint Example.query
      = .ok [mergeInto (promObject Example.alertB) Example.managerB,
          promObject Example.alertC] ∧
    (mergeInto (promObject Example.alertB) Example.managerB).Labels
      ≠ (promObject Example.alertC).Labels ∧
    Example.fingerprint (mergeInto (promObject Example.alertB) Example.managerB).Labels
      ≠ Example.fingerprint (promObject Example.alertC).Labels ∧
    ClassID (mergeInto (promObject Example.alertB) Example.managerB)
      = ClassID (promObject Example.alertC) := by
  refine ⟨?_, by decide, by decide, by decide, by decide⟩
  intro objs h o ho
  obtain ⟨prom, payload, -, -, hm⟩ := Get_ok s fingerprint q objs h
  obtain ⟨j, hj⟩ := List.mem_iff_getElem?.mp ho
  have key := mergeAll_getElem? _ payload _ objs hm j
  rw [hj] at key
  have hbase : ∀ x, ((prom.filter (fun a => q.matches a)).map promObject)[j]? = some x →
      x.Fingerprint = "" := by
    intro x hx
    rw [List.getElem?_map] at hx
    cases hp : (prom.filter (fun a => q.matches a))[j]? with
    | none => simp [hp] at hx
    | some p =>
      rw [hp] at hx
      simp only [Option.map_some', Option.some.injEq] at hx
      subst hx
      rfl
  unfold ClassID
  cases hh : hitsOf (firstPass fingerprint q 0 prom [] (fun _ => none)).2 j
      ((prom.filter (fun a => q.matches a)).map promObject).length payload with
  | nil =>
    rw [hh] at key
    exact hbase o key.symm
  | cons a rest =>
    rw [hh] at key
    simp only [Option.some.injEq] at key
    rw [key, foldl_mergeInto_Fingerprint, mergeInto_Fingerprint]
    cases hx : ((prom.filter (fun a => q.matches a)).map promObject)[j]? with
    | none => rfl
    | some x => exact hbase x hx

/-- C19: with a first Prometheus alert that does not match the query, followed by one
that does, and the Alertmanager alert of the matching one, the index found in the
fingerprint table is 1 while the list of matching alerts has length 1: `Get`
indexes out of range and panics. -/
theorem Get_indexes_out_of_range :
    Example.query.matches Example.other = false ∧
    Example.query.matches Example.alertB = true ∧
    Example.managerB.Fingerprint = Example.fingerprint Example.alertB.Labels ∧
    (firstPass Example.fingerprint Example.query 0 [Example.other, Example.alertB] []
        (fun _ => none)).1.length = 1 ∧
    (firstPass Example.fingerprint Example.query 0 [Example.other, Example.alertB] []
        (fun _ => none)).2 Example.managerB.Fingerprint = some 1 ∧
    Example.storeTwo.Get Example.fingerprint Example.query = .panic := by
  refine ⟨by decide, by decide, by decide, by decide, by decide, by decide⟩

end Alert

/-! ## Lemmas on paths -/

namespace K8s

theorem splitSlash_ne_nil (l : List Char) : splitSlash l ≠ [] := by
  cases l with
  | nil => simp [splitSlash]
  | cons ch rest =>
    unfold splitSlash
    by_cases h : ch = '/'
    · simp [h]
    · simp only [h, if_false]
      cases splitSlash rest <;> simp

theorem splitSlash_of_not_mem (l : List Char) (h : '/' ∉ l) : splitSlash l = [l] := by
  induction l with
  | nil => rfl
  | cons ch rest ih =>
    simp only [List.mem_cons, not_or] at h
    have hch : ¬ ch = '/' := fun hc => h.1 hc.symm
    unfold splitSlash
    simp [hch, ih h.2]

theorem splitSlash_append (a b : List Char) :
    splitSlash (a ++ '/' :: b) = splitSlash a ++ splitSlash b := by
  induction a with
  | nil => simp [splitSlash]
  | cons ch rest ih =>
    by_cases hch : ch = '/'
    · subst hch
      simp [splitSlash, ih]
    · have h1 : splitSlash (ch :: rest ++ '/' :: b)
          = match splitSlash (rest ++ '/' :: b) with
            | seg :: segs => (ch :: seg) :: segs
            | [] => [[ch]] := by
        rw [List.cons_append, splitSlash]
        simp [hch]
      have h2 : splitSlash (ch :: rest)
          = match splitSlash rest with
            | seg :: segs => (ch :: seg) :: segs
            | [] => [[ch]] := by
        rw [splitSlash]
        simp [hch]
      rw [h1, h2, ih]
      cases hs : splitSlash rest with
      | nil => exact absurd hs (splitSlash_ne_nil rest)
      | cons seg segs => simp

theorem not_mem_of_mem_splitSlash (l seg : List Char) (h : seg ∈ splitSlash l) : '/' ∉ seg := by
  induction l generalizing seg with
  | nil =>
    simp only [splitSlash, List.mem_singleton] at h
    subst h
    simp
  | cons ch rest ih =>
    unfold splitSlash at h
    by_cases hch : ch = '/'
    · simp only [hch, if_true, List.mem_cons] at h
      rcases h with h | h
      · subst h
        simp
      · exact ih seg h
    · simp only [hch, if_false] at h
      cases hs : splitSlash rest with
      | nil => exact absurd hs (splitSlash_ne_nil rest)
      | cons s0 segs =>
        rw [hs] at h ih
        simp only [List.mem_cons] at h
        rcases h with h | h
        · subst h
          simp only [List.mem_cons, not_or]
          exact ⟨fun hc => hch hc.symm, ih s0 (List.mem_cons_self _ _)⟩
        · exact ih seg (List.mem_cons_of_mem _ h)

theorem segments_append (s t : String) :
    segments (s ++ "/" ++ t) = segments s ++ segments t := by
  unfold segments
  have h : (s ++ "/" ++ t).data = s.data ++ '/' :: t.data := by
    simp [String.data_append]
  rw [h, splitSlash_append, List.map_append]

theorem segments_of_slashFree (s : String) (h : '/' ∉ s.data) : segments s = [s] := by
  unfold segments
  rw [splitSlash_of_not_mem _ h]
  rfl

theorem slashFree_of_mem_segments (path s : String) (h : s ∈ segments path) :
    '/' ∉ s.data := by
  unfold segments at h
  rw [List.mem_map] at h
  obtain ⟨seg, hseg, rfl⟩ := h
  exact not_mem_of_mem_splitSlash _ seg hseg

theorem segments_joinSlash (segs : List String) (hne : segs ≠ [])
    (h : ∀ s ∈ segs, '/' ∉ s.data) : segments (joinSlash segs) = segs := by
  induction segs with
  | nil => exact absurd rfl hne
  | cons s rest ih =>
    cases rest with
    | nil =>
      exact segments_of_slashFree s (h s (List.mem_cons_self _ _))
    | cons t rest =>
      rw [joinSlash, segments_append, segments_of_slashFree s (h s (List.mem_cons_self _ _)),
        ih (by simp) (fun x hx => h x (List.mem_cons_of_mem _ hx))]
      rfl

theorem joinSlash_optSeg (s : String) : joinSlash (optSeg s) = s := by
  unfold optSeg
  by_cases h : s = ""
  · simp [h, joinSlash]
  · simp [h, joinSlash]

end K8s

namespace K8s

theorem append_ne_empty (s t : String) (h : s ≠ "") : s ++ t ≠ "" := by
  intro he
  apply h
  have hd := congrArg String.data he
  rw [String.data_append] at hd
  apply String.ext
  exact (List.append_eq_nil.mp hd).1

theorem joinSlash_ne_empty (s : String) (rest : List String) (h : s ≠ "") :
    joinSlash (s :: rest) ≠ "" := by
  cases rest with
  | nil => exact h
  | cons t rest =>
    rw [joinSlash, String.append_assoc]
    exact append_ne_empty _ _ h

theorem segments_empty : segments "" = [""] := rfl

theorem foldl_cleanStep_plain (rooted : Bool) (segs out : List String)
    (h : ∀ s ∈ segs, s = "" ∨ Plain s) :
    segs.foldl (cleanStep rooted) (out, 0)
      = (out ++ segs.filter (fun s => decide (s ≠ "")), 0) := by
  induction segs generalizing out with
  | nil => simp
  | cons s rest ih =>
    rw [List.foldl_cons]
    have hrest : ∀ x ∈ rest, x = "" ∨ Plain x := fun x hx => h x (List.mem_cons_of_mem _ hx)
    rcases h s (List.mem_cons_self _ _) with hs | hs
    · subst hs
      have : cleanStep rooted (out, 0) "" = (out, 0) := by simp [cleanStep]
      rw [this, ih out hrest]
      simp
    · obtain ⟨h1, -, h3, h4⟩ := hs
      have : cleanStep rooted (out, 0) s = (out ++ [s], 0) := by simp [cleanStep, h1, h3, h4]
      rw [this, ih (out ++ [s]) hrest]
      simp [h1]

theorem segments_head_of_rooted (path : String) (h : path.data.head? = some '/') :
    (segments path).head? = some "" := by
  unfold segments
  cases hd : path.data with
  | nil => simp [hd] at h
  | cons ch rest =>
    rw [hd] at h
    simp only [List.head?_cons, Option.some.injEq] at h
    subst h
    simp [splitSlash]

theorem Clean_of_plain (path : String) (hne : path ≠ "")
    (hhead : (segments path).head? ≠ some "")
    (hplain : ∀ s ∈ segments path, s = "" ∨ Plain s)
    (hsome : (segments path).filter (fun s => decide (s ≠ "")) ≠ []) :
    Clean path = joinSlash ((segments path).filter (fun s => decide (s ≠ ""))) := by
  unfold Clean
  have hr : ¬ path.data.head? = some '/' := fun h => hhead (segments_head_of_rooted path h)
  simp only [hne, if_false, hr, decide_False, Bool.false_eq_true]
  rw [foldl_cleanStep_plain false _ [] hplain]
  simp only [List.nil_append]
  have : ((segments path).filter (fun s => decide (s ≠ ""))).isEmpty = false := by
    cases hf : (segments path).filter (fun s => decide (s ≠ "")) with
    | nil => exact absurd hf hsome
    | cons a l => rfl
  rw [this]
  simp

end K8s

namespace K8s

theorem segments_ne_nil (path : String) : segments path ≠ [] := by
  unfold segments
  intro h
  exact splitSlash_ne_nil _ (List.map_eq_nil_iff.mp h)

theorem segments_joinSlash_plain (p : List String) (h : ∀ s ∈ p, Plain s) :
    segments (joinSlash p) = if p = [] then [""] else p := by
  by_cases hp : p = []
  · subst hp
    rfl
  · rw [if_neg hp]
    exact segments_joinSlash p hp (fun s hs => (h s hs).2.1)

theorem joinStep_of_ne (buf e : String) (h : buf ≠ "") : joinStep buf e = buf ++ "/" ++ e := by
  unfold joinStep
  simp [h]

theorem joinBuf_nonempty (parts : List (List String)) (buf : String) (hbuf : buf ≠ "")
    (hplain : ∀ p ∈ parts, ∀ s ∈ p, Plain s) :
    (parts.map joinSlash).foldl joinStep buf ≠ "" ∧
    (segments ((parts.map joinSlash).foldl joinStep buf)).head? = (segments buf).head? ∧
    (segments ((parts.map joinSlash).foldl joinStep buf)).filter (fun s => decide (s ≠ ""))
      = (segments buf).filter (fun s => decide (s ≠ "")) ++ parts.flatten ∧
    (∀ s ∈ segments ((parts.map joinSlash).foldl joinStep buf),
      s ∈ segments buf ∨ s = "" ∨ Plain s) := by
  induction parts generalizing buf with
  | nil => exact ⟨hbuf, rfl, by simp, fun s hs => Or.inl hs⟩
  | cons p rest ih =>
    have hp : ∀ s ∈ p, Plain s := hplain p (List.mem_cons_self _ _)
    have hrest : ∀ q ∈ rest, ∀ s ∈ q, Plain s := fun q hq => hplain q (List.mem_cons_of_mem _ hq)
    rw [List.map_cons, List.foldl_cons, joinStep_of_ne buf _ hbuf]
    have hne : buf ++ "/" ++ joinSlash p ≠ "" := by
      rw [String.append_assoc]
      exact append_ne_empty _ _ hbuf
    obtain ⟨h1, h2, h3, h4⟩ := ih (buf ++ "/" ++ joinSlash p) hne hrest
    have hseg : segments (buf ++ "/" ++ joinSlash p)
        = segments buf ++ (if p = [] then [""] else p) := by
      rw [segments_append, segments_joinSlash_plain p hp]
    refine ⟨h1, ?_, ?_, ?_⟩
    · rw [h2, hseg]
      cases hb : segments buf with
      | nil => exact absurd hb (segments_ne_nil buf)
      | cons a l => rfl
    · rw [h3, hseg, List.filter_append, List.flatten_cons, List.append_assoc]
      congr 1
      congr 1
      by_cases hpe : p = []
      · subst hpe
        simp
      · rw [if_neg hpe, List.filter_eq_self]
        intro s hs
        simpa using (hp s hs).1
    · intro s hs
      rcases h4 s hs with h | h
      · rw [hseg, List.mem_append] at h
        rcases h with h | h
        · exact Or.inl h
        · by_cases hpe : p = []
          · subst hpe
            simp only [if_true, List.mem_singleton] at h
            exact Or.inr (Or.inl h)
          · rw [if_neg hpe] at h
            exact Or.inr (Or.inr (hp s h))
      · exact Or.inr h

theorem joinBuf_empty (parts : List (List String))
    (hplain : ∀ p ∈ parts, ∀ s ∈ p, Plain s) (hsome : parts.flatten ≠ []) :
    (parts.map joinSlash).foldl joinStep "" ≠ "" ∧
    (segments ((parts.map joinSlash).foldl joinStep "")).head? ≠ some "" ∧
    (segments ((parts.map joinSlash).foldl joinStep "")).filter (fun s => decide (s ≠ ""))
      = parts.flatten ∧
    (∀ s ∈ segments ((parts.map joinSlash).foldl joinStep ""), s = "" ∨ Plain s) := by
  induction parts with
  | nil => exact absurd rfl hsome
  | cons p rest ih =>
    have hp : ∀ s ∈ p, Plain s := hplain p (List.mem_cons_self _ _)
    have hrest : ∀ q ∈ rest, ∀ s ∈ q, Plain s := fun q hq => hplain q (List.mem_cons_of_mem _ hq)
    rw [List.map_cons, List.foldl_cons]
    cases p with
    | nil =>
      have hstep : joinStep "" (joinSlash []) = "" := by simp [joinStep, joinSlash]
      rw [hstep]
      rw [List.flatten_cons, List.nil_append] at hsome ⊢
      exact ih hrest hsome
    | cons s0 more =>
      have hs0 : Plain s0 := hp s0 (List.mem_cons_self _ _)
      have hne : joinSlash (s0 :: more) ≠ "" := joinSlash_ne_empty s0 more hs0.1
      have hstep : joinStep "" (joinSlash (s0 :: more)) = joinSlash (s0 :: more) := by
        unfold joinStep
        simp [hne]
      rw [hstep]
      obtain ⟨h1, h2, h3, h4⟩ := joinBuf_nonempty rest _ hne hrest
      have hseg : segments (joinSlash (s0 :: more)) = s0 :: more :=
        segments_joinSlash _ (by simp) (fun s hs => (hp s hs).2.1)
      rw [hseg] at h2 h3 h4
      refine ⟨h1, ?_, ?_, ?_⟩
      · rw [h2]
        simp only [List.head?_cons, ne_eq, Option.some.injEq]
        exact hs0.1
      · rw [h3, List.flatten_cons, List.filter_eq_self.mpr]
        intro s hs
        simpa using (hp s hs).1
      · intro s hs
        rcases h4 s hs with h | h
        · exact Or.inr (hp s h)
        · exact h

/-- The library function `path.Join` on elements that are empty or made of plain
segments: the segments, joined by slashes. -/
theorem Join_parts (parts : List (List String))
    (hplain : ∀ p ∈ parts, ∀ s ∈ p, Plain s) (hsome : parts.flatten ≠ []) :
    Join (parts.map joinSlash) = joinSlash parts.flatten := by
  obtain ⟨h1, h2, h3, h4⟩ := joinBuf_empty parts hplain hsome
  unfold Join
  have hall : (parts.map joinSlash).all (fun e => decide (e = "")) = false := by
    rw [List.all_eq_false]
    obtain ⟨s, hs⟩ := List.exists_mem_of_ne_nil _ hsome
    rw [List.mem_flatten] at hs
    obtain ⟨p, hp, hsp⟩ := hs
    refine ⟨joinSlash p, List.mem_map.mpr ⟨p, hp, rfl⟩, ?_⟩
    cases p with
    | nil => cases hsp
    | cons s0 more =>
      have := joinSlash_ne_empty s0 more (hplain _ hp s0 (List.mem_cons_self _ _)).1
      simpa using this
  rw [hall]
  simp only [Bool.false_eq_true, if_false]
  rw [Clean_of_plain _ h1 h2 h4 (by rw [h3]; exact hsome), h3]

end K8s

/-! ## Lemmas on the two regular expressions -/

namespace K8s

theorem findSuffix_some {α : Type} (m : List String → Option α) (segs : List String) (x : α)
    (h : findSuffix m segs = some x) : ∃ suf, suf <:+ segs ∧ m suf = some x := by
  induction segs with
  | nil => exact ⟨[], List.suffix_refl _, h⟩
  | cons s rest ih =>
    unfold findSuffix at h
    cases hm : m (s :: rest) with
    | some y =>
      rw [hm] at h
      simp only [Option.some.injEq] at h
      subst h
      exact ⟨s :: rest, List.suffix_refl _, hm⟩
    | none =>
      rw [hm] at h
      obtain ⟨suf, hsuf, hx⟩ := ih h
      exact ⟨suf, hsuf.trans (List.suffix_cons s rest), hx⟩

theorem findSuffix_of_match {α : Type} (m : List String → Option α) (segs : List String)
    (x : α) (h : m segs = some x) : findSuffix m segs = some x := by
  cases segs with
  | nil => exact h
  | cons s rest =>
    unfold findSuffix
    rw [h]

theorem findSuffix_skip {α : Type} (m : List String → Option α) (s : String)
    (rest : List String) (h : m (s :: rest) = none) :
    findSuffix m (s :: rest) = findSuffix m rest := by
  rw [findSuffix, h]

theorem apiTailMatch_some (tail : List String) (ns res name : String)
    (h : apiTailMatch tail = some (ns, res, name)) :
    res ∈ tail ∧ res ≠ "" ∧ (ns = "" ∨ ns ∈ tail) ∧ (name = "" ∨ name ∈ tail) := by
  match tail, h with
  | [a], h =>
    simp only [apiTailMatch] at h
    split at h
    · simp only [Option.some.injEq, Prod.mk.injEq] at h
      obtain ⟨rfl, rfl, rfl⟩ := h
      simp_all
    · cases h
  | [a, b], h =>
    simp only [apiTailMatch] at h
    split at h
    · simp only [Option.some.injEq, Prod.mk.injEq] at h
      obtain ⟨rfl, rfl, rfl⟩ := h
      simp_all
    · cases h
  | [a, b, c], h =>
    simp only [apiTailMatch] at h
    split at h
    · simp only [Option.some.injEq, Prod.mk.injEq] at h
      obtain ⟨rfl, rfl, rfl⟩ := h
      simp_all
    · cases h
  | [a, b, c, d], h =>
    simp only [apiTailMatch] at h
    split at h
    · simp only [Option.some.injEq, Prod.mk.injEq] at h
      obtain ⟨rfl, rfl, rfl⟩ := h
      simp_all
    · cases h
  | [], h => simp [apiTailMatch] at h
  | _ :: _ :: _ :: _ :: _ :: _, h => simp [apiTailMatch] at h

theorem apiSuffixMatch_some (segs : List String) (parts : ApiParts)
    (h : apiSuffixMatch segs = some parts) :
    parts.Resource ∈ segs ∧ parts.Resource ≠ "" ∧
    (parts.Namespace = "" ∨ parts.Namespace ∈ segs) ∧
    (parts.Name = "" ∨ parts.Name ∈ segs) := by
  unfold apiSuffixMatch at h
  match segs, h with
  | [], h => simp at h
  | [_], h => simp at h
  | s0 :: s1 :: rest, h =>
    simp only at h
    by_cases h0 : s0 = "apis"
    · simp only [h0, if_true] at h
      match rest, h with
      | [], h => simp at h
      | s2 :: tail, h =>
        simp only at h
        split at h
        · cases ht : apiTailMatch tail with
          | none => simp [ht] at h
          | some t =>
            obtain ⟨ns, res, name⟩ := t
            rw [ht] at h
            simp only [Option.map_some', Option.some.injEq] at h
            subst h
            obtain ⟨a1, a2, a3, a4⟩ := apiTailMatch_some tail ns res name ht
            refine ⟨by simp [a1], a2, ?_, ?_⟩
            · rcases a3 with a3 | a3
              · exact Or.inl a3
              · exact Or.inr (by simp [a3])
            · rcases a4 with a4 | a4
              · exact Or.inl a4
              · exact Or.inr (by simp [a4])
        · cases h
    · simp only [h0, if_false] at h
      by_cases h1 : s0 = "api"
      · simp only [h1, if_true] at h
        split at h
        · cases ht : apiTailMatch rest with
          | none => simp [ht] at h
          | some t =>
            obtain ⟨ns, res, name⟩ := t
            rw [ht] at h
            simp only [Option.map_some', Option.some.injEq] at h
            subst h
            obtain ⟨a1, a2, a3, a4⟩ := apiTailMatch_some rest ns res name ht
            refine ⟨by simp [a1], a2, ?_, ?_⟩
            · rcases a3 with a3 | a3
              · exact Or.inl a3
              · exact Or.inr (by simp [a3])
            · rcases a4 with a4 | a4
              · exact Or.inl a4
              · exact Or.inr (by simp [a4])
        · cases h
      · simp [h1] at h

theorem apiPathFind_captures (path : String) (parts : ApiParts)
    (h : apiPathFind path = some parts) :
    parts.Resource ≠ "" ∧ '/' ∉ parts.Resource.data ∧ '/' ∉ parts.Namespace.data ∧
    '/' ∉ parts.Name.data := by
  unfold apiPathFind at h
  obtain ⟨suf, hsuf, hm⟩ := findSuffix_some _ _ _ h
  obtain ⟨a1, a2, a3, a4⟩ := apiSuffixMatch_some suf parts hm
  have hfree : ∀ s ∈ suf, '/' ∉ s.data :=
    fun s hs => slashFree_of_mem_segments path s (hsuf.subset hs)
  refine ⟨a2, hfree _ a1, ?_, ?_⟩
  · rcases a3 with a3 | a3
    · rw [a3]
      simp
    · exact hfree _ a3
  · rcases a4 with a4 | a4
    · rw [a4]
      simp
    · exact hfree _ a4

end K8s

namespace K8s

theorem plain_optSeg (s : String) (h : s = "" ∨ Plain s) : ∀ x ∈ optSeg s, Plain x := by
  intro x hx
  unfold optSeg at hx
  rcases h with h | h
  · simp [h] at hx
  · simp only [h.1, if_false, List.mem_singleton] at hx
    subst hx
    exact h

theorem Join_console_ns (ns res name : String) (hns : Plain ns) (hres : Plain res)
    (hname : name = "" ∨ Plain name) :
    Join ["k8s", "ns", ns, res, name] = joinSlash (["k8s", "ns", ns, res] ++ optSeg name) := by
  have hl : ["k8s", "ns", ns, res, name]
      = ([["k8s"], ["ns"], [ns], [res], optSeg name]).map joinSlash := by
    simp [joinSlash, joinSlash_optSeg]
  rw [hl, Join_parts]
  · simp
  · intro p hp s hs
    simp only [List.mem_cons, List.mem_singleton, List.not_mem_nil, or_false] at hp
    rcases hp with rfl | rfl | rfl | rfl | rfl
    · simp only [List.mem_singleton] at hs
      subst hs
      decide
    · simp only [List.mem_singleton] at hs
      subst hs
      decide
    · simp only [List.mem_singleton] at hs
      subst hs
      exact hns
    · simp only [List.mem_singleton] at hs
      subst hs
      exact hres
    · exact plain_optSeg name hname s hs
  · simp

theorem Join_console_cluster (res name : String) (hres : Plain res)
    (hname : name = "" ∨ Plain name) :
    Join ["k8s", "cluster", res, name] = joinSlash (["k8s", "cluster", res] ++ optSeg name) := by
  have hl : ["k8s", "cluster", res, name]
      = ([["k8s"], ["cluster"], [res], optSeg name]).map joinSlash := by
    simp [joinSlash, joinSlash_optSeg]
  rw [hl, Join_parts]
  · simp
  · intro p hp s hs
    simp only [List.mem_cons, List.mem_singleton, List.not_mem_nil, or_false] at hp
    rcases hp with rfl | rfl | rfl | rfl
    · simp only [List.mem_singleton] at hs
      subst hs
      decide
    · simp only [List.mem_singleton] at hs
      subst hs
      decide
    · simp only [List.mem_singleton] at hs
      subst hs
      exact hres
    · exact plain_optSeg name hname s hs
  · simp

theorem slashFree_optSeg (s : String) (h : s = "" ∨ Plain s) :
    ∀ x ∈ optSeg s, '/' ∉ x.data :=
  fun x hx => (plain_optSeg s h x hx).2.1

theorem consolePathFind_ns (ns res name : String) (hns : Plain ns) (hres : Plain res)
    (hname : name = "" ∨ Plain name) :
    consolePathFind (joinSlash (["k8s", "ns", ns, res] ++ optSeg name))
      = some ⟨ns, res, name⟩ := by
  unfold consolePathFind
  rw [segments_joinSlash _ (by simp)]
  · apply findSuffix_of_match
    unfold optSeg
    rcases hname with hn | hn
    · subst hn
      simp [consoleSuffixMatch, consoleTailMatch, hns.1, hres.1]
    · simp [consoleSuffixMatch, consoleTailMatch, hns.1, hres.1, hn.1]
  · intro s hs
    simp only [List.cons_append, List.nil_append, List.mem_cons] at hs
    rcases hs with rfl | rfl | rfl | rfl | hs
    · decide
    · decide
    · exact hns.2.1
    · exact hres.2.1
    · exact slashFree_optSeg name hname s hs

theorem consolePathFind_cluster (res name : String) (hres : Plain res)
    (hname : name = "" ∨ Plain name) :
    consolePathFind (joinSlash (["k8s", "cluster", res] ++ optSeg name))
      = some ⟨"", res, name⟩ := by
  unfold consolePathFind
  rw [segments_joinSlash _ (by simp)]
  · have hskip : consoleSuffixMatch (["k8s", "cluster", res] ++ optSeg name) = none := by
      simp [consoleSuffixMatch]
    rw [List.cons_append, findSuffix_skip _ _ _ (by simpa using hskip)]
    apply findSuffix_of_match
    unfold optSeg
    rcases hname with hn | hn
    · subst hn
      simp [consoleSuffixMatch, consoleTailMatch, hres.1]
    · simp [consoleSuffixMatch, consoleTailMatch, hres.1, hn.1]
  · intro s hs
    simp only [List.cons_append, List.nil_append, List.mem_cons] at hs
    rcases hs with rfl | rfl | rfl | hs
    · decide
    · decide
    · exact hres.2.1
    · exact slashFree_optSeg name hname s hs

end K8s

namespace K8s

theorem optSeg_of_plain (s : String) (h : Plain s) : optSeg s = [s] := by
  unfold optSeg
  simp [h.1]

theorem Join_three (a : List String) (b c : String) (ha : ∀ s ∈ a, Plain s) (hne : a ≠ [])
    (hb : b = "" ∨ Plain b) (hc : c = "" ∨ Plain c) :
    Join [joinSlash a, b, c] = joinSlash (a ++ optSeg b ++ optSeg c) := by
  have hl : [joinSlash a, b, c] = ([a, optSeg b, optSeg c]).map joinSlash := by
    simp [joinSlash_optSeg]
  rw [hl, Join_parts]
  · simp
  · intro p hp s hs
    simp only [List.mem_cons, List.mem_singleton, List.not_mem_nil, or_false] at hp
    rcases hp with rfl | rfl | rfl
    · exact ha s hs
    · exact plain_optSeg b hb s hs
    · exact plain_optSeg c hc s hs
  · simp [hne]

theorem plain_apiSegs (group version ns resource name : String)
    (hg : group = "" ∨ Plain group) (hv : Plain version) (hns : ns = "" ∨ Plain ns)
    (hres : Plain resource) (hname : name = "" ∨ Plain name) :
    ∀ s ∈ apiSegs group version ns resource name, Plain s := by
  intro s hs
  unfold apiSegs at hs
  simp only [List.mem_append, List.mem_singleton] at hs
  rcases hs with ((((hs | hs) | hs) | hs) | hs) | hs
  · subst hs
    split <;> decide
  · exact plain_optSeg group hg s hs
  · subst hs
    exact hv
  · rcases hns with h | h
    · simp [h] at hs
    · simp only [h.1, if_false, List.mem_cons, List.mem_singleton, List.not_mem_nil,
        or_false] at hs
      rcases hs with rfl | rfl
      · decide
      · exact h
  · subst hs
    exact hres
  · exact plain_optSeg name hname s hs

theorem storePath_eq (group version ns resource name : String)
    (hg : group = "" ∨ Plain group) (hv : Plain version) (hns : ns = "" ∨ Plain ns)
    (hres : Plain resource) (hname : name = "" ∨ Plain name) :
    Join [(if ns ≠ "" then
            Join [Join [if group = "" then "api" else "apis", group, version], "namespaces", ns]
          else Join [if group = "" then "api" else "apis", group, version]), resource, name]
      = joinSlash (apiSegs group version ns resource name) := by
  have hpre : Plain (if group = "" then "api" else "apis") := by
    split <;> decide
  have h1 : Join [if group = "" then "api" else "apis", group, version]
      = joinSlash ([if group = "" then "api" else "apis"] ++ optSeg group ++ [version]) := by
    have := Join_three [if group = "" then "api" else "apis"] group version
      (by intro s hs; simp only [List.mem_singleton] at hs; subst hs; exact hpre)
      (by simp) hg (Or.inr hv)
    rw [optSeg_of_plain version hv] at this
    simpa [joinSlash] using this
  have hbase : ∀ s ∈ [if group = "" then "api" else "apis"] ++ optSeg group ++ [version],
      Plain s := by
    intro s hs
    simp only [List.mem_append, List.mem_singleton] at hs
    rcases hs with (hs | hs) | hs
    · subst hs
      exact hpre
    · exact plain_optSeg group hg s hs
    · subst hs
      exact hv
  rw [h1]
  unfold apiSegs
  rcases hns with hn | hn
  · subst hn
    simp only [ne_eq, not_true_eq_false, if_false, if_true, List.append_nil]
    have := Join_three _ resource name hbase (by simp) (Or.inr hres) hname
    rw [optSeg_of_plain resource hres] at this
    exact this
  · simp only [ne_eq, hn.1, not_false_eq_true, if_true, if_false]
    have h2 := Join_three _ "namespaces" ns hbase (by simp) (Or.inr (by decide)) (Or.inr hn)
    rw [optSeg_of_plain ns hn, optSeg_of_plain "namespaces" (by decide)] at h2
    rw [h2]
    have h3 := Join_three
      ([if group = "" then "api" else "apis"] ++ optSeg group ++ [version]
        ++ ["namespaces"] ++ [ns]) resource name
      (by
        intro s hs
        simp only [List.mem_append, List.mem_singleton] at hs
        rcases hs with (hs | hs) | hs
        · exact hbase s (by
            simp only [List.mem_append, List.mem_singleton]
            exact hs)
        · subst hs
          decide
        · subst hs
          exact hn)
      (by simp) (Or.inr hres) hname
    rw [optSeg_of_plain resource hres] at h3
    rw [h3]
    simp

theorem apiPathFind_apiSegs (group version ns resource name : String)
    (hg : group = "" ∨ Plain group) (hv : Plain version) (hns : ns = "" ∨ Plain ns)
    (hres : Plain resource) (hname : name = "" ∨ Plain name) :
    apiPathFind (joinSlash (apiSegs group version ns resource name))
      = some ⟨group, version, ns, resource, name⟩ := by
  unfold apiPathFind
  rw [segments_joinSlash _ (by simp [apiSegs])
    (fun s hs => (plain_apiSegs group version ns resource name hg hv hns hres hname s hs).2.1)]
  apply findSuffix_of_match
  unfold apiSegs optSeg
  rcases hg with hg | hg <;> rcases hns with hns | hns <;> rcases hname with hname | hname
  · subst hg hns hname
    simp [apiSuffixMatch, apiTailMatch, hv.1, hres.1]
  · subst hg hns
    simp [apiSuffixMatch, apiTailMatch, hv.1, hres.1, hname.1]
  · subst hg hname
    simp [apiSuffixMatch, apiTailMatch, hv.1, hres.1, hns.1]
  · subst hg
    simp [apiSuffixMatch, apiTailMatch, hv.1, hres.1, hns.1, hname.1]
  · subst hns hname
    simp [apiSuffixMatch, apiTailMatch, hv.1, hres.1, hg.1]
  · subst hns
    simp [apiSuffixMatch, apiTailMatch, hv.1, hres.1, hg.1, hname.1]
  · subst hname
    simp [apiSuffixMatch, apiTailMatch, hv.1, hres.1, hg.1, hns.1]
  · simp [apiSuffixMatch, apiTailMatch, hv.1, hres.1, hg.1, hns.1, hname.1]

end K8s

/-! ## The contract of the Kubernetes references -/

namespace K8s

theorem apiPathFind_rooted (group version ns resource name : String)
    (hg : group = "" ∨ Plain group) (hv : Plain version) (hns : ns = "" ∨ Plain ns)
    (hres : Plain resource) (hname : name = "" ∨ Plain name) :
    apiPathFind ("/" ++ joinSlash (apiSegs group version ns resource name))
      = some ⟨group, version, ns, resource, name⟩ := by
  have h := apiPathFind_apiSegs group version ns resource name hg hv hns hres hname
  unfold apiPathFind at h ⊢
  have hseg : segments ("/" ++ joinSlash (apiSegs group version ns resource name))
      = "" :: segments (joinSlash (apiSegs group version ns resource name)) := by
    have := segments_append "" (joinSlash (apiSegs group version ns resource name))
    simpa [segments_empty] using this
  rw [hseg, findSuffix_skip _ _ _ (by
    cases segments (joinSlash (apiSegs group version ns resource name)) <;>
      simp [apiSuffixMatch])]
  exact h

theorem parsePath_of_find (s : Store E) (path : String) (parts : ApiParts)
    (gvk : GroupVersionKind) (more : List GroupVersionKind)
    (hfind : apiPathFind path = some parts)
    (hk : s.KindsFor ⟨parts.Group, parts.Version, parts.Resource⟩ = (gvk :: more, none)) :
    s.parsePath path
      = .ok (gvk, ⟨parts.Group, parts.Version, parts.Resource⟩,
          ⟨parts.Namespace, parts.Name⟩) := by
  unfold Store.parsePath
  rw [hfind]
  simp only
  rw [hk]

theorem RefStoreToConsole_of_find (s : Store E) (cls : GroupVersionKind) (ref : Reference)
    (parts : ApiParts) (gvk : GroupVersionKind) (more : List GroupVersionKind)
    (hfind : apiPathFind ref.Path = some parts)
    (hk : s.KindsFor ⟨parts.Group, parts.Version, parts.Resource⟩ = (gvk :: more, none))
    (hns : parts.Namespace = "" ∨ Plain parts.Namespace) (hres : Plain parts.Resource)
    (hname : parts.Name = "" ∨ Plain parts.Name) :
    s.RefStoreToConsole cls ref
      = .ok ⟨joinSlash (["k8s"]
          ++ (if parts.Namespace = "" then ["cluster"] else ["ns", parts.Namespace])
          ++ [parts.Resource] ++ optSeg parts.Name), ""⟩ := by
  unfold Store.RefStoreToConsole
  rw [parsePath_of_find s ref.Path parts gvk more hfind hk]
  simp only
  rcases hns with hn | hn
  · simp only [hn, ne_eq, not_true_eq_false, if_false, if_true]
    rw [Join_console_cluster _ _ hres hname]
    rfl
  · simp only [ne_eq, hn.1, not_false_eq_true, if_true, if_false]
    rw [Join_console_ns _ _ _ hn hres hname]
    rfl

/-- C18, as the code has it: the console path has no leading slash. For a version,
namespace, resource and name that are not empty, have no slash and are not `.` or
`..`, a group that is empty (the path starts `/api/`) or like them (the path
starts `/apis/<group>/`), and a REST mapper that knows the resource, `parsePath`
yields the namespace, resource and name of the namespaced path and
`RefStoreToConsole` returns `k8s/ns/<ns>/<resource>/<name>`; for the path without
the namespaces segment they yield an empty namespace and
`k8s/cluster/<resource>/<name>`. -/
theorem RefStoreToConsole_of_store_path (s : Store E) (cls : GroupVersionKind)
    (group version ns resource name query : String)
    (gvk : GroupVersionKind) (more : List GroupVersionKind)
    (hg : group = "" ∨ Plain group) (hv : Plain version) (hns : Plain ns)
    (hres : Plain resource) (hname : Plain name)
    (hk : s.KindsFor ⟨group, version, resource⟩ = (gvk :: more, none)) :
    s.parsePath ((if group = "" then "/api/" ++ version else "/apis/" ++ group ++ "/" ++ version)
        ++ "/namespaces/" ++ ns ++ "/" ++ resource ++ "/" ++ name)
      = .ok (gvk, ⟨group, version, resource⟩, ⟨ns, name⟩) ∧
    s.RefStoreToConsole cls
        ⟨(if group = "" then "/api/" ++ version else "/apis/" ++ group ++ "/" ++ version)
          ++ "/namespaces/" ++ ns ++ "/" ++ resource ++ "/" ++ name, query⟩
      = .ok ⟨"k8s/ns/" ++ ns ++ "/" ++ resource ++ "/" ++ name, ""⟩ ∧
    s.parsePath ((if group = "" then "/api/" ++ version else "/apis/" ++ group ++ "/" ++ version)
        ++ "/" ++ resource ++ "/" ++ name)
      = .ok (gvk, ⟨group, version, resource⟩, ⟨"", name⟩) ∧
    s.RefStoreToConsole cls
        ⟨(if group = "" then "/api/" ++ version else "/apis/" ++ group ++ "/" ++ version)
          ++ "/" ++ resource ++ "/" ++ name, query⟩
      = .ok ⟨"k8s/cluster/" ++ resource ++ "/" ++ name, ""⟩ := by
  have hp1 : (if group = "" then "/api/" ++ version else "/apis/" ++ group ++ "/" ++ version)
        ++ "/namespaces/" ++ ns ++ "/" ++ resource ++ "/" ++ name
      = "/" ++ joinSlash (apiSegs group version ns resource name) := by
    apply String.ext
    rcases hg with h | h
    · simp [h, apiSegs, optSeg, hns.1, hname.1, joinSlash, String.data_append]
    · simp [h.1, apiSegs, optSeg, hns.1, hname.1, joinSlash, String.data_append]
  have hp2 : (if group = "" then "/api/" ++ version else "/apis/" ++ group ++ "/" ++ version)
        ++ "/" ++ resource ++ "/" ++ name
      = "/" ++ joinSlash (apiSegs group version "" resource name) := by
    apply String.ext
    rcases hg with h | h
    · simp [h, apiSegs, optSeg, hname.1, joinSlash, String.data_append]
    · simp [h.1, apiSegs, optSeg, hname.1, joinSlash, String.data_append]
  have hc1 : "k8s/ns/" ++ ns ++ "/" ++ resource ++ "/" ++ name
      = joinSlash (["k8s"] ++ (if ns = "" then ["cluster"] else ["ns", ns])
          ++ [resource] ++ optSeg name) := by
    apply String.ext
    simp [optSeg, hns.1, hname.1, joinSlash, String.data_append]
  have hc2 : "k8s/cluster/" ++ resource ++ "/" ++ name
      = joinSlash (["k8s"] ++ (if ("" : String) = "" then ["cluster"] else ["ns", ""])
          ++ [resource] ++ optSeg name) := by
    apply String.ext
    simp [optSeg, hname.1, joinSlash, String.data_append]
  have hf1 := apiPathFind_rooted group version ns resource name hg hv (Or.inr hns) hres
    (Or.inr hname)
  have hf2 := apiPathFind_rooted group version "" resource name hg hv (Or.inl rfl) hres
    (Or.inr hname)
  rw [hp1, hp2, hc1, hc2]
  exact ⟨parsePath_of_find s _ _ gvk more hf1 hk,
    RefStoreToConsole_of_find s cls ⟨_, query⟩ _ gvk more hf1 hk (Or.inr hns) hres (Or.inr hname),
    parsePath_of_find s _ _ gvk more hf2 hk,
    RefStoreToConsole_of_find s cls ⟨_, query⟩ _ gvk more hf2 hk (Or.inl rfl) hres
      (Or.inr hname)⟩

/-- The path of pod `p1` in namespace `ns1` parses to namespace `ns1`, resource
`pods` and name `p1`, and its console path is `k8s/ns/ns1/pods/p1`. -/
theorem RefStoreToConsole_of_store_path_witness :
    Example.store.parsePath "/api/v1/namespaces/ns1/pods/p1"
      = .ok (⟨"", "v1", "Pod"⟩, ⟨"", "v1", "pods"⟩, ⟨"ns1", "p1"⟩) ∧
    Example.store.RefStoreToConsole ⟨"", "v1", "Pod"⟩ ⟨"/api/v1/namespaces/ns1/pods/p1", ""⟩
      = .ok ⟨"k8s/ns/ns1/pods/p1", ""⟩ := by
  have h := RefStoreToConsole_of_store_path Example.store ⟨"", "v1", "Pod"⟩
    "" "v1" "ns1" "pods" "p1" "" ⟨"", "v1", "Pod"⟩ [] (Or.inl rfl) (by decide) (by decide)
    (by decide) (by decide) (by decide)
  exact ⟨h.1, h.2.1⟩

/-- C18 fails as stated: for `/api/v1/namespaces/ns1/pods/p1` and a REST mapper that
knows pods, `RefStoreToConsole` returns `k8s/ns/ns1/pods/p1`, which is not
`/k8s/ns/ns1/pods/p1`. -/
theorem RefStoreToConsole_has_no_leading_slash :
    Example.store.KindsFor ⟨"", "v1", "pods"⟩ = ([⟨"", "v1", "Pod"⟩], none) ∧
    Example.store.RefStoreToConsole ⟨"", "v1", "Pod"⟩ ⟨"/api/v1/namespaces/ns1/pods/p1", ""⟩
      = .ok ⟨"k8s/ns/ns1/pods/p1", ""⟩ ∧
    Example.store.RefStoreToConsole ⟨"", "v1", "Pod"⟩ ⟨"/api/v1/namespaces/ns1/pods/p1", ""⟩
      ≠ .ok ⟨"/k8s/ns/ns1/pods/p1", ""⟩ := by
  refine ⟨by decide, by decide, by decide⟩

end K8s

namespace K8s

theorem RefStoreToConsole_ok (s : Store E) (cls : GroupVersionKind) (r c : Reference)
    (parts : ApiParts) (hfind : apiPathFind r.Path = some parts)
    (h : s.RefStoreToConsole cls r = .ok c) :
    ∃ gvk more, s.KindsFor ⟨parts.Group, parts.Version, parts.Resource⟩ = (gvk :: more, none) := by
  unfold Store.RefStoreToConsole Store.parsePath at h
  rw [hfind] at h
  simp only at h
  rcases hk : s.KindsFor ⟨parts.Group, parts.Version, parts.Resource⟩ with ⟨gvks, err⟩
  rw [hk] at h
  cases gvks with
  | nil => simp at h
  | cons gvk more =>
    cases err with
    | none => exact ⟨gvk, more, rfl⟩
    | some e => simp at h

/-- C17, as the code has it: the console path keeps the namespace, the resource and
the name, and drops the group and the version. Let `RefStoreToConsole` succeed on
`r` with the console reference `c`, where the path of `r` parses to a namespace,
resource and name none of which is `.` or `..`, and the resource is not
`projects`. Let the REST mapper, asked for the bare resource, return without
error a first kind whose version, and group unless empty, are plain path
elements. Then `RefConsoleToStore(c)` succeeds with that kind and with the store
path of the kind's group and version and the namespace, resource and name of
`r`; its path parses to just these, so it parses as the path of `r` does
when the kind has the group and version of `r`. -/
theorem RefConsoleToStore_after_RefStoreToConsole (s : Store E) (cls : GroupVersionKind)
    (r c : Reference) (parts : ApiParts) (gvk : GroupVersionKind)
    (more : List GroupVersionKind)
    (hfind : apiPathFind r.Path = some parts)
    (hconsole : s.RefStoreToConsole cls r = .ok c)
    (hns : parts.Namespace ≠ "." ∧ parts.Namespace ≠ "..")
    (hres : parts.Resource ≠ "." ∧ parts.Resource ≠ ".." ∧ parts.Resource ≠ "projects")
    (hname : parts.Name ≠ "." ∧ parts.Name ≠ "..")
    (hbare : s.KindsFor ⟨"", "", parts.Resource⟩ = (gvk :: more, none))
    (hgroup : gvk.Group = "" ∨ Plain gvk.Group) (hversion : Plain gvk.Version) :
    s.RefConsoleToStore c
      = some (.ok (gvk, ⟨joinSlash (apiSegs gvk.Group gvk.Version parts.Namespace
          parts.Resource parts.Name), ""⟩)) ∧
    apiPathFind (joinSlash (apiSegs gvk.Group gvk.Version parts.Namespace
          parts.Resource parts.Name))
      = some ⟨gvk.Group, gvk.Version, parts.Namespace, parts.Resource, parts.Name⟩ ∧
    (gvk.Group = parts.Group → gvk.Version = parts.Version →
      apiPathFind (joinSlash (apiSegs gvk.Group gvk.Version parts.Namespace
          parts.Resource parts.Name)) = apiPathFind r.Path) := by
  obtain ⟨c1, c2, c3, c4⟩ := apiPathFind_captures r.Path parts hfind
  have pres : Plain parts.Resource := ⟨c1, c2, hres.1, hres.2.1⟩
  have pns : parts.Namespace = "" ∨ Plain parts.Namespace := by
    by_cases h : parts.Namespace = ""
    · exact Or.inl h
    · exact Or.inr ⟨h, c3, hns.1, hns.2⟩
  have pname : parts.Name = "" ∨ Plain parts.Name := by
    by_cases h : parts.Name = ""
    · exact Or.inl h
    · exact Or.inr ⟨h, c4, hname.1, hname.2⟩
  obtain ⟨gvk0, more0, hk⟩ := RefStoreToConsole_ok s cls r c parts hfind hconsole
  have hc := RefStoreToConsole_of_find s cls r parts gvk0 more0 hfind hk pns pres pname
  rw [hconsole] at hc
  simp only [Except.ok.injEq] at hc
  have hpath := apiPathFind_apiSegs gvk.Group gvk.Version parts.Namespace parts.Resource
    parts.Name hgroup hversion pns pres pname
  refine ⟨?_, hpath, ?_⟩
  · have hcfind : consolePathFind c.Path
        = some ⟨parts.Namespace, parts.Resource, parts.Name⟩ := by
      rw [hc]
      simp only
      rcases pns with hn | hn
      · rw [hn]
        simp only [if_true]
        exact consolePathFind_cluster _ _ pres pname
      · simp only [hn.1, if_false]
        exact consolePathFind_ns _ _ _ hn pres pname
    unfold Store.RefConsoleToStore
    rw [hcfind]
    simp only [hres.2.2, if_false]
    rw [hbare]
    simp only
    rw [storePath_eq gvk.Group gvk.Version parts.Namespace parts.Resource parts.Name
      hgroup hversion pns pres pname]
  · intro h1 h2
    rw [hpath, hfind, h1, h2]

/-- The reference of pod `p1` in namespace `ns1`: the console reference is
`k8s/ns/ns1/pods/p1`, and `RefConsoleToStore` returns `api/v1/namespaces/ns1/pods/p1`,
which parses as the store path does. -/
theorem RefConsoleToStore_after_RefStoreToConsole_witness :
    Example.store.RefStoreToConsole ⟨"", "v1", "Pod"⟩ ⟨"/api/v1/namespaces/ns1/pods/p1", ""⟩
      = .ok ⟨"k8s/ns/ns1/pods/p1", ""⟩ ∧
    Example.store.RefConsoleToStore ⟨"k8s/ns/ns1/pods/p1", ""⟩
      = some (.ok (⟨"", "v1", "Pod"⟩, ⟨"api/v1/namespaces/ns1/pods/p1", ""⟩)) ∧
    apiPathFind "api/v1/namespaces/ns1/pods/p1"
      = apiPathFind "/api/v1/namespaces/ns1/pods/p1" := by
  have h := RefConsoleToStore_after_RefStoreToConsole Example.store ⟨"", "v1", "Pod"⟩
    ⟨"/api/v1/namespaces/ns1/pods/p1", ""⟩ ⟨"k8s/ns/ns1/pods/p1", ""⟩
    ⟨"", "v1", "ns1", "pods", "p1"⟩ ⟨"", "v1", "Pod"⟩ []
    (by decide) (by decide) (by decide) (by decide) (by decide) (by decide) (by decide)
    (by decide)
  exact ⟨by decide, h.1, h.2.2 rfl rfl⟩

/-- C17 fails as stated: with a REST mapper that answers `apps/v1beta1` when asked
for that version of deployments and `apps/v1` when asked for the bare resource,
the reference `/apis/apps/v1beta1/namespaces/ns1/deployments/d1` converts to the
console reference `k8s/ns/ns1/deployments/d1`, which converts back to
`apis/apps/v1/namespaces/ns1/deployments/d1`: another version. -/
theorem RefConsoleToStore_loses_version :
    Example.store.RefClass ⟨"/apis/apps/v1beta1/namespaces/ns1/deployments/d1", ""⟩
      = .ok ⟨"apps", "v1beta1", "Deployment"⟩ ∧
    Example.store.RefStoreToConsole ⟨"apps", "v1beta1", "Deployment"⟩
        ⟨"/apis/apps/v1beta1/namespaces/ns1/deployments/d1", ""⟩
      = .ok ⟨"k8s/ns/ns1/deployments/d1", ""⟩ ∧
    Example.store.RefConsoleToStore ⟨"k8s/ns/ns1/deployments/d1", ""⟩
      = some (.ok (⟨"apps", "v1", "Deployment"⟩,
          ⟨"apis/apps/v1/namespaces/ns1/deployments/d1", ""⟩)) ∧
    apiPathFind "/apis/apps/v1beta1/namespaces/ns1/deployments/d1"
      = some ⟨"apps", "v1beta1", "ns1", "deployments", "d1"⟩ ∧
    apiPathFind "apis/apps/v1/namespaces/ns1/deployments/d1"
      = some ⟨"apps", "v1", "ns1", "deployments", "d1"⟩ := by
  refine ⟨by decide, by decide, by decide, by decide, by decide⟩

end K8s

end Korrel8r
